import Mathlib

/-! bemobi/log: a shallow embedding of the emission pipeline.

Go strings and byte slices are lists of byte values (`Nat`, one element per byte).
Functions that append to a `*bytes.Buffer` take the buffer content and return the new
content.  A run-time panic is the result `none`.  `*Emitter` pointers are addresses into
an explicit heap, so that sharing and snapshotting are visible in the model.
-/

namespace Log

/-- A Go `string` or `[]byte`: its bytes in order. -/
abbrev Bytes := List Nat

/-- The UTF-8 bytes of a string literal of the source. -/
def bytesOf (s : String) : Bytes := s.toUTF8.data.toList.map UInt8.toNat

/-! ## level.go -/

/-- `type Level byte`. -/
abbrev Level := Nat

def Trace : Level := 0
def Info : Level := 1
def Warn : Level := 2
def Error : Level := 3
def Fatal : Level := 4

/-- `func (l Level) String() string`. -/
def Level.String (l : Level) : Bytes :=
  if l = Trace then bytesOf "debug"
  else if l = Info then bytesOf "info"
  else if l = Warn then bytesOf "warn"
  else if l = Error then bytesOf "error"
  else if l = Fatal then bytesOf "fatal"
  else bytesOf ""

/-! ## Dynamic values (`interface{}`) as the type switches of `writeFields` see them -/

/-- A value passed in a `...interface{}` field list, classified by its dynamic type.
`num`, `float` and `bool` are the thirteen predeclared types named in the fourth case of
the value switch; none of them, nor `string` or `[]byte`, can carry methods.  Every other
dynamic type is `other`, with the result of its `String()` method when it implements
`fmt.Stringer`, of its `Error()` method when it implements `error`, and the text that
`fmt` prints for it under the verb `%v`. -/
inductive Val where
  /-- dynamic type `string` -/
  | str (s : Bytes)
  /-- dynamic type `[]byte` -/
  | byteSlice (s : Bytes)
  /-- `byte, int, int8, int16, int32, int64, uint, uint16, uint32, uint64` -/
  | num (n : Int)
  /-- `float32, float64`, with the text `fmt` prints for it under `%v` -/
  | float (text : Bytes)
  /-- dynamic type `bool` -/
  | bool (b : Bool)
  /-- any other dynamic type -/
  | other (stringer : Option Bytes) (err : Option Bytes) (fmtV : Bytes)
  deriving DecidableEq, Repr

/-- The decimal digits of `n`, most significant first (at most `fuel` of them). -/
def decimalAux : Nat → Nat → Bytes → Bytes
  | 0, _, acc => acc
  | fuel + 1, n, acc =>
    if n < 10 then (48 + n) :: acc
    else decimalAux fuel (n / 10) ((48 + n % 10) :: acc)

/-- What `fmt` prints for an unsigned integer under `%v`. -/
def decimal (n : Nat) : Bytes := decimalAux (n + 1) n []

/-- What `fmt` prints for a signed integer under `%v`. -/
def intText (i : Int) : Bytes :=
  if i < 0 then 45 :: decimal i.natAbs else decimal i.natAbs

/-- What `fmt` prints for a `[]byte` under `%v`: the byte values in brackets. -/
def byteSliceText : Bytes → Bytes
  | [] => [91, 93]
  | b :: bs => 91 :: decimal b ++ (bs.foldr (fun x acc => 32 :: decimal x ++ acc) [93])

/-- The text of `fmt.Sprintf("%v", v)`. -/
def fmtV : Val → Bytes
  | .str s => s
  | .byteSlice s => byteSliceText s
  | .num n => intText n
  | .float t => t
  | .bool b => if b then bytesOf "true" else bytesOf "false"
  | .other _ _ t => t

/-! ## emitter.go -/

/-- The bytes one iteration of the loop of `writeJSONString` writes for the byte `b`. -/
def escapeByte (b : Nat) : Bytes :=
  if b = 34 ∨ b = 92 then [92, b]
  else if b = 8 then [92, 98]
  else if b = 12 then [92, 102]
  else if b = 10 then [92, 110]
  else if b = 13 then [92, 114]
  else if b = 9 then [92, 116]
  else [b]

/-- `func writeJSONString(buf *bytes.Buffer, s string)`. -/
def writeJSONString (buf : Bytes) (s : Bytes) : Bytes :=
  (s.foldl (fun acc b => acc ++ escapeByte b) (buf ++ [34])) ++ [34]

/-- The key switch of `writeFields`: a `string` verbatim, a `fmt.Stringer` by `String()`,
anything else by `%v`. -/
def keyText : Val → Bytes
  | .str k => k
  | .other (some t) _ _ => t
  | k => fmtV k

/-- The value switch of `writeFields`, first match wins: `string`, `[]byte`,
`fmt.Stringer`, the thirteen numeric and boolean types the fourth case names, `error`,
default. -/
def writeValue (buf : Bytes) : Val → Bytes
  | .str s => writeJSONString buf s
  | .byteSlice s => writeJSONString buf s
  | .other (some t) _ _ => writeJSONString buf t
  | .num n => buf ++ intText n
  | .float t => buf ++ t
  | .bool b => buf ++ (if b then bytesOf "true" else bytesOf "false")
  | .other none (some e) _ => writeJSONString buf e
  | .other none none t => writeJSONString buf t

/-- `func writeFields(buf *bytes.Buffer, fields ...interface{})`.  The loop steps by two
while `field < len(fields)`; with one element left, `fields[field+1]` is out of range and
the function panics (after the key is written). -/
def writeFields (buf : Bytes) : List Val → Option Bytes
  | [] => some buf
  | [_] => none
  | k :: v :: rest =>
    writeFields (writeValue (buf ++ [44] ++ [34] ++ keyText k ++ bytesOf "\":") v) rest

/-- `type Emitter struct`.  `Output` and `Hook` are the identities of the writer and of
the hook function (`none` is a nil hook); a nil `context` is the empty list. -/
structure Emitter where
  Level : Level
  Output : Nat
  TimeFormat : Bytes
  Hook : Option Nat
  context : Bytes
  deriving DecidableEq, Repr

/-- What an emission does to its surroundings. -/
inductive Event where
  /-- the hook `h` was called with a level and the bytes of the buffer -/
  | hook (h : Nat) (level : Level) (doc : Bytes)
  /-- `Write` was called on the writer `sink` with the bytes `p` -/
  | write (sink : Nat) (p : Bytes)
  /-- the exit function was called -/
  | exit (code : Int)
  deriving DecidableEq, Repr

/-- The function held by the package variable `_exit`. -/
inductive ExitFn where
  /-- `os.Exit` -/
  | osExit
  /-- the function installed by `SetTestMode(true, ...)`, which stores the code -/
  | record
  deriving DecidableEq, Repr

/-- The address of `os.Stderr` as a writer. -/
def Stderr : Nat := 0

/-- The package state: the allocated `Emitter` objects by address, the package variables
of log.go, the contents of the buffers lying in `pool`, and the effects so far. -/
structure World where
  heap : Nat → Emitter
  next : Nat
  Default : Option Nat
  _logger : Option Nat
  _exit : ExitFn
  _exitCode : Int
  pool : List Bytes
  trace : List Event

/-- What the surroundings answer during one call of `Emit`: the text of
`time.Now().Format(e.TimeFormat)`, which item `pool.Get` selects (an index past the end
stands for a buffer made by `New`), and the byte count the writer reports as written. -/
structure Env where
  now : Bytes
  pick : Nat
  accepted : Nat

/-- `pool.Get()`: the selected buffer is removed from the pool; `New` gives an empty one. -/
def poolGet (pool : List Bytes) (pick : Nat) : Bytes × List Bytes :=
  match pool.get? pick with
  | some b => (b, pool.eraseIdx pick)
  | none => ([], pool)

/-- The statements of `Emit` between `pool.Get` and the hook: everything appended to the
buffer.  `none` when `writeFields` panics. -/
def assemble (e : Emitter) (now : Bytes) (buf : Bytes) (tag : Bytes) (level : Level)
    (message : Bytes) (fields : List Val) : Option Bytes :=
  let buf := buf ++ [123]
  let buf := if e.TimeFormat ≠ [] then buf ++ bytesOf "\"time\":\"" ++ now ++ bytesOf "\"," else buf
  let buf := buf ++ bytesOf "\"tag\":\"" ++ tag ++ bytesOf "\","
  let buf := buf ++ bytesOf "\"level\":" ++ [34] ++ Level.String level ++ [34]
  let buf := buf ++ bytesOf ",\"msg\":"
  let buf := writeJSONString buf message
  let buf := if e.context ≠ [] then buf ++ e.context else buf
  match writeFields buf fields with
  | none => none
  | some buf => some (buf ++ [125] ++ [10])

/-- `func (e *Emitter) Emit(tag string, level Level, message string, fields ...interface{})`
for the emitter at address `e`.  `buf.WriteTo` advances the buffer by the count the writer
reports and resets it only when that is the whole content; what remains goes back to the
pool with the buffer. -/
def Emitter.Emit (w : World) (e : Nat) (env : Env) (tag : Bytes) (level : Log.Level)
    (message : Bytes) (fields : List Val) : Option World :=
  let em := w.heap e
  if level < em.Level then some w
  else
    let got := poolGet w.pool env.pick
    match assemble em env.now got.1 tag level message fields with
    | none => none
    | some buf =>
      let trace1 := match em.Hook with
        | some h => w.trace ++ [Event.hook h level buf]
        | none => w.trace
      let trace2 := trace1 ++ [Event.write em.Output buf]
      let rest := buf.drop (min env.accepted buf.length)
      some { w with pool := got.2 ++ [rest], trace := trace2 }

/-! ## context.go -/

/-- `type Context struct`: a pointer to its own emitter and a tag. -/
structure Context where
  Emitter : Nat
  Tag : Bytes
  deriving DecidableEq, Repr

/-- `&Emitter{...}`: a new object at a fresh address. -/
def alloc (w : World) (e : Emitter) : World × Nat :=
  ({ w with heap := Function.update w.heap w.next e, next := w.next + 1 }, w.next)

/-- `func C(tag string, fields ...interface{}) *Context`.  Panics on a nil `Default` and
when `writeFields` panics. -/
def C (w : World) (tag : Bytes) (fields : List Val) : Option (World × Context) :=
  match writeFields [] fields with
  | none => none
  | some buf =>
    match w.Default with
    | none => none
    | some d =>
      let src := w.heap d
      let r := alloc w
        { Level := src.Level, Output := src.Output, TimeFormat := src.TimeFormat,
          Hook := src.Hook, context := buf }
      some (r.1, { Emitter := r.2, Tag := tag })

/-- `func (c *Context) C(fields ...interface{}) *Context`. -/
def Context.C (w : World) (c : Context) (fields : List Val) : Option (World × Context) :=
  let src := w.heap c.Emitter
  match writeFields ([] ++ src.context) fields with
  | none => none
  | some buf =>
    let r := alloc w
      { Level := src.Level, Output := src.Output, TimeFormat := src.TimeFormat,
        Hook := src.Hook, context := buf }
    some (r.1, { Emitter := r.2, Tag := c.Tag })

/-! ## log.go and level.go: the package state -/

/-- The package state after initialisation: `_logger` is set from `Default` before
`init` runs, so it is nil; `init` makes the first emitter. -/
def initWorld : World :=
  { heap := Function.update (fun _ => ⟨0, 0, [], none, []⟩)
      1 { Level := Info, Output := Stderr, TimeFormat := [], Hook := none, context := [] }
    next := 2
    Default := some 1
    _logger := none
    _exit := ExitFn.osExit
    _exitCode := 0
    pool := []
    trace := [] }

/-- An assignment through an emitter pointer, such as `log.Default.Level = l` or
`ctx.Emitter.Level = l` in the tests: the object at `p` becomes `f` of itself. -/
def assignAt (w : World) (p : Nat) (f : Emitter → Emitter) : World :=
  { w with heap := Function.update w.heap p (f (w.heap p)) }

/-- ASCII lower-casing, the part of `strings.ToLower` that can produce a level name. -/
def toLower (s : Bytes) : Bytes :=
  s.map fun b => if 65 ≤ b ∧ b ≤ 90 then b + 32 else b

/-- The level selected by the switch of `SetLevel`. -/
def parseLevel (level : Bytes) : Level :=
  let l := toLower level
  if l = bytesOf "trace" ∨ l = bytesOf "debug" then Trace
  else if l = bytesOf "warn" then Warn
  else if l = bytesOf "error" then Error
  else if l = bytesOf "fatal" then Fatal
  else Info

/-- `func SetLevel(level string)`: assigns `Default.Level`; panics on a nil `Default`. -/
def SetLevel (w : World) (level : Bytes) : Option World :=
  match w.Default with
  | none => none
  | some d => some (assignAt w d fun e => { e with Level := parseLevel level })

/-! ## A reader of JSON text (RFC 8259), as the tests apply one to the emitted lines

The reader is the yardstick of the round-trip claims.  It follows the grammar of
RFC 8259 and, inside strings, the decoding of Go's `encoding/json`: a raw byte below
0x20 is an error, a byte sequence that is not well-formed UTF-8 is replaced by U+FFFD.
Numbers are kept as their literal text. -/

/-- A JSON value. -/
inductive JVal where
  | null
  | bool (b : Bool)
  | num (literal : Bytes)
  | str (s : Bytes)
  | arr (items : List JVal)
  | obj (members : List (Bytes × JVal))

/-- Space, tab, newline, carriage return. -/
def isWs (b : Nat) : Bool := b = 32 || b = 9 || b = 10 || b = 13

def skipWs : Bytes → Bytes
  | [] => []
  | b :: r => if isWs b then skipWs r else b :: r

def isDigit (b : Nat) : Bool := decide (48 ≤ b) && decide (b ≤ 57)

/-- The longest run of digits at the head, and what follows it. -/
def takeDigits : Bytes → Bytes × Bytes
  | [] => ([], [])
  | b :: r => if isDigit b then (b :: (takeDigits r).1, (takeDigits r).2) else ([], b :: r)

def hexVal (b : Nat) : Option Nat :=
  if 48 ≤ b ∧ b ≤ 57 then some (b - 48)
  else if 97 ≤ b ∧ b ≤ 102 then some (b - 87)
  else if 65 ≤ b ∧ b ≤ 70 then some (b - 55)
  else none

def readHex4 : Bytes → Option (Nat × Bytes)
  | a :: b :: c :: d :: r =>
    match hexVal a, hexVal b, hexVal c, hexVal d with
    | some x, some y, some z, some u => some (((x * 16 + y) * 16 + z) * 16 + u, r)
    | _, _, _, _ => none
  | _ => none

/-- The UTF-8 bytes of a code point. -/
def utf8Encode (cp : Nat) : Bytes :=
  if cp < 128 then [cp]
  else if cp < 2048 then [192 + cp / 64, 128 + cp % 64]
  else if cp < 65536 then [224 + cp / 4096, 128 + cp / 64 % 64, 128 + cp % 64]
  else [240 + cp / 262144, 128 + cp / 4096 % 64, 128 + cp / 64 % 64, 128 + cp % 64]

/-- The bytes of U+FFFD, the replacement character. -/
def replacement : Bytes := [239, 191, 189]

/-- The second half of a surrogate pair, when the input goes on with one. -/
def readLowSurrogate : Bytes → Option (Nat × Bytes)
  | a :: b :: r =>
    if a = 92 ∧ b = 117 then
      match readHex4 r with
      | some (lo, r2) => if 56320 ≤ lo ∧ lo < 57344 then some (lo, r2) else none
      | none => none
    else none
  | _ => none

/-- The four hex digits after a backslash and u, with surrogate pairs joined and a lone
surrogate replaced by U+FFFD. -/
def readUnicodeEscape (r : Bytes) : Option (Bytes × Bytes) :=
  match readHex4 r with
  | none => none
  | some (cp, r1) =>
    if 55296 ≤ cp ∧ cp < 57344 then
      match (if cp < 56320 then readLowSurrogate r1 else none) with
      | some (lo, r2) => some (utf8Encode (65536 + (cp - 55296) * 1024 + (lo - 56320)), r2)
      | none => some (replacement, r1)
    else some (utf8Encode cp, r1)

/-- The byte a one-letter escape stands for. -/
def unescape (c : Nat) : Option Nat :=
  if c = 34 then some 34
  else if c = 92 then some 92
  else if c = 47 then some 47
  else if c = 98 then some 8
  else if c = 102 then some 12
  else if c = 110 then some 10
  else if c = 114 then some 13
  else if c = 116 then some 9
  else none

/-- For a leading byte of a multi-byte UTF-8 sequence: its length and the range of the
second byte. -/
def utf8Need (b0 : Nat) : Option (Nat × Nat × Nat) :=
  if 194 ≤ b0 ∧ b0 ≤ 223 then some (2, 128, 191)
  else if b0 = 224 then some (3, 160, 191)
  else if (225 ≤ b0 ∧ b0 ≤ 236) ∨ b0 = 238 ∨ b0 = 239 then some (3, 128, 191)
  else if b0 = 237 then some (3, 128, 159)
  else if b0 = 240 then some (4, 144, 191)
  else if 241 ≤ b0 ∧ b0 ≤ 243 then some (4, 128, 191)
  else if b0 = 244 then some (4, 128, 143)
  else none

def isCont (b : Nat) : Bool := decide (128 ≤ b) && decide (b ≤ 191)

/-- A well-formed multi-byte UTF-8 sequence at the head, and what follows it. -/
def utf8Seq : Bytes → Option (Bytes × Bytes)
  | b0 :: b1 :: rest =>
    match utf8Need b0 with
    | none => none
    | some (size, lo, hi) =>
      if lo ≤ b1 ∧ b1 ≤ hi then
        if size = 2 then some ([b0, b1], rest)
        else
          match rest with
          | [] => none
          | b2 :: rest2 =>
            if isCont b2 then
              if size = 3 then some ([b0, b1, b2], rest2)
              else
                match rest2 with
                | [] => none
                | b3 :: rest3 => if isCont b3 then some ([b0, b1, b2, b3], rest3) else none
            else none
      else none
  | _ => none

/-- The body of a string literal after its opening quote: the decoded bytes and what
follows the closing quote. -/
def readString : Nat → Bytes → Option (Bytes × Bytes)
  | 0, _ => none
  | _ + 1, [] => none
  | fuel + 1, b :: r =>
    if b = 34 then some ([], r)
    else if b = 92 then
      match r with
      | [] => none
      | c :: r2 =>
        if c = 117 then
          match readUnicodeEscape r2 with
          | none => none
          | some (u, r3) => (readString fuel r3).map fun p => (u ++ p.1, p.2)
        else
          match unescape c with
          | none => none
          | some x => (readString fuel r2).map fun p => (x :: p.1, p.2)
    else if b < 32 then none
    else if b < 128 then (readString fuel r).map fun p => (b :: p.1, p.2)
    else
      match utf8Seq (b :: r) with
      | some (q, r2) => (readString fuel r2).map fun p => (q ++ p.1, p.2)
      | none => (readString fuel r).map fun p => (replacement ++ p.1, p.2)

/-- A string literal at the head of the input. -/
def readStringLit : Bytes → Option (Bytes × Bytes)
  | [] => none
  | b :: r => if b = 34 then readString r.length r else none

/-- The integer part of a number: a single zero, or a non-zero digit and more digits. -/
def readInt : Bytes → Option (Bytes × Bytes)
  | [] => none
  | b :: r =>
    if b = 48 then some ([48], r)
    else if 49 ≤ b ∧ b ≤ 57 then some (b :: (takeDigits r).1, (takeDigits r).2)
    else none

/-- The optional fraction of a number. -/
def readFrac : Bytes → Option (Bytes × Bytes)
  | [] => some ([], [])
  | b :: r =>
    if b = 46 then
      (if (takeDigits r).1 = [] then none else some (46 :: (takeDigits r).1, (takeDigits r).2))
    else some ([], b :: r)

/-- The optional sign of an exponent. -/
def readSign : Bytes → Bytes × Bytes
  | [] => ([], [])
  | s :: r => if s = 43 ∨ s = 45 then ([s], r) else ([], s :: r)

/-- The optional exponent of a number. -/
def readExp : Bytes → Option (Bytes × Bytes)
  | [] => some ([], [])
  | b :: r =>
    if b = 101 ∨ b = 69 then
      (if (takeDigits (readSign r).2).1 = [] then none
        else some (b :: (readSign r).1 ++ (takeDigits (readSign r).2).1,
          (takeDigits (readSign r).2).2))
    else some ([], b :: r)

/-- The optional minus sign of a number. -/
def readMinus : Bytes → Bytes × Bytes
  | [] => ([], [])
  | b :: r => if b = 45 then ([45], r) else ([], b :: r)

/-- A number at the head of the input: its literal text and what follows. -/
def readNumber (bs : Bytes) : Option (Bytes × Bytes) :=
  match readInt (readMinus bs).2 with
  | none => none
  | some (i, r1) =>
    match readFrac r1 with
    | none => none
    | some (f, r2) =>
      match readExp r2 with
      | none => none
      | some (x, r3) => some ((readMinus bs).1 ++ i ++ f ++ x, r3)

/-- One of the literal names at the head of the input. -/
def readLit (lit : Bytes) (bs : Bytes) : Option Bytes :=
  if lit.isPrefixOf bs then some (bs.drop lit.length) else none

mutual
/-- A value at the head of the input (no white space in front). -/
def readValue : Nat → Bytes → Option (JVal × Bytes)
  | 0, _ => none
  | _ + 1, [] => none
  | fuel + 1, b :: r =>
    if b = 34 then (readStringLit (b :: r)).map fun p => (JVal.str p.1, p.2)
    else if b = 123 then
      match skipWs r with
      | [] => none
      | c :: r2 => if c = 125 then some (JVal.obj [], r2) else readMembers fuel (c :: r2) []
    else if b = 91 then
      match skipWs r with
      | [] => none
      | c :: r2 => if c = 93 then some (JVal.arr [], r2) else readElements fuel (c :: r2) []
    else if b = 116 then (readLit (bytesOf "true") (b :: r)).map fun x => (JVal.bool true, x)
    else if b = 102 then (readLit (bytesOf "false") (b :: r)).map fun x => (JVal.bool false, x)
    else if b = 110 then (readLit (bytesOf "null") (b :: r)).map fun x => (JVal.null, x)
    else (readNumber (b :: r)).map fun p => (JVal.num p.1, p.2)
/-- The members of an object from the first name on, up to the closing brace. -/
def readMembers : Nat → Bytes → List (Bytes × JVal) → Option (JVal × Bytes)
  | 0, _, _ => none
  | fuel + 1, bs, acc =>
    match readStringLit bs with
    | none => none
    | some (k, r) =>
      match skipWs r with
      | [] => none
      | c :: r2 =>
        if c = 58 then
          match readValue fuel (skipWs r2) with
          | none => none
          | some (v, r3) =>
            match skipWs r3 with
            | [] => none
            | d :: r4 =>
              if d = 44 then readMembers fuel (skipWs r4) (acc ++ [(k, v)])
              else if d = 125 then some (JVal.obj (acc ++ [(k, v)]), r4)
              else none
        else none
/-- The elements of an array from the first one on, up to the closing bracket. -/
def readElements : Nat → Bytes → List JVal → Option (JVal × Bytes)
  | 0, _, _ => none
  | fuel + 1, bs, acc =>
    match readValue fuel bs with
    | none => none
    | some (v, r) =>
      match skipWs r with
      | [] => none
      | d :: r2 =>
        if d = 44 then readElements fuel (skipWs r2) (acc ++ [v])
        else if d = 93 then some (JVal.arr (acc ++ [v]), r2)
        else none
end

/-- A whole JSON text: one value with optional white space around it. -/
def parseJSON (bs : Bytes) : Option JVal :=
  match readValue (bs.length + 1) (skipWs bs) with
  | none => none
  | some (v, r) => if skipWs r = [] then some v else none

/-- The members of a JSON text that is an object. -/
def parseObject (bs : Bytes) : Option (List (Bytes × JVal)) :=
  match parseJSON bs with
  | some (JVal.obj ms) => some ms
  | _ => none

/-- A whole input that is one string literal. -/
def decodeString (bs : Bytes) : Option Bytes :=
  match readStringLit bs with
  | some (s, []) => some s
  | _ => none

/-- The input is well-formed UTF-8 (checked with at most `fuel` steps). -/
def validUTF8Aux : Nat → Bytes → Bool
  | _, [] => true
  | 0, _ :: _ => false
  | fuel + 1, b :: r =>
    if b < 128 then validUTF8Aux fuel r
    else
      match utf8Seq (b :: r) with
      | some (_, r2) => validUTF8Aux fuel r2
      | none => false

def validUTF8 (s : Bytes) : Bool := validUTF8Aux s.length s

/-- No byte below 0x20 other than the five that `writeJSONString` escapes. -/
def noRawControl (s : Bytes) : Bool :=
  s.all fun b => decide (32 ≤ b) || b = 8 || b = 9 || b = 10 || b = 12 || b = 13

/-- Text that stands for itself between quotes: well-formed UTF-8 without a control
byte, a quote or a backslash. -/
def plainText (s : Bytes) : Bool :=
  validUTF8 s && s.all fun b => decide (32 ≤ b) && b != 34 && b != 92

/-! ## Reading aids for the statements -/

/-- The (key, value) pairs of a field list, in order; an unpaired last element is not a
pair. -/
def pairs : List Val → List (Val × Val)
  | k :: v :: rest => (k, v) :: pairs rest
  | _ => []

/-- The bytes written for one value, on their own. -/
def render (v : Val) : Bytes := writeValue [] v

/-- The bytes written for one pair, on their own: comma, quoted key, colon, value. -/
def encodePair (kv : Val × Val) : Bytes :=
  bytesOf ",\"" ++ keyText kv.1 ++ bytesOf "\":" ++ render kv.2

/-- The values of the thirteen types named in the numeric case of the value switch: ten
integer types, two float types and `bool`.  The types `uintptr`, `complex64` and
`complex128` and the defined types are not among them. -/
def Val.isPrimitive : Val → Bool
  | .num _ => true
  | .float _ => true
  | .bool _ => true
  | _ => false

/-- Every buffer lying in the pool is empty. -/
def PoolClean (w : World) : Prop := ∀ b ∈ w.pool, b = []

/-- The opening of a document up to and including the message: brace, time when a time
format is set, tag, level name, message. -/
def docHead (e : Emitter) (now tag : Bytes) (level : Level) (message : Bytes) : Bytes :=
  [123] ++ (if e.TimeFormat ≠ [] then bytesOf "\"time\":\"" ++ now ++ bytesOf "\"," else [])
    ++ bytesOf "\"tag\":\"" ++ tag ++ bytesOf "\","
    ++ bytesOf "\"level\":\"" ++ Level.String level ++ bytesOf "\""
    ++ bytesOf ",\"msg\":" ++ writeJSONString [] message

/-- The document of one emission as the specification lays it out: head, context
prefix, call-site fields, closing brace, newline. -/
def document (e : Emitter) (now tag : Bytes) (level : Level) (message : Bytes)
    (fields : List Val) : Bytes :=
  docHead e now tag level message ++ e.context ++ (pairs fields).flatMap encodePair
    ++ [125] ++ [10]

/-- The events of one passing emission: the hook call when a hook is set, then the
write. -/
def emitEvents (e : Emitter) (level : Level) (buf : Bytes) : List Event :=
  (match e.Hook with
    | some h => [Event.hook h level buf]
    | none => []) ++ [Event.write e.Output buf]

/-- The encoding of an even-length field list on its own. -/
def encode (fields : List Val) : Bytes := (pairs fields).flatMap encodePair

/-- A run of derivations starting at the context `c`.  A step `(none, F)` derives
`c.C(F...)` and goes on from the child; a step `(some p, F)` derives a sibling `p.C(F...)`
from some context `p` and goes on from `c`. -/
def deriveChain (w : World) (c : Context) :
    List (Option Context × List Val) → Option (World × Context)
  | [] => some (w, c)
  | (none, F) :: rest =>
    match Context.C w c F with
    | none => none
    | some r => deriveChain r.1 r.2 rest
  | (some p, F) :: rest =>
    match Context.C w p F with
    | none => none
    | some r => deriveChain r.1 c rest

/-- The field lists of the steps of a run that lie on the chain itself, in order. -/
def chainFields : List (Option Context × List Val) → List (List Val)
  | [] => []
  | (none, F) :: rest => F :: chainFields rest
  | (some _, _) :: rest => chainFields rest

/-- The address `p` is that of an allocated emitter. -/
def Allocated (w : World) (p : Nat) : Prop := p < w.next

instance (w : World) (p : Nat) : Decidable (Allocated w p) :=
  inferInstanceAs (Decidable (p < w.next))

/-- Well-formed UTF-8 without a raw control byte: text that `writeJSONString` turns into
a string literal a JSON reader takes back. -/
def cleanText (s : Bytes) : Bool := validUTF8 s && noRawControl s

/-- The whole text is one JSON number. -/
def isNumberText (t : Bytes) : Bool :=
  match readNumber t with
  | some (_, []) => true
  | _ => false

/-- The JSON value a field value stands for: the predeclared numeric types a number with
the printed text, `bool` a boolean, everything else a string. -/
def jsonOf : Val → JVal
  | .str s => JVal.str s
  | .byteSlice s => JVal.str s
  | .num n => JVal.num (intText n)
  | .float t => JVal.num t
  | .bool b => JVal.bool b
  | .other (some t) _ _ => JVal.str t
  | .other none (some e) _ => JVal.str e
  | .other none none t => JVal.str t

/-- A field value whose rendering is JSON: clean text where it is quoted, a number text
where a float is printed. -/
def readableVal : Val → Bool
  | .str s => cleanText s
  | .byteSlice s => cleanText s
  | .num _ => true
  | .float t => isNumberText t
  | .bool _ => true
  | .other (some t) _ _ => cleanText t
  | .other none (some e) _ => cleanText e
  | .other none none t => cleanText t

/-- A pair with a key that needs no escaping and a readable value. -/
def readablePair (kv : Val × Val) : Bool := plainText (keyText kv.1) && readableVal kv.2

/-- The member of the JSON object a pair stands for. -/
def memberOf (kv : Val × Val) : Bytes × JVal := (keyText kv.1, jsonOf kv.2)

/-- The members in front of the fields: time when a time format is set, tag, level,
message. -/
def headMembers (e : Emitter) (now tag : Bytes) (level : Level) (message : Bytes) :
    List (Bytes × JVal) :=
  (if e.TimeFormat ≠ [] then [(bytesOf "time", JVal.str now)] else [])
    ++ [(bytesOf "tag", JVal.str tag), (bytesOf "level", JVal.str (Level.String level)),
        (bytesOf "msg", JVal.str message)]

/-- The pairs in front of the fields, as field pairs with string values. -/
def headPairs (e : Emitter) (now tag : Bytes) (level : Level) (message : Bytes) :
    List (Val × Val) :=
  (if e.TimeFormat ≠ [] then [(Val.str (bytesOf "time"), Val.str now)] else [])
    ++ [(Val.str (bytesOf "tag"), Val.str tag),
        (Val.str (bytesOf "level"), Val.str (Level.String level)),
        (Val.str (bytesOf "msg"), Val.str message)]

/-- The bytes of one pair without the comma in front. -/
def memberText (kv : Val × Val) : Bytes :=
  34 :: keyText kv.1 ++ 34 :: 58 :: render kv.2

/-! ## The wrappers of emitter.go, context.go and log.go, the exit action, the setters -/

/-- How a call ends: it returns, the process ends in `os.Exit`, or it panics. -/
inductive Outcome where
  /-- the call returns in the state `w` -/
  | returned (w : World)
  /-- `os.Exit(code)` ends the process in the state `w` -/
  | exited (w : World) (code : Int)
  /-- a run-time panic -/
  | panicked

/-- A call `_exit(code)` of the function held by the package variable `_exit`: `os.Exit`
ends the process, the function of the test mode stores the code in `_exitCode` and
returns. -/
def callExit (w : World) (code : Int) : Outcome :=
  match w._exit with
  | ExitFn.osExit => Outcome.exited { w with trace := w.trace ++ [Event.exit code] } code
  | ExitFn.record =>
    Outcome.returned { w with _exitCode := code, trace := w.trace ++ [Event.exit code] }

/-- `func (e *Emitter) T(tag string, message string, fields ...interface{})`. -/
def Emitter.T (w : World) (e : Nat) (env : Env) (tag message : Bytes) (fields : List Val) :
    Option World :=
  Emitter.Emit w e env tag Trace message fields

/-- `func (e *Emitter) I(tag string, message string, fields ...interface{})`. -/
def Emitter.I (w : World) (e : Nat) (env : Env) (tag message : Bytes) (fields : List Val) :
    Option World :=
  Emitter.Emit w e env tag Info message fields

/-- `func (e *Emitter) W(tag string, message string, fields ...interface{})`. -/
def Emitter.W (w : World) (e : Nat) (env : Env) (tag message : Bytes) (fields : List Val) :
    Option World :=
  Emitter.Emit w e env tag Warn message fields

/-- `func (e *Emitter) E(tag string, message string, fields ...interface{})`. -/
def Emitter.E (w : World) (e : Nat) (env : Env) (tag message : Bytes) (fields : List Val) :
    Option World :=
  Emitter.Emit w e env tag Error message fields

/-- `func (e *Emitter) F(tag string, message string, fields ...interface{})`: `Emit` at
Fatal, then `_exit(1)`. -/
def Emitter.F (w : World) (e : Nat) (env : Env) (tag message : Bytes) (fields : List Val) :
    Outcome :=
  match Emitter.Emit w e env tag Fatal message fields with
  | none => Outcome.panicked
  | some w1 => callExit w1 1

/-- `func (c *Context) T(message string, fields ...interface{})`. -/
def Context.T (w : World) (c : Context) (env : Env) (message : Bytes) (fields : List Val) :
    Option World :=
  Log.Emitter.Emit w c.Emitter env c.Tag Trace message fields

/-- `func (c *Context) I(message string, fields ...interface{})`. -/
def Context.I (w : World) (c : Context) (env : Env) (message : Bytes) (fields : List Val) :
    Option World :=
  Log.Emitter.Emit w c.Emitter env c.Tag Info message fields

/-- `func (c *Context) W(message string, fields ...interface{})`. -/
def Context.W (w : World) (c : Context) (env : Env) (message : Bytes) (fields : List Val) :
    Option World :=
  Log.Emitter.Emit w c.Emitter env c.Tag Warn message fields

/-- `func (c *Context) E(message string, fields ...interface{})`. -/
def Context.E (w : World) (c : Context) (env : Env) (message : Bytes) (fields : List Val) :
    Option World :=
  Log.Emitter.Emit w c.Emitter env c.Tag Error message fields

/-- `func (c *Context) F(message string, fields ...interface{})`: `Emit` at Fatal, then
`_exit(1)`. -/
def Context.F (w : World) (c : Context) (env : Env) (message : Bytes) (fields : List Val) :
    Outcome :=
  match Log.Emitter.Emit w c.Emitter env c.Tag Fatal message fields with
  | none => Outcome.panicked
  | some w1 => callExit w1 1

/-- `Default.Emit(tag, level, message, v...)`: a nil `Default` panics. -/
def defaultEmit (w : World) (env : Env) (tag : Bytes) (level : Level) (message : Bytes)
    (v : List Val) : Option World :=
  match w.Default with
  | none => none
  | some d => Emitter.Emit w d env tag level message v

/-- `func T(tag string, message string, v ...interface{})`. -/
def T (w : World) (env : Env) (tag message : Bytes) (v : List Val) : Option World :=
  defaultEmit w env tag Trace message v

/-- `func I(tag string, message string, v ...interface{})`. -/
def I (w : World) (env : Env) (tag message : Bytes) (v : List Val) : Option World :=
  defaultEmit w env tag Info message v

/-- `func W(tag string, message string, v ...interface{})`. -/
def W (w : World) (env : Env) (tag message : Bytes) (v : List Val) : Option World :=
  defaultEmit w env tag Warn message v

/-- `func E(tag string, message string, v ...interface{})`. -/
def E (w : World) (env : Env) (tag message : Bytes) (v : List Val) : Option World :=
  defaultEmit w env tag Error message v

/-- `func F(tag string, message string, v ...interface{})`: `Default.Emit` at Fatal, then
`_exit(1)`. -/
def F (w : World) (env : Env) (tag message : Bytes) (v : List Val) : Outcome :=
  match defaultEmit w env tag Fatal message v with
  | none => Outcome.panicked
  | some w1 => callExit w1 1

/-- The constant `time.RFC3339`. -/
def RFC3339 : Bytes := bytesOf "2006-01-02T15:04:05Z07:00"

/-- `func SetWithTime()`: `Default` becomes a new emitter. -/
def SetWithTime (w : World) : World :=
  let r := alloc w
    { Level := Info, Output := Stderr, TimeFormat := RFC3339, Hook := none, context := [] }
  { r.1 with Default := some r.2 }

/-- `func SetHook(hook Hook)`: `Default` becomes a new emitter with the hook. -/
def SetHook (w : World) (hook : Option Nat) : World :=
  let r := alloc w
    { Level := Info, Output := Stderr, TimeFormat := [], Hook := hook, context := [] }
  { r.1 with Default := some r.2 }

/-- `func SetTestMode(active bool, sink ...io.Writer)`.  Switching on sets `_exit` and
`_logger`, then builds the new emitter from `sink[0]` (out of range without a sink) and
`_logger.Hook` (nil dereference on a nil `Default`); the fields it does not name are zero:
level Trace, no time format. -/
def SetTestMode (w : World) (active : Bool) (sink : List Nat) : Option World :=
  if active then
    match sink with
    | [] => none
    | s :: _ =>
      match w.Default with
      | none => none
      | some l =>
        let r := alloc { w with _exit := ExitFn.record, _logger := w.Default }
          { Level := 0, Output := s, TimeFormat := [], Hook := (w.heap l).Hook, context := [] }
        some { r.1 with Default := some r.2 }
  else some { w with _exit := ExitFn.osExit, Default := w._logger }

/-- `func LastExitCode() int`. -/
def LastExitCode (w : World) : Int := w._exitCode

/-! ## Reading aids for the statements on effects, levels and lines -/

/-- The codes of the calls of the exit action in a trace, in order. -/
def exitCalls (tr : List Event) : List Int :=
  tr.filterMap fun ev =>
    match ev with
    | Event.exit c => some c
    | _ => none

/-- An emission at level `l` through the emitter at `e` reaches the sink: it adds the
write of a non-empty byte sequence (after the hook call, when a hook is set). -/
def Emits (w : World) (e : Nat) (env : Env) (tag : Bytes) (l : Level) (message : Bytes)
    (fields : List Val) : Prop :=
  ∃ buf : Bytes, buf ≠ [] ∧
    (Emitter.Emit w e env tag l message fields).map World.trace
      = some (w.trace ++ emitEvents (w.heap e) l buf)

/-- The text has no newline byte. -/
def newlineFree (s : Bytes) : Bool := s.all fun b => b != 10

/-- A pair that cannot break the line: no newline byte in the key text nor, for a float,
in the printed text. -/
def linePair (kv : Val × Val) : Bool :=
  newlineFree (keyText kv.1) &&
    (match kv.2 with
      | Val.float t => newlineFree t
      | _ => true)

/-- One call of `Emit` with the answers of its surroundings. -/
structure Call where
  e : Nat
  env : Env
  tag : Bytes
  level : Level
  message : Bytes
  fields : List Val

/-- A run of calls of `Emit`, one after the other. -/
def emitAll : World → List Call → Option World
  | w, [] => some w
  | w, c :: cs =>
    match Emitter.Emit w c.e c.env c.tag c.level c.message c.fields with
    | none => none
    | some w1 => emitAll w1 cs

/-- All bytes handed to writers in a trace, in order. -/
def written (tr : List Event) : Bytes :=
  tr.flatMap fun ev =>
    match ev with
    | Event.write _ p => p
    | _ => []

/-- A call that passes the gate of its emitter, cannot break the line, and whose writer
accepts the whole document. -/
def LineCall (heap : Nat → Emitter) (c : Call) : Prop :=
  c.fields.length % 2 = 0 ∧ (heap c.e).Level ≤ c.level
    ∧ newlineFree c.tag = true
    ∧ ((heap c.e).TimeFormat ≠ [] → newlineFree c.env.now = true)
    ∧ newlineFree (heap c.e).context = true
    ∧ (∀ kv ∈ pairs c.fields, linePair kv = true)
    ∧ (document (heap c.e) c.env.now c.tag c.level c.message c.fields).length ≤ c.env.accepted

/-- The document without its last byte. -/
def docBody (e : Emitter) (now tag : Bytes) (level : Level) (message : Bytes)
    (fields : List Val) : Bytes :=
  docHead e now tag level message ++ e.context ++ (pairs fields).flatMap encodePair ++ [125]

/-! ## Reading aids for the statements on strings, the value switch and the setters -/

/-- The bytes `writeJSONString` puts between its opening and its closing quote. -/
def stringBody (s : Bytes) : Bytes := ((writeJSONString [] s).drop 1).dropLast

/-- The length of the run of backslashes that ends `pre`. -/
def backslashRun (pre : Bytes) : Nat := (pre.reverse.takeWhile fun b => b == 92).length

/-- Where a reader of JSON text finds the end of a string whose opening quote it has
passed: a backslash takes the byte after it along, the first quote outside such a pair
closes the string.  The result is the text before that quote and the text after it;
`esc` tells that the byte before was a backslash opening a pair. -/
def scanString : Bool → Bytes → Option (Bytes × Bytes)
  | _, [] => none
  | true, b :: r => (scanString false r).map fun p => (b :: p.1, p.2)
  | false, b :: r =>
    if b = 34 then some ([], r)
    else if b = 92 then (scanString true r).map fun p => (b :: p.1, p.2)
    else (scanString false r).map fun p => (b :: p.1, p.2)

/-- The text of a value of dynamic type `string`. -/
def Val.asString : Val → Option Bytes
  | .str s => some s
  | _ => none

/-- The bytes of a value of dynamic type `[]byte`. -/
def Val.asByteSlice : Val → Option Bytes
  | .byteSlice s => some s
  | _ => none

/-- The result of `String()` for a value whose dynamic type implements `fmt.Stringer`. -/
def Val.stringer : Val → Option Bytes
  | .other s _ _ => s
  | _ => none

/-- The result of `Error()` for a value whose dynamic type implements `error`. -/
def Val.error : Val → Option Bytes
  | .other _ e _ => e
  | _ => none

/-- The value dispatch as the specification words it: the first of the cases string,
byte sequence, Stringer, numeric or boolean primitive, error, generic that applies. -/
def firstMatch (buf : Bytes) (v : Val) : Bytes :=
  match v.asString with
  | some s => writeJSONString buf s
  | none =>
    match v.asByteSlice with
    | some s => writeJSONString buf s
    | none =>
      match v.stringer with
      | some t => writeJSONString buf t
      | none =>
        if v.isPrimitive then buf ++ fmtV v
        else
          match v.error with
          | some e => writeJSONString buf e
          | none => writeJSONString buf (fmtV v)

/-- A value of a defined type whose underlying type is an integer type, holding the
number `n`, such as a `Level` (`type Level byte`).  Its dynamic type is the defined type,
which is none of the types named in the cases of the value switch, so the value is an
`other`; under `%v` the package `fmt` prints `Error()` for an error, else `String()` for
a `fmt.Stringer`, else the number. -/
def definedInt (n : Int) (stringer err : Option Bytes) : Val :=
  Val.other stringer err
    (match err, stringer with
      | some e, _ => e
      | none, some t => t
      | none, none => intText n)

/-- A `Level` passed as a field value. -/
def levelVal (l : Level) : Val := definedInt l (some (Level.String l)) none

/-- The emitter object `Default` points to, when it is not nil. -/
def defaultEmitter (w : World) : Option Emitter := w.Default.map w.heap

/-- A value of the predeclared type `uintptr`, which the numeric case of the value switch
does not name: it reaches the default case, and `%v` prints its decimal digits. -/
def uintptrVal (n : Nat) : Val := Val.other none none (decimal n)

/-- A value of type `complex64` or `complex128`, which the numeric case does not name
either, with the text `%v` prints for it, such as `(1+2i)`. -/
def complexVal (text : Bytes) : Val := Val.other none none text

/-! ## Lemmas on the encoder -/

theorem foldl_escape (s : Bytes) (init : Bytes) :
    s.foldl (fun acc b => acc ++ escapeByte b) init = init ++ s.flatMap escapeByte := by
  induction s generalizing init with
  | nil => simp
  | cons b s ih => simp [List.foldl_cons, ih, List.flatMap_cons, List.append_assoc]

theorem writeJSONString_eq (buf s : Bytes) :
    writeJSONString buf s = buf ++ ([34] ++ s.flatMap escapeByte ++ [34]) := by
  simp [writeJSONString, foldl_escape, List.append_assoc]

theorem writeJSONString_append (buf s : Bytes) :
    writeJSONString buf s = buf ++ writeJSONString [] s := by
  rw [writeJSONString_eq buf, writeJSONString_eq []]
  simp

theorem writeValue_append (buf : Bytes) (v : Val) : writeValue buf v = buf ++ render v := by
  unfold render
  cases v with
  | str s => simpa [writeValue] using writeJSONString_append buf s
  | byteSlice s => simpa [writeValue] using writeJSONString_append buf s
  | num n => simp [writeValue]
  | float t => simp [writeValue]
  | bool b => simp [writeValue]
  | other st er t =>
    cases st with
    | some x => simpa [writeValue] using writeJSONString_append buf x
    | none =>
      cases er with
      | some y => simpa [writeValue] using writeJSONString_append buf y
      | none => simpa [writeValue] using writeJSONString_append buf t

theorem writeFields_step (buf : Bytes) (k v : Val) (rest : List Val) :
    writeFields buf (k :: v :: rest) = writeFields (buf ++ encodePair (k, v)) rest := by
  rw [writeFields, writeValue_append]
  simp [encodePair, bytesOf, List.append_assoc]
  rfl

theorem writeFields_even (n : Nat) :
    ∀ (fields : List Val) (buf : Bytes), fields.length = 2 * n →
      writeFields buf fields = some (buf ++ (pairs fields).flatMap encodePair) := by
  induction n with
  | zero =>
    intro fields buf h
    have : fields = [] := List.length_eq_zero.mp (by simpa using h)
    subst this
    simp [writeFields, pairs]
  | succ n ih =>
    intro fields buf h
    match fields, h with
    | k :: v :: rest, h =>
      have hr : rest.length = 2 * n := by simp at h; omega
      rw [writeFields_step, ih rest _ hr]
      simp [pairs, List.flatMap_cons, List.append_assoc]

theorem writeFields_of_even (fields : List Val) (buf : Bytes) (h : fields.length % 2 = 0) :
    writeFields buf fields = some (buf ++ (pairs fields).flatMap encodePair) :=
  writeFields_even (fields.length / 2) fields buf (by omega)

theorem writeFields_odd (n : Nat) :
    ∀ (fields : List Val) (buf : Bytes), fields.length = 2 * n + 1 →
      writeFields buf fields = none := by
  induction n with
  | zero =>
    intro fields buf h
    match fields, h with
    | [k], _ => simp [writeFields]
  | succ n ih =>
    intro fields buf h
    match fields, h with
    | k :: v :: rest, h =>
      have hr : rest.length = 2 * n + 1 := by simp at h; omega
      rw [writeFields_step, ih rest _ hr]

theorem writeFields_odd_panics (fields : List Val) (buf : Bytes) (h : fields.length % 2 = 1) :
    writeFields buf fields = none :=
  writeFields_odd (fields.length / 2) fields buf (by omega)

theorem assemble_even (e : Emitter) (now buf tag : Bytes) (level : Level) (message : Bytes)
    (fields : List Val) (h : fields.length % 2 = 0) :
    assemble e now buf tag level message fields
      = some (buf ++ document e now tag level message fields) := by
  unfold assemble
  simp only [writeFields_of_even _ _ h]
  rw [writeJSONString_append]
  by_cases ht : e.TimeFormat = [] <;> by_cases hc : e.context = [] <;>
    simp [document, docHead, ht, hc, bytesOf, List.append_assoc] <;> rfl

theorem assemble_odd (e : Emitter) (now buf tag : Bytes) (level : Level) (message : Bytes)
    (fields : List Val) (h : fields.length % 2 = 1) :
    assemble e now buf tag level message fields = none := by
  unfold assemble
  simp only [writeFields_odd_panics _ _ h]

theorem emit_below (w : World) (e : Nat) (env : Env) (tag : Bytes) (level : Level)
    (message : Bytes) (fields : List Val) (h : level < (w.heap e).Level) :
    Emitter.Emit w e env tag level message fields = some w := by
  simp [Emitter.Emit, h]

theorem emit_pass (w : World) (e : Nat) (env : Env) (tag : Bytes) (level : Level)
    (message : Bytes) (fields : List Val) (hlevel : (w.heap e).Level ≤ level)
    (hlen : fields.length % 2 = 0) :
    Emitter.Emit w e env tag level message fields
      = some { w with
          pool := (poolGet w.pool env.pick).2 ++
            [((poolGet w.pool env.pick).1 ++ document (w.heap e) env.now tag level message
                fields).drop
              (min env.accepted ((poolGet w.pool env.pick).1 ++
                document (w.heap e) env.now tag level message fields).length)]
          trace := w.trace ++ emitEvents (w.heap e) level
            ((poolGet w.pool env.pick).1 ++ document (w.heap e) env.now tag level message
              fields) } := by
  have hn : ¬ level < (w.heap e).Level := Nat.not_lt.mpr hlevel
  simp only [Emitter.Emit, hn, if_false, assemble_even _ _ _ _ _ _ _ hlen, emitEvents]
  cases (w.heap e).Hook <;> simp

theorem poolGet_clean (w : World) (pick : Nat) (h : PoolClean w) :
    (poolGet w.pool pick).1 = [] := by
  unfold poolGet
  cases hg : w.pool.get? pick with
  | none => rfl
  | some b => exact h b (List.get?_mem hg)

theorem poolGet_rest_clean (w : World) (pick : Nat) (h : PoolClean w) :
    ∀ b ∈ (poolGet w.pool pick).2, b = [] := by
  intro b hb
  unfold poolGet at hb
  cases hg : w.pool.get? pick with
  | none =>
    simp only [hg] at hb
    exact h b hb
  | some x =>
    simp only [hg] at hb
    exact h b ((List.eraseIdx_sublist _ _).subset hb)

/-- An emission whose writer accepts the whole document keeps a clean pool clean. -/
theorem poolClean_emit (w : World) (e : Nat) (env : Env) (tag : Bytes) (level : Level)
    (message : Bytes) (fields : List Val) (h : PoolClean w) (hlen : fields.length % 2 = 0)
    (hacc : (document (w.heap e) env.now tag level message fields).length ≤ env.accepted) :
    ∃ w1, Emitter.Emit w e env tag level message fields = some w1 ∧ PoolClean w1 := by
  by_cases hl : level < (w.heap e).Level
  · exact ⟨w, emit_below w e env tag level message fields hl, h⟩
  · refine ⟨_, emit_pass w e env tag level message fields (Nat.not_lt.mp hl) hlen, ?_⟩
    intro b hb
    simp only [List.mem_append, List.mem_singleton] at hb
    rcases hb with hb | hb
    · exact poolGet_rest_clean w env.pick h b hb
    · rw [hb, poolGet_clean w env.pick h, List.nil_append, Nat.min_eq_right hacc]
      simp

theorem poolClean_init : PoolClean initWorld := fun _ hb => nomatch hb

theorem alloc_heap_new (w : World) (e : Emitter) : (alloc w e).1.heap w.next = e := by
  simp [alloc]

theorem alloc_heap_old (w : World) (e : Emitter) (p : Nat) (hp : Allocated w p) :
    (alloc w e).1.heap p = w.heap p := by
  have hne : p ≠ w.next := Nat.ne_of_lt hp
  simp [alloc, Function.update_noteq hne]

theorem alloc_allocated (w : World) (e : Emitter) (p : Nat) (hp : Allocated w p) :
    Allocated (alloc w e).1 p := by
  simp only [Allocated, alloc] at hp ⊢
  omega

theorem alloc_allocated_new (w : World) (e : Emitter) : Allocated (alloc w e).1 w.next := by
  simp [Allocated, alloc]

theorem contextC_even (w : World) (c : Context) (F : List Val) (h : F.length % 2 = 0) :
    Context.C w c F
      = some ((alloc w
            { Level := (w.heap c.Emitter).Level, Output := (w.heap c.Emitter).Output,
              TimeFormat := (w.heap c.Emitter).TimeFormat, Hook := (w.heap c.Emitter).Hook,
              context := (w.heap c.Emitter).context ++ encode F }).1,
          { Emitter := w.next, Tag := c.Tag }) := by
  simp [Context.C, writeFields_of_even _ _ h, alloc, encode]

theorem C_even (w : World) (tag : Bytes) (F : List Val) (d : Nat) (hd : w.Default = some d)
    (h : F.length % 2 = 0) :
    C w tag F
      = some ((alloc w
            { Level := (w.heap d).Level, Output := (w.heap d).Output,
              TimeFormat := (w.heap d).TimeFormat, Hook := (w.heap d).Hook,
              context := encode F }).1,
          { Emitter := w.next, Tag := tag }) := by
  simp [C, writeFields_of_even _ _ h, alloc, encode, hd]

theorem deriveChain_spec (script : List (Option Context × List Val)) :
    ∀ (w : World) (c : Context), Allocated w c.Emitter →
      (∀ st ∈ script, st.2.length % 2 = 0) →
      ∃ wN cN, deriveChain w c script = some (wN, cN)
        ∧ Allocated wN cN.Emitter
        ∧ cN.Tag = c.Tag
        ∧ (wN.heap cN.Emitter).context
            = (w.heap c.Emitter).context ++ (chainFields script).flatMap encode
        ∧ wN.pool = w.pool ∧ wN.trace = w.trace
        ∧ (wN.heap cN.Emitter).Level = (w.heap c.Emitter).Level
        ∧ (wN.heap cN.Emitter).Output = (w.heap c.Emitter).Output
        ∧ (wN.heap cN.Emitter).TimeFormat = (w.heap c.Emitter).TimeFormat
        ∧ (wN.heap cN.Emitter).Hook = (w.heap c.Emitter).Hook := by
  induction script with
  | nil =>
    intro w c hc _
    exact ⟨w, c, rfl, hc, rfl, by simp [chainFields], rfl, rfl, rfl, rfl, rfl, rfl⟩
  | cons st rest ih =>
    intro w c hc hs
    have hF : st.2.length % 2 = 0 := hs st (List.mem_cons_self _ _)
    have hrest : ∀ x ∈ rest, x.2.length % 2 = 0 := fun x hx => hs x (List.mem_cons_of_mem _ hx)
    obtain ⟨o, F⟩ := st
    simp only at hF
    cases o with
    | none =>
      simp only [deriveChain, contextC_even w c F hF]
      obtain ⟨wN, cN, h1, h2, h3, h4, h5, h6, h7, h8, h9, h10⟩ :=
        ih (alloc w
            { Level := (w.heap c.Emitter).Level, Output := (w.heap c.Emitter).Output,
              TimeFormat := (w.heap c.Emitter).TimeFormat, Hook := (w.heap c.Emitter).Hook,
              context := (w.heap c.Emitter).context ++ encode F }).1
          { Emitter := w.next, Tag := c.Tag } (alloc_allocated_new _ _) hrest
      simp only [alloc_heap_new] at h4 h7 h8 h9 h10
      refine ⟨wN, cN, h1, h2, h3, ?_, h5, h6, h7, h8, h9, h10⟩
      rw [h4]; simp [chainFields, List.flatMap_cons, List.append_assoc]
    | some p =>
      simp only [deriveChain, contextC_even w p F hF]
      obtain ⟨wN, cN, h1, h2, h3, h4, h5, h6, h7, h8, h9, h10⟩ :=
        ih (alloc w
            { Level := (w.heap p.Emitter).Level, Output := (w.heap p.Emitter).Output,
              TimeFormat := (w.heap p.Emitter).TimeFormat, Hook := (w.heap p.Emitter).Hook,
              context := (w.heap p.Emitter).context ++ encode F }).1
          c (alloc_allocated _ _ _ hc) hrest
      simp only [alloc_heap_old _ _ _ hc] at h4 h7 h8 h9 h10
      exact ⟨wN, cN, h1, h2, h3, by simpa [chainFields] using h4, h5, h6, h7, h8, h9, h10⟩

theorem emit_clean (w : World) (e : Nat) (env : Env) (tag : Bytes) (level : Level)
    (message : Bytes) (fields : List Val)
    (hlen : fields.length % 2 = 0) (hlevel : (w.heap e).Level ≤ level)
    (hpool : PoolClean w) :
    (Emitter.Emit w e env tag level message fields).map World.trace
      = some (w.trace ++ emitEvents (w.heap e) level
          (document (w.heap e) env.now tag level message fields)) := by
  rw [emit_pass w e env tag level message fields hlevel hlen, poolGet_clean w env.pick hpool]
  simp

/-! ## Lemmas on the JSON reader: strings -/

theorem utf8Need_spec {b0 size lo hi : Nat} (h : utf8Need b0 = some (size, lo, hi)) :
    128 ≤ b0 ∧ 128 ≤ lo ∧ (size = 2 ∨ size = 3 ∨ size = 4) := by
  unfold utf8Need at h
  split_ifs at h <;> simp only [Option.some.injEq, Prod.mk.injEq] at h <;>
    obtain ⟨rfl, rfl, rfl⟩ := h <;> omega

theorem utf8Seq_spec {bs q r2 : Bytes} (h : utf8Seq bs = some (q, r2)) :
    bs = q ++ r2 ∧ 2 ≤ q.length ∧ (∀ x ∈ q, 128 ≤ x) ∧ ∀ t, utf8Seq (q ++ t) = some (q, t) := by
  match bs, h with
  | b0 :: b1 :: rest, h =>
    simp only [utf8Seq] at h
    cases hn : utf8Need b0 with
    | none => simp [hn] at h
    | some n =>
      obtain ⟨size, lo, hi⟩ := n
      obtain ⟨hb0, hlo, hsize⟩ := utf8Need_spec hn
      simp only [hn] at h
      by_cases hr : lo ≤ b1 ∧ b1 ≤ hi
      · simp only [hr, and_self, if_true] at h
        by_cases h2 : size = 2
        · simp only [h2, if_true, Option.some.injEq, Prod.mk.injEq] at h
          obtain ⟨rfl, rfl⟩ := h
          refine ⟨rfl, by simp, ?_, ?_⟩
          · intro x hx
            simp only [List.mem_cons, List.mem_singleton, List.not_mem_nil, or_false] at hx
            rcases hx with rfl | rfl <;> omega
          · intro t
            simp [utf8Seq, hn, hr, h2]
        · simp only [h2, if_false] at h
          match rest, h with
          | b2 :: rest2, h =>
            simp only at h
            by_cases hc2 : isCont b2 = true
            · simp only [hc2, if_true] at h
              have hb2 : 128 ≤ b2 := by simp [isCont] at hc2; omega
              by_cases h3 : size = 3
              · simp only [h3, if_true, Option.some.injEq, Prod.mk.injEq] at h
                obtain ⟨rfl, rfl⟩ := h
                refine ⟨rfl, by simp, ?_, ?_⟩
                · intro x hx
                  simp only [List.mem_cons, List.mem_singleton, List.not_mem_nil, or_false] at hx
                  rcases hx with rfl | rfl | rfl <;> omega
                · intro t
                  simp [utf8Seq, hn, hr, h3, hc2]
              · simp only [h3, if_false] at h
                match rest2, h with
                | b3 :: rest3, h =>
                  simp only at h
                  by_cases hc3 : isCont b3 = true
                  · simp only [hc3, if_true, Option.some.injEq, Prod.mk.injEq] at h
                    have hb3 : 128 ≤ b3 := by simp [isCont] at hc3; omega
                    obtain ⟨rfl, rfl⟩ := h
                    refine ⟨rfl, by simp, ?_, ?_⟩
                    · intro x hx
                      simp only [List.mem_cons, List.mem_singleton, List.not_mem_nil,
                        or_false] at hx
                      rcases hx with rfl | rfl | rfl | rfl <;> omega
                    · intro t
                      simp [utf8Seq, hn, hr, h2, h3, hc2, hc3]
                  · simp [hc3] at h
            · simp [hc2] at h
      · simp [hr] at h

theorem escapeByte_high {x : Nat} (h : 128 ≤ x) : escapeByte x = [x] := by
  have h1 : x ≠ 34 := by omega
  have h2 : x ≠ 92 := by omega
  have h3 : x ≠ 8 := by omega
  have h4 : x ≠ 12 := by omega
  have h5 : x ≠ 10 := by omega
  have h6 : x ≠ 13 := by omega
  have h7 : x ≠ 9 := by omega
  simp [escapeByte, h1, h2, h3, h4, h5, h6, h7]

theorem flatMap_escape_high (q : Bytes) (h : ∀ x ∈ q, 128 ≤ x) : q.flatMap escapeByte = q := by
  induction q with
  | nil => rfl
  | cons x q ih =>
    rw [List.flatMap_cons, escapeByte_high (h x (List.mem_cons_self _ _)),
      ih fun y hy => h y (List.mem_cons_of_mem _ hy)]
    rfl

/-- Reading one escaped byte below 128 gives the byte back. -/
theorem readString_escapeByte (fuel : Nat) (b : Nat) (t : Bytes) (hb : b < 128)
    (hc : 32 ≤ b ∨ b = 8 ∨ b = 9 ∨ b = 10 ∨ b = 12 ∨ b = 13) :
    readString (fuel + 1) (escapeByte b ++ t)
      = (readString fuel t).map fun p => (b :: p.1, p.2) := by
  by_cases h34 : b = 34
  · subst h34; simp [escapeByte, readString, unescape]
  by_cases h92 : b = 92
  · subst h92; simp [escapeByte, readString, unescape]
  by_cases h8 : b = 8
  · subst h8; simp [escapeByte, readString, unescape]
  by_cases h12 : b = 12
  · subst h12; simp [escapeByte, readString, unescape]
  by_cases h10 : b = 10
  · subst h10; simp [escapeByte, readString, unescape]
  by_cases h13 : b = 13
  · subst h13; simp [escapeByte, readString, unescape]
  by_cases h9 : b = 9
  · subst h9; simp [escapeByte, readString, unescape]
  have h32 : ¬ b < 32 := by omega
  simp [escapeByte, readString, h34, h92, h8, h12, h10, h13, h9, h32, hb]

theorem readString_escaped (n : Nat) :
    ∀ (s : Bytes), validUTF8Aux n s = true → noRawControl s = true →
      ∀ (fuel : Nat) (rest : Bytes), (s.flatMap escapeByte).length + 1 ≤ fuel →
        readString fuel (s.flatMap escapeByte ++ 34 :: rest) = some (s, rest) := by
  induction n with
  | zero =>
    intro s hv _ fuel rest hf
    match s, hv with
    | [], _ =>
      obtain ⟨k, rfl⟩ : ∃ k, fuel = k + 1 := ⟨fuel - 1, by simp at hf; omega⟩
      simp [readString]
  | succ n ih =>
    intro s hv hc fuel rest hf
    match s, hv, hc, hf with
    | [], _, _, hf =>
      obtain ⟨k, rfl⟩ : ∃ k, fuel = k + 1 := ⟨fuel - 1, by simp at hf; omega⟩
      simp [readString]
    | b :: r, hv, hc, hf =>
      obtain ⟨k, rfl⟩ : ∃ k, fuel = k + 1 := ⟨fuel - 1, by omega⟩
      have hcb : 32 ≤ b ∨ b = 8 ∨ b = 9 ∨ b = 10 ∨ b = 12 ∨ b = 13 := by
        simp [noRawControl] at hc
        omega
      have hcr : noRawControl r = true := by
        simp [noRawControl] at hc ⊢
        exact hc.2
      simp only [validUTF8Aux] at hv
      by_cases hb : b < 128
      · simp only [hb, if_true] at hv
        rw [List.flatMap_cons, List.append_assoc, readString_escapeByte k b _ hb hcb]
        have hlen : (r.flatMap escapeByte).length + 1 ≤ k := by
          rw [List.flatMap_cons, List.length_append] at hf
          have : 1 ≤ (escapeByte b).length := by
            unfold escapeByte; split_ifs <;> simp
          omega
        rw [ih r hv hcr k rest hlen]
        rfl
      · simp only [hb, if_false] at hv
        cases hq : utf8Seq (b :: r) with
        | none => simp [hq] at hv
        | some p =>
          obtain ⟨q, r2⟩ := p
          simp only [hq] at hv
          obtain ⟨hsplit, hlen2, hhigh, hloc⟩ := utf8Seq_spec hq
          have hcr2 : noRawControl r2 = true := by
            have : noRawControl (q ++ r2) = true := by rw [← hsplit]; exact hc
            simp [noRawControl] at this ⊢
            exact this.2
          have hflat : (b :: r).flatMap escapeByte = q ++ r2.flatMap escapeByte := by
            rw [hsplit, List.flatMap_append, flatMap_escape_high q hhigh]
          rw [hflat] at hf ⊢
          match q, hsplit, hlen2, hloc, hf with
          | x :: q', hsplit, hlen2, hloc, hf =>
            have hx : x = b := by
              have := congrArg List.head? hsplit
              simpa using this.symm
            subst hx
            have h34 : x ≠ 34 := by omega
            have h92 : x ≠ 92 := by omega
            have h32 : ¬ x < 32 := by omega
            have hl := hloc (r2.flatMap escapeByte ++ 34 :: rest)
            simp only [List.cons_append, List.append_assoc] at hl ⊢
            simp only [readString, h34, h92, h32, hb, if_false, hl]
            have hlen : (r2.flatMap escapeByte).length + 1 ≤ k := by
              simp only [List.length_append, List.length_cons] at hf hlen2
              omega
            rw [ih r2 hv hcr2 k rest hlen]
            have : x :: r = x :: q' ++ r2 := hsplit
            simp [this]

/-! ## Lemmas on the JSON reader: numbers -/

theorem takeDigits_append (a : Bytes) (c : Nat) (X : Bytes) (hc : isDigit c = false) :
    takeDigits (a ++ c :: X) = ((takeDigits a).1, (takeDigits a).2 ++ c :: X) := by
  induction a with
  | nil => simp [takeDigits, hc]
  | cons b r ih =>
    by_cases hb : isDigit b = true
    · simp [takeDigits, hb, ih]
    · simp [takeDigits, hb]

theorem takeDigits_split (a : Bytes) : (takeDigits a).1 ++ (takeDigits a).2 = a := by
  induction a with
  | nil => simp [takeDigits]
  | cons b r ih =>
    by_cases hb : isDigit b = true
    · simp [takeDigits, hb, ih]
    · simp [takeDigits, hb]

theorem sep_not_digit {c : Nat} (hc : c = 44 ∨ c = 125) : isDigit c = false := by
  rcases hc with rfl | rfl <;> decide

theorem readInt_append {a i r : Bytes} (h : readInt a = some (i, r)) (c : Nat) (X : Bytes)
    (hc : c = 44 ∨ c = 125) : readInt (a ++ c :: X) = some (i, r ++ c :: X) := by
  match a, h with
  | b :: t, h =>
    simp only [readInt] at h
    simp only [List.cons_append, readInt]
    split_ifs at h ⊢ with h0 h1
    · simp only [Option.some.injEq, Prod.mk.injEq] at h
      obtain ⟨rfl, rfl⟩ := h
      rfl
    · simp only [Option.some.injEq, Prod.mk.injEq] at h
      obtain ⟨rfl, rfl⟩ := h
      rw [takeDigits_append t c X (sep_not_digit hc)]

theorem readInt_split {a i r : Bytes} (h : readInt a = some (i, r)) : i ++ r = a := by
  match a, h with
  | b :: t, h =>
    simp only [readInt] at h
    split_ifs at h with h0 h1
    · simp only [Option.some.injEq, Prod.mk.injEq] at h
      obtain ⟨rfl, rfl⟩ := h
      simp [h0]
    · simp only [Option.some.injEq, Prod.mk.injEq] at h
      obtain ⟨rfl, rfl⟩ := h
      simp [takeDigits_split]

theorem readFrac_append {a f r : Bytes} (h : readFrac a = some (f, r)) (c : Nat) (X : Bytes)
    (hc : c = 44 ∨ c = 125) : readFrac (a ++ c :: X) = some (f, r ++ c :: X) := by
  match a, h with
  | [], h =>
    simp only [readFrac, Option.some.injEq, Prod.mk.injEq] at h
    obtain ⟨rfl, rfl⟩ := h
    have : c ≠ 46 := by rcases hc with rfl | rfl <;> decide
    simp [readFrac, this]
  | b :: t, h =>
    simp only [readFrac] at h
    simp only [List.cons_append, readFrac]
    rw [takeDigits_append t c X (sep_not_digit hc)]
    split_ifs at h ⊢ with h0 h1
    · simp only [Option.some.injEq, Prod.mk.injEq] at h
      obtain ⟨rfl, rfl⟩ := h
      rfl
    · simp only [Option.some.injEq, Prod.mk.injEq] at h
      obtain ⟨rfl, rfl⟩ := h
      rfl

theorem readFrac_split {a f r : Bytes} (h : readFrac a = some (f, r)) : f ++ r = a := by
  match a, h with
  | [], h =>
    simp only [readFrac, Option.some.injEq, Prod.mk.injEq] at h
    obtain ⟨rfl, rfl⟩ := h
    rfl
  | b :: t, h =>
    simp only [readFrac] at h
    split_ifs at h with h0 h1
    · simp only [Option.some.injEq, Prod.mk.injEq] at h
      obtain ⟨rfl, rfl⟩ := h
      simp [h0, takeDigits_split]
    · simp only [Option.some.injEq, Prod.mk.injEq] at h
      obtain ⟨rfl, rfl⟩ := h
      rfl

theorem readSign_append (a : Bytes) (c : Nat) (X : Bytes) (hc : c = 44 ∨ c = 125) :
    readSign (a ++ c :: X) = ((readSign a).1, (readSign a).2 ++ c :: X) := by
  match a with
  | [] =>
    have h1 : c ≠ 43 := by rcases hc with rfl | rfl <;> decide
    have h2 : c ≠ 45 := by rcases hc with rfl | rfl <;> decide
    simp [readSign, h1, h2]
  | s :: r =>
    simp only [List.cons_append, readSign]
    split_ifs <;> rfl

theorem readSign_split (a : Bytes) : (readSign a).1 ++ (readSign a).2 = a := by
  match a with
  | [] => rfl
  | s :: r =>
    simp only [readSign]
    split_ifs <;> rfl

theorem readExp_append {a x r : Bytes} (h : readExp a = some (x, r)) (c : Nat) (X : Bytes)
    (hc : c = 44 ∨ c = 125) : readExp (a ++ c :: X) = some (x, r ++ c :: X) := by
  match a, h with
  | [], h =>
    simp only [readExp, Option.some.injEq, Prod.mk.injEq] at h
    obtain ⟨rfl, rfl⟩ := h
    have h1 : c ≠ 101 := by rcases hc with rfl | rfl <;> decide
    have h2 : c ≠ 69 := by rcases hc with rfl | rfl <;> decide
    simp [readExp, h1, h2]
  | b :: t, h =>
    simp only [readExp] at h
    simp only [List.cons_append, readExp]
    rw [readSign_append t c X hc, takeDigits_append _ c X (sep_not_digit hc)]
    split_ifs at h ⊢ with h0 h1
    · simp only [Option.some.injEq, Prod.mk.injEq] at h
      obtain ⟨rfl, rfl⟩ := h
      rfl
    · simp only [Option.some.injEq, Prod.mk.injEq] at h
      obtain ⟨rfl, rfl⟩ := h
      rfl

theorem readExp_split {a x r : Bytes} (h : readExp a = some (x, r)) : x ++ r = a := by
  match a, h with
  | [], h =>
    simp only [readExp, Option.some.injEq, Prod.mk.injEq] at h
    obtain ⟨rfl, rfl⟩ := h
    rfl
  | b :: t, h =>
    simp only [readExp] at h
    split_ifs at h with h0 h1
    · simp only [Option.some.injEq, Prod.mk.injEq] at h
      obtain ⟨rfl, rfl⟩ := h
      simp only [List.cons_append, List.append_assoc, takeDigits_split, readSign_split]
    · simp only [Option.some.injEq, Prod.mk.injEq] at h
      obtain ⟨rfl, rfl⟩ := h
      rfl

theorem readMinus_append (a : Bytes) (c : Nat) (X : Bytes) (ha : a ≠ []) :
    readMinus (a ++ c :: X) = ((readMinus a).1, (readMinus a).2 ++ c :: X) := by
  match a, ha with
  | s :: r, _ =>
    simp only [List.cons_append, readMinus]
    split_ifs <;> rfl

theorem readMinus_split (a : Bytes) : (readMinus a).1 ++ (readMinus a).2 = a := by
  match a with
  | [] => rfl
  | s :: r =>
    simp only [readMinus]
    split_ifs with h
    · simp [h]
    · rfl

/-- The three stages of `readNumber` after the sign. -/
theorem readNumber_some {bs lit r : Bytes} (h : readNumber bs = some (lit, r)) :
    ∃ i r1 f r2 x,
      readInt (readMinus bs).2 = some (i, r1) ∧ readFrac r1 = some (f, r2)
      ∧ readExp r2 = some (x, r) ∧ lit = (readMinus bs).1 ++ i ++ f ++ x := by
  unfold readNumber at h
  split at h
  · exact absurd h (by simp)
  · rename_i i r1 hi
    split at h
    · exact absurd h (by simp)
    · rename_i f r2 hf
      split at h
      · exact absurd h (by simp)
      · rename_i x r3 hx
        simp only [Option.some.injEq, Prod.mk.injEq] at h
        obtain ⟨rfl, rfl⟩ := h
        exact ⟨i, r1, f, r2, x, hi, hf, hx, rfl⟩

theorem readNumber_ne_nil {bs lit r : Bytes} (h : readNumber bs = some (lit, r)) : bs ≠ [] := by
  rintro rfl
  simp [readNumber, readMinus, readInt] at h

theorem readNumber_append {bs lit r : Bytes} (h : readNumber bs = some (lit, r)) (c : Nat)
    (X : Bytes) (hc : c = 44 ∨ c = 125) :
    readNumber (bs ++ c :: X) = some (lit, r ++ c :: X) := by
  obtain ⟨i, r1, f, r2, x, hi, hf, hx, rfl⟩ := readNumber_some h
  unfold readNumber
  rw [readMinus_append bs c X (readNumber_ne_nil h)]
  simp only [readInt_append hi c X hc, readFrac_append hf c X hc, readExp_append hx c X hc]

theorem readNumber_split {bs lit r : Bytes} (h : readNumber bs = some (lit, r)) :
    lit ++ r = bs := by
  obtain ⟨i, r1, f, r2, x, hi, hf, hx, rfl⟩ := readNumber_some h
  have h1 := readInt_split hi
  have h2 := readFrac_split hf
  have h3 := readExp_split hx
  have h0 := readMinus_split bs
  calc (readMinus bs).1 ++ i ++ f ++ x ++ r
      = (readMinus bs).1 ++ (i ++ (f ++ (x ++ r))) := by simp only [List.append_assoc]
    _ = (readMinus bs).1 ++ (readMinus bs).2 := by rw [h3, h2, h1]
    _ = bs := h0

/-- The first byte of a number is a minus sign or a digit. -/
theorem readNumber_head {b : Nat} {t lit r : Bytes} (h : readNumber (b :: t) = some (lit, r)) :
    b = 45 ∨ (48 ≤ b ∧ b ≤ 57) := by
  obtain ⟨i, r1, f, r2, x, hi, _, _, _⟩ := readNumber_some h
  by_cases hb : b = 45
  · exact Or.inl hb
  · right
    simp only [readMinus, hb, if_false, readInt] at hi
    split_ifs at hi with h0 h1
    · omega
    · omega

theorem isNumberText_spec {t : Bytes} (h : isNumberText t = true) :
    readNumber t = some (t, []) := by
  unfold isNumberText at h
  split at h
  · rename_i lit hr
    have := readNumber_split hr
    simp at this
    rw [hr, this]
  · exact absurd h (by simp)

/-! ## Lemmas on the JSON reader: values -/

theorem takeDigits_all (ds : Bytes) (h : ∀ x ∈ ds, isDigit x = true) : takeDigits ds = (ds, []) := by
  induction ds with
  | nil => rfl
  | cons b r ih =>
    have hb := h b (List.mem_cons_self _ _)
    have hr := ih fun x hx => h x (List.mem_cons_of_mem _ hx)
    simp [takeDigits, hb, hr]

theorem decimalAux_spec (fuel : Nat) :
    ∀ (n : Nat) (acc : Bytes), n < fuel →
      ∃ d ds, decimalAux fuel n acc = d :: ds ++ acc ∧ (∀ x ∈ d :: ds, isDigit x = true)
        ∧ (n = 0 → d = 48 ∧ ds = []) ∧ (n ≠ 0 → 49 ≤ d) := by
  induction fuel with
  | zero => intro n acc h; omega
  | succ fuel ih =>
    intro n acc h
    by_cases hn : n < 10
    · refine ⟨48 + n, [], by simp [decimalAux, hn], ?_, ?_, ?_⟩
      · intro x hx
        simp only [List.mem_singleton] at hx
        subst hx
        simp [isDigit]; omega
      · intro h0; subst h0; simp
      · intro h0; omega
    · obtain ⟨d, ds, h1, h2, _, h4⟩ := ih (n / 10) ((48 + n % 10) :: acc) (by omega)
      refine ⟨d, ds ++ [48 + n % 10], ?_, ?_, ?_, ?_⟩
      · simp [decimalAux, hn, h1]
      · intro x hx
        simp only [List.mem_cons, List.mem_append, List.mem_singleton, List.not_mem_nil,
          or_false] at hx
        rcases hx with hx | hx | hx
        · exact h2 x (by simp [hx])
        · exact h2 x (by simp [hx])
        · subst hx
          simp [isDigit]; omega
      · intro h0; omega
      · intro _; exact h4 (by omega)

theorem decimal_spec (n : Nat) :
    ∃ d ds, decimal n = d :: ds ∧ (∀ x ∈ d :: ds, isDigit x = true)
      ∧ (n = 0 → d = 48 ∧ ds = []) ∧ (n ≠ 0 → 49 ≤ d) := by
  obtain ⟨d, ds, h1, h2, h3, h4⟩ := decimalAux_spec (n + 1) n [] (by omega)
  exact ⟨d, ds, by simpa [decimal] using h1, h2, h3, h4⟩

theorem readInt_decimal (n : Nat) : readInt (decimal n) = some (decimal n, []) := by
  obtain ⟨d, ds, h1, h2, h3, h4⟩ := decimal_spec n
  rw [h1]
  have hd : isDigit d = true := h2 d (List.mem_cons_self _ _)
  have hd2 : 48 ≤ d ∧ d ≤ 57 := by simpa [isDigit] using hd
  by_cases h0 : n = 0
  · obtain ⟨rfl, rfl⟩ := h3 h0
    rfl
  · have h49 := h4 h0
    have hne : d ≠ 48 := by omega
    have hds := takeDigits_all ds fun x hx => h2 x (List.mem_cons_of_mem _ hx)
    have hr : 49 ≤ d ∧ d ≤ 57 := ⟨h49, hd2.2⟩
    simp [readInt, hne, hr, hds]

theorem readNumber_intText (i : Int) : readNumber (intText i) = some (intText i, []) := by
  obtain ⟨d, ds, h1, h2, _, _⟩ := decimal_spec i.natAbs
  have hd : 48 ≤ d ∧ d ≤ 57 := by
    simpa [isDigit] using h2 d (List.mem_cons_self _ _)
  have hri := readInt_decimal i.natAbs
  unfold intText
  by_cases hneg : i < 0
  · simp only [hneg, if_true]
    simp [readNumber, readMinus, hri, readFrac, readExp]
  · simp only [hneg, if_false]
    have hm : readMinus (decimal i.natAbs) = ([], decimal i.natAbs) := by
      rw [h1]
      have : d ≠ 45 := by omega
      simp [readMinus, this]
    simp [readNumber, hm, hri, readFrac, readExp]

theorem skipWs_cons {b : Nat} (t : Bytes) (h : isWs b = false) : skipWs (b :: t) = b :: t := by
  simp [skipWs, h]

theorem readValue_number {bs lit : Bytes} (h : readNumber bs = some (lit, [])) (fuel : Nat)
    (c : Nat) (X : Bytes) (hc : c = 44 ∨ c = 125) :
    readValue (fuel + 1) (skipWs (bs ++ c :: X)) = some (JVal.num lit, c :: X) := by
  have happ := readNumber_append h c X hc
  match bs, h, happ with
  | b :: t, h, happ =>
    have hb := readNumber_head h
    have hws : isWs b = false := by
      rcases hb with rfl | hb
      · decide
      · simp [isWs]; omega
    have h1 : b ≠ 34 := by omega
    have h2 : b ≠ 123 := by omega
    have h3 : b ≠ 91 := by omega
    have h4 : b ≠ 116 := by omega
    have h5 : b ≠ 102 := by omega
    have h6 : b ≠ 110 := by omega
    rw [List.cons_append, skipWs_cons _ hws]
    rw [List.cons_append] at happ
    simp [readValue, h1, h2, h3, h4, h5, h6, happ]

theorem readStringLit_write (s rest : Bytes) (h : cleanText s = true) :
    readStringLit (writeJSONString [] s ++ rest) = some (s, rest) := by
  simp only [cleanText, Bool.and_eq_true] at h
  rw [writeJSONString_eq]
  simp only [List.nil_append, List.singleton_append, List.cons_append, List.append_assoc,
    readStringLit, if_true]
  exact readString_escaped s.length s h.1 h.2 _ rest (by simp)

theorem readValue_string (s : Bytes) (h : cleanText s = true) (fuel : Nat) (rest : Bytes) :
    readValue (fuel + 1) (skipWs (writeJSONString [] s ++ rest)) = some (JVal.str s, rest) := by
  have hr := readStringLit_write s rest h
  rw [writeJSONString_eq] at hr ⊢
  simp only [List.nil_append, List.singleton_append, List.cons_append, List.append_assoc] at hr ⊢
  rw [skipWs_cons _ (by decide)]
  simp [readValue, hr]

theorem readValue_render (v : Val) (h : readableVal v = true) (fuel : Nat) (c : Nat)
    (X : Bytes) (hc : c = 44 ∨ c = 125) :
    readValue (fuel + 1) (skipWs (render v ++ c :: X)) = some (jsonOf v, c :: X) := by
  cases v with
  | str s => exact readValue_string s h fuel _
  | byteSlice s => exact readValue_string s h fuel _
  | num n =>
    exact readValue_number (readNumber_intText n) fuel c X hc
  | float t =>
    exact readValue_number (isNumberText_spec h) fuel c X hc
  | bool b =>
    cases b with
    | true =>
      have hr : render (Val.bool true) = [116, 114, 117, 101] := by decide
      have ht : bytesOf "true" = [116, 114, 117, 101] := by decide
      rw [hr]
      simp [skipWs, isWs, readValue, readLit, ht, jsonOf]
    | false =>
      have hr : render (Val.bool false) = [102, 97, 108, 115, 101] := by decide
      have ht : bytesOf "false" = [102, 97, 108, 115, 101] := by decide
      rw [hr]
      simp [skipWs, isWs, readValue, readLit, ht, jsonOf]
  | other st er t =>
    cases st with
    | some x => exact readValue_string x h fuel _
    | none =>
      cases er with
      | some y => exact readValue_string y h fuel _
      | none => exact readValue_string t h fuel _

/-! ## Lemmas on the JSON reader: objects -/

theorem plainText_mem {s : Bytes} (h : plainText s = true) :
    ∀ b ∈ s, 32 ≤ b ∧ b ≠ 34 ∧ b ≠ 92 := by
  intro b hb
  simp only [plainText, List.all_eq_true, Bool.and_eq_true, decide_eq_true_eq, bne_iff_ne,
    ne_eq] at h
  obtain ⟨⟨h1, h2⟩, h3⟩ := h.2 b hb
  exact ⟨h1, h2, h3⟩

theorem plainText_clean {s : Bytes} (h : plainText s = true) : cleanText s = true := by
  have hm := plainText_mem h
  simp only [cleanText, Bool.and_eq_true]
  constructor
  · simp only [plainText, Bool.and_eq_true] at h
    exact h.1
  · simp only [noRawControl, List.all_eq_true, Bool.or_eq_true, decide_eq_true_eq]
    intro b hb
    have := hm b hb
    simp [this.1]

theorem flatMap_escape_raw (s : Bytes) (h : ∀ b ∈ s, 32 ≤ b ∧ b ≠ 34 ∧ b ≠ 92) :
    s.flatMap escapeByte = s := by
  induction s with
  | nil => rfl
  | cons b r ih =>
    have hm := h b (List.mem_cons_self _ _)
    have hb : escapeByte b = [b] := by
      have h1 : b ≠ 8 := by omega
      have h2 : b ≠ 12 := by omega
      have h3 : b ≠ 10 := by omega
      have h4 : b ≠ 13 := by omega
      have h5 : b ≠ 9 := by omega
      simp [escapeByte, hm.2.1, hm.2.2, h1, h2, h3, h4, h5]
    rw [List.flatMap_cons, hb, ih fun x hx => h x (List.mem_cons_of_mem _ hx)]
    rfl

theorem plainText_escape {s : Bytes} (h : plainText s = true) : s.flatMap escapeByte = s :=
  flatMap_escape_raw s (plainText_mem h)

theorem writeJSONString_plain {s : Bytes} (h : plainText s = true) :
    writeJSONString [] s = 34 :: s ++ [34] := by
  rw [writeJSONString_eq, plainText_escape h]
  rfl

theorem encodePair_eq (kv : Val × Val) : encodePair kv = 44 :: memberText kv := by
  have h1 : bytesOf ",\"" = [44, 34] := by decide
  have h2 : bytesOf "\":" = [34, 58] := by decide
  simp [encodePair, memberText, h1, h2]

theorem readStringLit_key (kv : Val × Val) (Y : Bytes) (h : readablePair kv = true) :
    readStringLit (memberText kv ++ Y) = some (keyText kv.1, 58 :: (render kv.2 ++ Y)) := by
  simp only [readablePair, Bool.and_eq_true] at h
  have := readStringLit_write (keyText kv.1) (58 :: (render kv.2 ++ Y)) (plainText_clean h.1)
  rw [writeJSONString_plain h.1] at this
  rw [← this]
  simp [memberText]

theorem readMembers_pairs (ms : List (Val × Val)) :
    ∀ (m0 : Val × Val) (acc : List (Bytes × JVal)) (fuel : Nat) (rest : Bytes),
      readablePair m0 = true → (∀ m ∈ ms, readablePair m = true) → ms.length + 2 ≤ fuel →
      readMembers fuel (memberText m0 ++ (ms.flatMap encodePair ++ 125 :: rest)) acc
        = some (JVal.obj (acc ++ (m0 :: ms).map memberOf), rest) := by
  induction ms with
  | nil =>
    intro m0 acc fuel rest h0 _ hf
    obtain ⟨g, rfl⟩ : ∃ g, fuel = g + 1 + 1 := ⟨fuel - 2, by simp at hf; omega⟩
    have hv : readableVal m0.2 = true := by
      simp only [readablePair, Bool.and_eq_true] at h0
      exact h0.2
    have hval := readValue_render m0.2 hv g 125 rest (Or.inr rfl)
    simp only [List.flatMap_nil, List.nil_append]
    rw [readMembers]
    simp only [readStringLit_key m0 _ h0]
    rw [skipWs_cons _ (by decide)]
    simp only [if_true, hval]
    rw [skipWs_cons _ (by decide)]
    simp [memberOf]
  | cons m1 ms ih =>
    intro m0 acc fuel rest h0 hms hf
    obtain ⟨g, rfl⟩ : ∃ g, fuel = g + 1 + 1 := ⟨fuel - 2, by simp at hf; omega⟩
    have hv : readableVal m0.2 = true := by
      simp only [readablePair, Bool.and_eq_true] at h0
      exact h0.2
    have h1 : readablePair m1 = true := hms m1 (List.mem_cons_self _ _)
    have hrest : ∀ m ∈ ms, readablePair m = true := fun m hm =>
      hms m (List.mem_cons_of_mem _ hm)
    have hY : (m1 :: ms).flatMap encodePair ++ 125 :: rest
        = 44 :: (memberText m1 ++ (ms.flatMap encodePair ++ 125 :: rest)) := by
      simp [List.flatMap_cons, encodePair_eq, List.append_assoc]
    have hval := readValue_render m0.2 hv g 44
      (memberText m1 ++ (ms.flatMap encodePair ++ 125 :: rest)) (Or.inl rfl)
    rw [hY, readMembers]
    simp only [readStringLit_key m0 _ h0]
    rw [skipWs_cons _ (by decide)]
    simp only [if_true, hval]
    rw [skipWs_cons _ (by decide)]
    simp only [if_true]
    have hmt : memberText m1 ++ (ms.flatMap encodePair ++ 125 :: rest)
        = 34 :: (keyText m1.1 ++ 34 :: 58 :: render m1.2
            ++ (ms.flatMap encodePair ++ 125 :: rest)) := by
      simp [memberText]
    have hsk : skipWs (memberText m1 ++ (ms.flatMap encodePair ++ 125 :: rest))
        = memberText m1 ++ (ms.flatMap encodePair ++ 125 :: rest) := by
      rw [hmt]
      exact skipWs_cons _ (by decide)
    rw [hsk, ih m1 _ (g + 1) rest h1 hrest (by simp at hf; omega)]
    simp [memberOf, List.append_assoc]

/-! ## Lemmas on the JSON reader: documents -/

theorem plainText_levelString (l : Level) : plainText (Level.String l) = true := by
  unfold Level.String
  split_ifs <;> decide

theorem length_le_flatMap_encodePair (ms : List (Val × Val)) :
    ms.length ≤ (ms.flatMap encodePair).length := by
  induction ms with
  | nil => simp
  | cons m ms ih =>
    simp only [List.flatMap_cons, List.length_append, List.length_cons, encodePair_eq]
    omega

theorem docHead_eq (e : Emitter) (now tag : Bytes) (level : Level) (message : Bytes)
    (htag : plainText tag = true) (hnow : e.TimeFormat ≠ [] → plainText now = true) :
    docHead e now tag level message
      = 123 :: ((headPairs e now tag level message).flatMap encodePair).tail := by
  have c1 : bytesOf "\"time\":\"" = [34, 116, 105, 109, 101, 34, 58, 34] := by decide
  have c2 : bytesOf "\"," = [34, 44] := by decide
  have c3 : bytesOf "\"tag\":\"" = [34, 116, 97, 103, 34, 58, 34] := by decide
  have c4 : bytesOf "\"level\":\"" = [34, 108, 101, 118, 101, 108, 34, 58, 34] := by decide
  have c5 : bytesOf "\"" = [34] := by decide
  have c6 : bytesOf ",\"msg\":" = [44, 34, 109, 115, 103, 34, 58] := by decide
  have k1 : bytesOf "time" = [116, 105, 109, 101] := by decide
  have k2 : bytesOf "tag" = [116, 97, 103] := by decide
  have k3 : bytesOf "level" = [108, 101, 118, 101, 108] := by decide
  have k4 : bytesOf "msg" = [109, 115, 103] := by decide
  have hl := writeJSONString_plain (plainText_levelString level)
  have ht := writeJSONString_plain htag
  by_cases htf : e.TimeFormat = []
  · simp [docHead, headPairs, htf, c3, c2, c4, c5, c6, k2, k3, k4, encodePair_eq, memberText,
      render, writeValue, keyText, hl, ht, List.flatMap_cons, List.append_assoc]
  · have hn := writeJSONString_plain (hnow htf)
    simp [docHead, headPairs, htf, c1, c3, c2, c4, c5, c6, k1, k2, k3, k4, encodePair_eq,
      memberText, render, writeValue, keyText, hl, ht, hn, List.flatMap_cons, List.append_assoc]

theorem headPairs_readable (e : Emitter) (now tag : Bytes) (level : Level) (message : Bytes)
    (htag : plainText tag = true) (hnow : e.TimeFormat ≠ [] → plainText now = true)
    (hmsg : cleanText message = true) :
    ∀ m ∈ headPairs e now tag level message, readablePair m = true := by
  have p1 : plainText (bytesOf "time") = true := by decide
  have p2 : plainText (bytesOf "tag") = true := by decide
  have p3 : plainText (bytesOf "level") = true := by decide
  have p4 : plainText (bytesOf "msg") = true := by decide
  intro m hm
  by_cases htf : e.TimeFormat = []
  · simp only [headPairs, htf, ne_eq, not_true_eq_false, if_false, List.nil_append,
      List.mem_cons, List.mem_singleton, List.not_mem_nil, or_false] at hm
    rcases hm with rfl | rfl | rfl
    · simp [readablePair, keyText, readableVal, p2, plainText_clean htag]
    · simp [readablePair, keyText, readableVal, p3, plainText_clean (plainText_levelString level)]
    · simp [readablePair, keyText, readableVal, p4, hmsg]
  · simp only [headPairs, htf, ne_eq, not_false_eq_true, if_true, List.singleton_append,
      List.mem_cons, List.mem_singleton, List.not_mem_nil, or_false] at hm
    rcases hm with rfl | rfl | rfl | rfl
    · simp [readablePair, keyText, readableVal, p1, plainText_clean (hnow htf)]
    · simp [readablePair, keyText, readableVal, p2, plainText_clean htag]
    · simp [readablePair, keyText, readableVal, p3, plainText_clean (plainText_levelString level)]
    · simp [readablePair, keyText, readableVal, p4, hmsg]

theorem headPairs_members (e : Emitter) (now tag : Bytes) (level : Level) (message : Bytes) :
    (headPairs e now tag level message).map memberOf = headMembers e now tag level message := by
  by_cases htf : e.TimeFormat = [] <;> simp [headPairs, headMembers, htf, memberOf, keyText, jsonOf]

/-- A brace, the pairs of a non-empty list without the first comma, a brace and a newline
read as the object of the members of the pairs. -/
theorem parseJSON_pairs (m0 : Val × Val) (ms : List (Val × Val))
    (h : ∀ m ∈ m0 :: ms, readablePair m = true) :
    parseJSON (123 :: ((m0 :: ms).flatMap encodePair).tail ++ [125] ++ [10])
      = some (JVal.obj ((m0 :: ms).map memberOf)) := by
  have h0 : readablePair m0 = true := h m0 (List.mem_cons_self _ _)
  have hms : ∀ m ∈ ms, readablePair m = true := fun m hm => h m (List.mem_cons_of_mem _ hm)
  have hbody : 123 :: ((m0 :: ms).flatMap encodePair).tail ++ [125] ++ [10]
      = 123 :: (memberText m0 ++ (ms.flatMap encodePair ++ 125 :: [10])) := by
    simp [List.flatMap_cons, encodePair_eq, List.append_assoc]
  have hmt : memberText m0 ++ (ms.flatMap encodePair ++ 125 :: [10])
      = 34 :: (keyText m0.1 ++ 34 :: 58 :: render m0.2
          ++ (ms.flatMap encodePair ++ 125 :: [10])) := by
    simp [memberText]
  have hlen : ms.length + 2
      ≤ (123 :: (memberText m0 ++ (ms.flatMap encodePair ++ 125 :: [10]))).length := by
    have := length_le_flatMap_encodePair ms
    simp only [List.length_cons, List.length_append]
    omega
  have hread := readMembers_pairs ms m0 []
    (123 :: (memberText m0 ++ (ms.flatMap encodePair ++ 125 :: [10]))).length [10] h0 hms hlen
  rw [hbody]
  unfold parseJSON
  rw [skipWs_cons _ (by decide), readValue]
  simp only [show (123 : Nat) ≠ 34 by decide, if_false, if_true]
  rw [hmt, skipWs_cons _ (by decide)]
  simp only [show (34 : Nat) ≠ 125 by decide, if_false]
  rw [← hmt, hread]
  simp [skipWs, isWs]

theorem headPairs_cons (e : Emitter) (now tag : Bytes) (level : Level) (message : Bytes) :
    ∃ m0 hs, headPairs e now tag level message = m0 :: hs := by
  by_cases htf : e.TimeFormat = [] <;> simp [headPairs, htf]

theorem flatMap_encode (chain : List (List Val)) :
    chain.flatMap encode = (chain.flatMap pairs).flatMap encodePair := by
  induction chain with
  | nil => rfl
  | cons F chain ih => simp [List.flatMap_cons, List.flatMap_append, encode, ih]

theorem parseObject_document (e : Emitter) (now tag : Bytes) (level : Level)
    (message : Bytes) (chain : List (List Val)) (fields : List Val)
    (htag : plainText tag = true) (hnow : e.TimeFormat ≠ [] → plainText now = true)
    (hmsg : cleanText message = true)
    (hctx : e.context = chain.flatMap encode)
    (hchain : ∀ F ∈ chain, ∀ kv ∈ pairs F, readablePair kv = true)
    (hfields : ∀ kv ∈ pairs fields, readablePair kv = true) :
    parseObject (document e now tag level message fields)
      = some (headMembers e now tag level message
          ++ (chain.flatMap pairs ++ pairs fields).map memberOf) := by
  obtain ⟨m0, hs, hhp⟩ := headPairs_cons e now tag level message
  have hhead := headPairs_readable e now tag level message htag hnow hmsg
  have hdoc : document e now tag level message fields
      = 123 :: ((m0 :: (hs ++ (chain.flatMap pairs ++ pairs fields))).flatMap encodePair).tail
          ++ [125] ++ [10] := by
    rw [document, docHead_eq e now tag level message htag hnow, hctx, flatMap_encode, hhp]
    simp [List.flatMap_cons, List.flatMap_append, encodePair_eq, List.append_assoc]
  have hall : ∀ m ∈ m0 :: (hs ++ (chain.flatMap pairs ++ pairs fields)),
      readablePair m = true := by
    intro m hm
    rw [← List.cons_append, ← hhp, List.mem_append, List.mem_append] at hm
    rcases hm with hm | hm | hm
    · exact hhead m hm
    · obtain ⟨F, hF, hmF⟩ := List.mem_flatMap.mp hm
      exact hchain F hF m hmF
    · exact hfields m hm
  unfold parseObject
  rw [hdoc, parseJSON_pairs m0 _ hall, ← List.cons_append, ← hhp, List.map_append,
    headPairs_members]

theorem emitEvents_hook (e : Emitter) (h : Nat) (level : Level) (buf : Bytes)
    (hh : e.Hook = some h) :
    emitEvents e level buf = [Event.hook h level buf, Event.write e.Output buf] := by
  simp [emitEvents, hh]

theorem emitEvents_nohook (e : Emitter) (level : Level) (buf : Bytes) (hh : e.Hook = none) :
    emitEvents e level buf = [Event.write e.Output buf] := by
  simp [emitEvents, hh]

/-- Any pool: the trace of a passing emission. -/
theorem emit_trace (w : World) (e : Nat) (env : Env) (tag : Bytes) (level : Level)
    (message : Bytes) (fields : List Val) (hlevel : (w.heap e).Level ≤ level)
    (hlen : fields.length % 2 = 0) :
    (Emitter.Emit w e env tag level message fields).map World.trace
      = some (w.trace ++ emitEvents (w.heap e) level
          ((poolGet w.pool env.pick).1 ++ document (w.heap e) env.now tag level message
            fields)) := by
  rw [emit_pass w e env tag level message fields hlevel hlen]
  rfl

theorem exitCalls_append (a b : List Event) : exitCalls (a ++ b) = exitCalls a ++ exitCalls b := by
  simp [exitCalls, List.filterMap_append]

theorem exitCalls_emitEvents (e : Emitter) (level : Level) (buf : Bytes) :
    exitCalls (emitEvents e level buf) = [] := by
  unfold emitEvents
  cases e.Hook <;> simp [exitCalls]

/-- The outcome of `Emitter.F` after a passing emission. -/
theorem emitterF_pass (w : World) (e : Nat) (env : Env) (tag message : Bytes)
    (fields : List Val) (hlen : fields.length % 2 = 0) (hmin : (w.heap e).Level ≤ Fatal) :
    ∃ w1, Emitter.Emit w e env tag Fatal message fields = some w1
      ∧ Emitter.F w e env tag message fields = callExit w1 1
      ∧ w1.trace = w.trace ++ emitEvents (w.heap e) Fatal
          ((poolGet w.pool env.pick).1 ++ document (w.heap e) env.now tag Fatal message fields)
      ∧ w1._exit = w._exit := by
  refine ⟨_, emit_pass w e env tag Fatal message fields hmin hlen, ?_, rfl, rfl⟩
  simp only [Emitter.F, emit_pass w e env tag Fatal message fields hmin hlen]

theorem emitterF_record (w : World) (e : Nat) (env : Env) (tag message : Bytes)
    (fields : List Val) (hlen : fields.length % 2 = 0) (hmin : (w.heap e).Level ≤ Fatal)
    (hrec : w._exit = ExitFn.record) :
    ∃ w2, Emitter.F w e env tag message fields = Outcome.returned w2
      ∧ w2.trace = w.trace ++ emitEvents (w.heap e) Fatal
          ((poolGet w.pool env.pick).1 ++ document (w.heap e) env.now tag Fatal message fields)
          ++ [Event.exit 1]
      ∧ exitCalls w2.trace = exitCalls w.trace ++ [1]
      ∧ LastExitCode w2 = 1 := by
  obtain ⟨w1, _, hF, htr, hex⟩ := emitterF_pass w e env tag message fields hlen hmin
  refine ⟨{ w1 with _exitCode := 1, trace := w1.trace ++ [Event.exit 1] }, ?_, ?_, ?_, rfl⟩
  · rw [hF]; simp [callExit, hex, hrec]
  · simp [htr]
  · show exitCalls (w1.trace ++ [Event.exit 1]) = _
    rw [exitCalls_append, htr, exitCalls_append, exitCalls_emitEvents]
    simp [exitCalls]

theorem emitterF_osExit (w : World) (e : Nat) (env : Env) (tag message : Bytes)
    (fields : List Val) (hlen : fields.length % 2 = 0) (hmin : (w.heap e).Level ≤ Fatal)
    (hos : w._exit = ExitFn.osExit) :
    ∃ w2, Emitter.F w e env tag message fields = Outcome.exited w2 1
      ∧ w2.trace = w.trace ++ emitEvents (w.heap e) Fatal
          ((poolGet w.pool env.pick).1 ++ document (w.heap e) env.now tag Fatal message fields)
          ++ [Event.exit 1]
      ∧ exitCalls w2.trace = exitCalls w.trace ++ [1] := by
  obtain ⟨w1, _, hF, htr, hex⟩ := emitterF_pass w e env tag message fields hlen hmin
  refine ⟨{ w1 with trace := w1.trace ++ [Event.exit 1] }, ?_, ?_, ?_⟩
  · rw [hF]; simp [callExit, hex, hos]
  · simp [htr]
  · show exitCalls (w1.trace ++ [Event.exit 1]) = _
    rw [exitCalls_append, htr, exitCalls_append, exitCalls_emitEvents]
    simp [exitCalls]

theorem packageF_eq (w : World) (d : Nat) (env : Env) (tag message : Bytes) (v : List Val)
    (hd : w.Default = some d) : F w env tag message v = Emitter.F w d env tag message v := by
  simp [F, defaultEmit, hd, Emitter.F]

/-- What switching the test mode on does to the package state. -/
theorem setTestMode_on (w : World) (s d : Nat) (rest : List Nat) (hd : w.Default = some d) :
    ∃ w1, SetTestMode w true (s :: rest) = some w1
      ∧ w1.Default = some w.next
      ∧ w1.heap w.next
          = { Level := Trace, Output := s, TimeFormat := [], Hook := (w.heap d).Hook,
              context := [] }
      ∧ (∀ p : Nat, p ≠ w.next → w1.heap p = w.heap p)
      ∧ w1.next = w.next + 1
      ∧ w1._logger = some d ∧ w1._exit = ExitFn.record ∧ w1._exitCode = w._exitCode
      ∧ w1.pool = w.pool ∧ w1.trace = w.trace := by
  refine ⟨{ (alloc { w with _exit := ExitFn.record, _logger := w.Default }
      { Level := 0, Output := s, TimeFormat := [], Hook := (w.heap d).Hook,
        context := [] }).1 with Default := some w.next }, ?_, rfl, ?_, ?_, rfl, hd, rfl, rfl,
    rfl, rfl⟩
  · simp [SetTestMode, hd, alloc]
  · simp [alloc, Trace]
  · intro p hp
    simp [alloc, Function.update_noteq hp]

theorem emitEvents_ne_nil (e : Emitter) (l : Level) (buf : Bytes) : emitEvents e l buf ≠ [] := by
  unfold emitEvents
  cases e.Hook <;> simp

theorem emits_iff (w : World) (e : Nat) (env : Env) (tag : Bytes) (l : Level)
    (message : Bytes) (fields : List Val) (hlen : fields.length % 2 = 0) :
    Emits w e env tag l message fields ↔ (w.heap e).Level ≤ l := by
  constructor
  · rintro ⟨buf, _, h⟩
    by_contra hl
    rw [emit_below w e env tag l message fields (Nat.lt_of_not_le hl)] at h
    simp only [Option.map_some', Option.some.injEq] at h
    have := emitEvents_ne_nil (w.heap e) l buf
    simp_all
  · intro hl
    exact ⟨_, by simp [document], emit_trace w e env tag l message fields hl hlen⟩

theorem newlineFree_iff (s : Bytes) : newlineFree s = true ↔ 10 ∉ s := by
  simp only [newlineFree, List.all_eq_true, bne_iff_ne, ne_eq]
  constructor
  · intro h hm; exact h 10 hm rfl
  · intro h b hb hb10; exact h (hb10 ▸ hb)

theorem newlineFree_append (a b : Bytes) :
    newlineFree (a ++ b) = (newlineFree a && newlineFree b) := by
  simp [newlineFree, List.all_append]

theorem newlineFree_escapeByte (b : Nat) : newlineFree (escapeByte b) = true := by
  unfold escapeByte
  split_ifs with h1 h2 h3 h4 h5 h6
  · rcases h1 with rfl | rfl <;> decide
  · decide
  · decide
  · decide
  · decide
  · decide
  · simp [newlineFree, h4]

theorem newlineFree_flatMap {α : Type} (l : List α) (f : α → Bytes)
    (h : ∀ x ∈ l, newlineFree (f x) = true) : newlineFree (l.flatMap f) = true := by
  induction l with
  | nil => rfl
  | cons x l ih =>
    rw [List.flatMap_cons, newlineFree_append, h x (List.mem_cons_self _ _),
      ih fun y hy => h y (List.mem_cons_of_mem _ hy)]
    rfl

theorem newlineFree_writeJSONString (s : Bytes) : newlineFree (writeJSONString [] s) = true := by
  rw [writeJSONString_eq]
  simp only [List.nil_append, newlineFree_append,
    newlineFree_flatMap s escapeByte fun b _ => newlineFree_escapeByte b]
  decide

theorem newlineFree_digits (ds : Bytes) (h : ∀ x ∈ ds, isDigit x = true) :
    newlineFree ds = true := by
  simp only [newlineFree, List.all_eq_true, bne_iff_ne, ne_eq]
  intro b hb hb10
  have := h b hb
  rw [hb10] at this
  exact absurd this (by decide)

theorem newlineFree_intText (i : Int) : newlineFree (intText i) = true := by
  obtain ⟨d, ds, h1, h2, _, _⟩ := decimal_spec i.natAbs
  have hd : newlineFree (decimal i.natAbs) = true := by
    rw [h1]; exact newlineFree_digits _ h2
  unfold intText
  split_ifs
  · have : (45 :: decimal i.natAbs) = [45] ++ decimal i.natAbs := rfl
    rw [this, newlineFree_append, hd]
    decide
  · exact hd

theorem newlineFree_render (v : Val)
    (h : (match v with
      | Val.float t => newlineFree t
      | _ => true) = true) : newlineFree (render v) = true := by
  cases v with
  | str s => exact newlineFree_writeJSONString s
  | byteSlice s => exact newlineFree_writeJSONString s
  | num n => simpa [render, writeValue] using newlineFree_intText n
  | float t => simpa [render, writeValue] using h
  | bool b => cases b <;> decide
  | other st er t =>
    cases st with
    | some x => exact newlineFree_writeJSONString x
    | none =>
      cases er with
      | some y => exact newlineFree_writeJSONString y
      | none => exact newlineFree_writeJSONString t

theorem newlineFree_encodePair (kv : Val × Val) (h : linePair kv = true) :
    newlineFree (encodePair kv) = true := by
  simp only [linePair, Bool.and_eq_true] at h
  have hr := newlineFree_render kv.2 h.2
  have c1 : newlineFree (bytesOf ",\"") = true := by decide
  have c2 : newlineFree (bytesOf "\":") = true := by decide
  simp [encodePair, newlineFree_append, h.1, hr, c1, c2]

theorem newlineFree_encode (F : List Val) (h : ∀ kv ∈ pairs F, linePair kv = true) :
    newlineFree (encode F) = true :=
  newlineFree_flatMap _ _ fun kv hkv => newlineFree_encodePair kv (h kv hkv)

theorem newlineFree_levelString (l : Level) : newlineFree (Level.String l) = true := by
  unfold Level.String
  split_ifs <;> decide

theorem document_body (e : Emitter) (now tag : Bytes) (level : Level) (message : Bytes)
    (fields : List Val) :
    document e now tag level message fields = docBody e now tag level message fields ++ [10] :=
  rfl

theorem newlineFree_docBody (e : Emitter) (now tag : Bytes) (level : Level)
    (message : Bytes) (fields : List Val) (htag : newlineFree tag = true)
    (hnow : e.TimeFormat ≠ [] → newlineFree now = true)
    (hctx : newlineFree e.context = true)
    (hf : ∀ kv ∈ pairs fields, linePair kv = true) :
    newlineFree (docBody e now tag level message fields) = true := by
  have c1 : newlineFree (bytesOf "\"time\":\"") = true := by decide
  have c2 : newlineFree (bytesOf "\",") = true := by decide
  have c3 : newlineFree (bytesOf "\"tag\":\"") = true := by decide
  have c4 : newlineFree (bytesOf "\"level\":\"") = true := by decide
  have c5 : newlineFree (bytesOf "\"") = true := by decide
  have c6 : newlineFree (bytesOf ",\"msg\":") = true := by decide
  have c7 : newlineFree [123] = true := by decide
  have c8 : newlineFree [125] = true := by decide
  have hm := newlineFree_writeJSONString message
  have hl := newlineFree_levelString level
  have hfl := newlineFree_encode fields hf
  unfold encode at hfl
  by_cases htf : e.TimeFormat = []
  · have ht : newlineFree ([] : Bytes) = true := rfl
    simp only [docBody, docHead, htf, ne_eq, not_true_eq_false, if_false, newlineFree_append,
      ht, c2, c3, c4, c5, c6, c7, c8, hm, hl, hfl, htag, hctx, Bool.and_self]
  · simp only [docBody, docHead, htf, ne_eq, not_false_eq_true, if_true, newlineFree_append,
      c1, c2, c3, c4, c5, c6, c7, c8, hm, hl, hfl, htag, hctx, hnow htf, Bool.and_self]

theorem count_newlineFree (s : Bytes) (h : newlineFree s = true) : s.count 10 = 0 := by
  rw [List.count_eq_zero]
  exact (newlineFree_iff s).mp h

theorem written_append (a b : List Event) : written (a ++ b) = written a ++ written b := by
  simp [written, List.flatMap_append]

theorem written_emitEvents (e : Emitter) (l : Level) (buf : Bytes) :
    written (emitEvents e l buf) = buf := by
  unfold emitEvents
  cases e.Hook <;> simp [written]

theorem emitAll_lines (calls : List Call) :
    ∀ w : World, PoolClean w → (∀ c ∈ calls, LineCall w.heap c) →
      ∃ wN, emitAll w calls = some wN ∧ wN.heap = w.heap ∧ PoolClean wN
        ∧ written wN.trace
            = written w.trace ++ calls.flatMap (fun c =>
                docBody (w.heap c.e) c.env.now c.tag c.level c.message c.fields ++ [10])
        ∧ (written wN.trace).count 10 = (written w.trace).count 10 + calls.length := by
  induction calls with
  | nil =>
    intro w hp _
    exact ⟨w, rfl, rfl, hp, by simp, by simp⟩
  | cons c cs ih =>
    intro w hp hc
    obtain ⟨hlen, hlevel, htag, hnow, hctx, hf, hacc⟩ := hc c (List.mem_cons_self _ _)
    have hE := emit_pass w c.e c.env c.tag c.level c.message c.fields hlevel hlen
    obtain ⟨w1, hE1, hp1⟩ := poolClean_emit w c.e c.env c.tag c.level c.message c.fields hp hlen hacc
    have hheap : w1.heap = w.heap := by
      rw [hE] at hE1
      cases hE1
      rfl
    have htr : w1.trace = w.trace ++ emitEvents (w.heap c.e) c.level
        (document (w.heap c.e) c.env.now c.tag c.level c.message c.fields) := by
      have := emit_clean w c.e c.env c.tag c.level c.message c.fields hlen hlevel hp
      rw [hE1] at this
      simpa using this
    obtain ⟨wN, h1, h2, h3, h4, h5⟩ := ih w1 hp1 (by
      intro c2 hc2
      rw [hheap]
      exact hc c2 (List.mem_cons_of_mem _ hc2))
    have hb := newlineFree_docBody (w.heap c.e) c.env.now c.tag c.level c.message c.fields
      htag hnow hctx hf
    refine ⟨wN, by simp [emitAll, hE1, h1], h2.trans hheap, h3, ?_, ?_⟩
    · rw [h4, htr, written_append, written_emitEvents, hheap, document_body]
      simp [List.flatMap_cons, List.append_assoc]
    · rw [h5, htr, written_append, written_emitEvents, document_body]
      simp only [List.count_append, count_newlineFree _ hb, List.length_cons]
      simp
      omega

/-- An emission changes the pool and the trace only. -/
theorem emit_frame (w w1 : World) (e : Nat) (env : Env) (tag : Bytes) (level : Level)
    (message : Bytes) (fields : List Val)
    (h : Emitter.Emit w e env tag level message fields = some w1) :
    w1.heap = w.heap ∧ w1.next = w.next ∧ w1.Default = w.Default ∧ w1._logger = w._logger
      ∧ w1._exit = w._exit ∧ w1._exitCode = w._exitCode := by
  unfold Emitter.Emit at h
  simp only at h
  split_ifs at h with hl
  · cases h
    exact ⟨rfl, rfl, rfl, rfl, rfl, rfl⟩
  · split at h
    · exact absurd h (by simp)
    · cases h
      exact ⟨rfl, rfl, rfl, rfl, rfl, rfl⟩

/-- Making a context changes the heap at the new address only. -/
theorem C_frame (w w1 : World) (tag : Bytes) (F : List Val) (c : Context)
    (h : C w tag F = some (w1, c)) :
    (∀ p : Nat, Allocated w p → w1.heap p = w.heap p) ∧ w1.Default = w.Default
      ∧ w1._logger = w._logger ∧ w1._exit = w._exit := by
  unfold C at h
  split at h
  · exact absurd h (by simp)
  · split at h
    · exact absurd h (by simp)
    · simp only [Option.some.injEq, Prod.mk.injEq] at h
      obtain ⟨h1, _⟩ := h
      subst h1
      exact ⟨fun p hp => alloc_heap_old _ _ p hp, rfl, rfl, rfl⟩

theorem setTestMode_off (w : World) (sinks : List Nat) :
    SetTestMode w false sinks = some { w with _exit := ExitFn.osExit, Default := w._logger } := by
  simp [SetTestMode]

theorem defaultEmit_eq (w : World) (d : Nat) (env : Env) (tag : Bytes) (level : Level)
    (message : Bytes) (v : List Val) (hd : w.Default = some d) :
    defaultEmit w env tag level message v = Emitter.Emit w d env tag level message v := by
  simp [defaultEmit, hd]

theorem pairs_append_even (n : Nat) :
    ∀ (a b : List Val), a.length = 2 * n → pairs (a ++ b) = pairs a ++ pairs b := by
  induction n with
  | zero =>
    intro a b h
    have : a = [] := List.length_eq_zero.mp (by simpa using h)
    subst this
    simp [pairs]
  | succ n ih =>
    intro a b h
    match a, h with
    | k :: v :: rest, h =>
      have hr : rest.length = 2 * n := by simp at h; omega
      simp [pairs, ih rest b hr]

theorem encode_append (a b : List Val) (ha : a.length % 2 = 0) :
    encode (a ++ b) = encode a ++ encode b := by
  simp [encode, pairs_append_even (a.length / 2) a b (by omega), List.flatMap_append]

theorem length_append_even (a b : List Val) (ha : a.length % 2 = 0) (hb : b.length % 2 = 0) :
    (a ++ b).length % 2 = 0 := by
  rw [List.length_append]; omega

theorem document_context (e e2 : Emitter) (now tag : Bytes) (level : Level) (message : Bytes)
    (a f : List Val) (ha : a.length % 2 = 0)
    (htf : e2.TimeFormat = e.TimeFormat) (hc : e.context = []) (hc2 : e2.context = encode a) :
    document e2 now tag level message f = document e now tag level message (a ++ f) := by
  have := encode_append a f ha
  unfold encode at this
  simp [document, docHead, htf, hc, hc2, this, encode, List.append_assoc]

/-! ## Lemmas on strings, the value switch and the setters -/

theorem stringBody_eq (s : Bytes) : stringBody s = s.flatMap escapeByte := by
  simp [stringBody, writeJSONString_eq]

theorem escapeByte_shape (b : Nat) :
    (escapeByte b = [92, 34] ∧ b = 34)
      ∨ (escapeByte b = [92, 92] ∧ b = 92)
      ∨ (∃ c, c ≠ 34 ∧ c ≠ 92 ∧ escapeByte b = [92, c] ∧ b ≠ 34)
      ∨ (escapeByte b = [b] ∧ b ≠ 34 ∧ b ≠ 92) := by
  unfold escapeByte
  by_cases h34 : b = 34
  · left; subst h34; simp
  by_cases h92 : b = 92
  · right; left; subst h92; simp
  by_cases h8 : b = 8
  · right; right; left; subst h8; exact ⟨98, by decide, by decide, by simp, by decide⟩
  by_cases h12 : b = 12
  · right; right; left; subst h12; exact ⟨102, by decide, by decide, by simp, by decide⟩
  by_cases h10 : b = 10
  · right; right; left; subst h10; exact ⟨110, by decide, by decide, by simp, by decide⟩
  by_cases h13 : b = 13
  · right; right; left; subst h13; exact ⟨114, by decide, by decide, by simp, by decide⟩
  by_cases h9 : b = 9
  · right; right; left; subst h9; exact ⟨116, by decide, by decide, by simp, by decide⟩
  right; right; right
  simp [h34, h92, h8, h12, h10, h13, h9]

theorem escapeByte_no_control (b x : Nat) (hx : x ∈ escapeByte b) :
    x ≠ 10 ∧ x ≠ 13 ∧ x ≠ 9 ∧ x ≠ 8 ∧ x ≠ 12 := by
  unfold escapeByte at hx
  split_ifs at hx with h1 h2 h3 h4 h5 h6
  · simp at hx
    rcases hx with hx | hx
    · subst hx; decide
    · subst hx; rcases h1 with h | h <;> subst h <;> decide
  · simp at hx; rcases hx with hx | hx <;> subst hx <;> decide
  · simp at hx; rcases hx with hx | hx <;> subst hx <;> decide
  · simp at hx; rcases hx with hx | hx <;> subst hx <;> decide
  · simp at hx; rcases hx with hx | hx <;> subst hx <;> decide
  · simp at hx; rcases hx with hx | hx <;> subst hx <;> decide
  · simp at hx; subst hx; exact ⟨h4, h5, h6, h2, h3⟩

theorem quote_in_escaped (s : Bytes) :
    ∀ pre post : Bytes, s.flatMap escapeByte = pre ++ 34 :: post →
      ∃ s1 s2, s = s1 ++ 34 :: s2 ∧ pre = s1.flatMap escapeByte ++ [92]
        ∧ post = s2.flatMap escapeByte := by
  induction s with
  | nil => intro pre post h; simp at h
  | cons b s ih =>
    intro pre post h
    rw [List.flatMap_cons] at h
    rcases escapeByte_shape b with ⟨he, hb⟩ | ⟨he, hb⟩ | ⟨c, hc1, hc2, he, hb⟩ | ⟨he, hb1, hb2⟩
    · rw [he] at h
      match pre, h with
      | [], h => simp at h
      | [x], h =>
        simp at h
        exact ⟨[], s, by simp [hb], by simp [h.1], h.2.symm⟩
      | x :: y :: pre2, h =>
        simp at h
        obtain ⟨hx, hy, h3⟩ := h
        subst hx; subst hy
        obtain ⟨s1, s2, e1, e2, e3⟩ := ih pre2 post h3
        exact ⟨b :: s1, s2, by simp [e1], by simp [List.flatMap_cons, he, e2], e3⟩
    · rw [he] at h
      match pre, h with
      | [], h => simp at h
      | [x], h => simp at h
      | x :: y :: pre2, h =>
        simp at h
        obtain ⟨hx, hy, h3⟩ := h
        subst hx; subst hy
        obtain ⟨s1, s2, e1, e2, e3⟩ := ih pre2 post h3
        exact ⟨b :: s1, s2, by simp [e1], by simp [List.flatMap_cons, he, e2], e3⟩
    · rw [he] at h
      match pre, h with
      | [], h => simp at h
      | [x], h => simp at h; exact absurd h.2.1 hc1
      | x :: y :: pre2, h =>
        simp at h
        obtain ⟨hx, hy, h3⟩ := h
        subst hx; subst hy
        obtain ⟨s1, s2, e1, e2, e3⟩ := ih pre2 post h3
        exact ⟨b :: s1, s2, by simp [e1], by simp [List.flatMap_cons, he, e2], e3⟩
    · rw [he] at h
      match pre, h with
      | [], h => simp at h; exact absurd h.1 hb1
      | x :: pre2, h =>
        simp at h
        obtain ⟨hx, h3⟩ := h
        subst hx
        obtain ⟨s1, s2, e1, e2, e3⟩ := ih pre2 post h3
        exact ⟨b :: s1, s2, by simp [e1], by simp [List.flatMap_cons, he, e2], e3⟩

theorem backslashRun_snoc (l : Bytes) (x : Nat) :
    backslashRun (l ++ [x]) = if x = 92 then backslashRun l + 1 else 0 := by
  simp only [backslashRun, List.reverse_append, List.reverse_singleton, List.singleton_append,
    List.takeWhile_cons]
  by_cases hx : x = 92 <;> simp [hx]

theorem backslashRun_escaped (s : Bytes) : backslashRun (s.flatMap escapeByte) % 2 = 0 := by
  induction s using List.reverseRecOn with
  | nil => decide
  | append_singleton s b ih =>
    rw [List.flatMap_append]
    simp only [List.flatMap_cons, List.flatMap_nil, List.append_nil]
    rcases escapeByte_shape b with ⟨he, hb⟩ | ⟨he, hb⟩ | ⟨c, hc1, hc2, he, hb⟩ | ⟨he, hb1, hb2⟩
    · rw [he, show ([92, 34] : Bytes) = [92] ++ [34] from rfl, ← List.append_assoc,
        backslashRun_snoc]
      simp
    · rw [he, show ([92, 92] : Bytes) = [92] ++ [92] from rfl, ← List.append_assoc,
        backslashRun_snoc, backslashRun_snoc]
      simp
      omega
    · rw [he, show ([92, c] : Bytes) = [92] ++ [c] from rfl, ← List.append_assoc,
        backslashRun_snoc]
      simp [hc2]
    · rw [he, backslashRun_snoc]
      simp [hb2]

theorem scanString_escapeByte (b : Nat) (x : Bytes) :
    scanString false (escapeByte b ++ x)
      = (scanString false x).map fun p => (escapeByte b ++ p.1, p.2) := by
  rcases escapeByte_shape b with ⟨he, hb⟩ | ⟨he, hb⟩ | ⟨c, hc1, hc2, he, hb⟩ | ⟨he, hb1, hb2⟩
  · rw [he]; cases hs : scanString false x <;> simp [scanString, hs]
  · rw [he]; cases hs : scanString false x <;> simp [scanString, hs]
  · rw [he]; cases hs : scanString false x <;> simp [scanString, hs]
  · rw [he]; cases hs : scanString false x <;> simp [scanString, hs, hb1, hb2]

theorem scanString_escaped (s rest : Bytes) :
    scanString false (s.flatMap escapeByte ++ 34 :: rest) = some (s.flatMap escapeByte, rest) := by
  induction s with
  | nil => simp [scanString]
  | cons b s ih =>
    rw [List.flatMap_cons, List.append_assoc, scanString_escapeByte, ih]
    simp

theorem writeJSONString_body (out s : Bytes) :
    writeJSONString out s = out ++ [34] ++ stringBody s ++ [34] := by
  rw [writeJSONString_eq, stringBody_eq]
  simp

theorem writeValue_firstMatch (buf : Bytes) (v : Val) : writeValue buf v = firstMatch buf v := by
  cases v with
  | str s => rfl
  | byteSlice s => rfl
  | num n => rfl
  | float t => rfl
  | bool b => rfl
  | other s e f =>
    cases s with
    | some t => rfl
    | none => cases e <;> rfl

theorem writeValue_stringer (buf : Bytes) (v : Val) (t : Bytes) (h : v.stringer = some t) :
    writeValue buf v = writeJSONString buf t := by
  cases v with
  | other s e f =>
    simp only [Val.stringer] at h
    subst h
    rfl
  | str s => simp [Val.stringer] at h
  | byteSlice s => simp [Val.stringer] at h
  | num n => simp [Val.stringer] at h
  | float t => simp [Val.stringer] at h
  | bool b => simp [Val.stringer] at h

theorem intText_head (i : Int) (X : Bytes) : intText i ≠ 34 :: X := by
  obtain ⟨d, ds, h1, h2, _, _⟩ := decimal_spec i.natAbs
  have hd : 48 ≤ d ∧ d ≤ 57 := by
    simpa [isDigit] using h2 d (List.mem_cons_self _ _)
  unfold intText
  split_ifs
  · intro h; simp at h
  · rw [h1]; intro h
    simp at h
    omega

theorem quoted_ne_number (buf t : Bytes) (n : Int) :
    writeJSONString buf t ≠ writeValue buf (Val.num n) := by
  rw [writeJSONString_eq]
  simp only [writeValue]
  intro h
  have h2 := List.append_cancel_left h
  exact intText_head n _ h2.symm

theorem setHook_default (w : World) (h : Option Nat) :
    (SetHook w h).Default = some w.next
      ∧ (SetHook w h).heap w.next
        = { Level := Info, Output := Stderr, TimeFormat := [], Hook := h, context := [] }
      ∧ (∀ q : Nat, q ≠ w.next → (SetHook w h).heap q = w.heap q)
      ∧ (SetHook w h).next = w.next + 1 := by
  refine ⟨rfl, by simp [SetHook, alloc], ?_, rfl⟩
  intro q hq
  simp [SetHook, alloc, Function.update_noteq hq]

theorem setWithTime_default (w : World) :
    (SetWithTime w).Default = some w.next
      ∧ (SetWithTime w).heap w.next
        = { Level := Info, Output := Stderr, TimeFormat := RFC3339, Hook := none, context := [] }
      ∧ (∀ q : Nat, q ≠ w.next → (SetWithTime w).heap q = w.heap q)
      ∧ (SetWithTime w).next = w.next + 1 := by
  refine ⟨rfl, by simp [SetWithTime, alloc], ?_, rfl⟩
  intro q hq
  simp [SetWithTime, alloc, Function.update_noteq hq]

theorem defaultEmitter_setHook (w : World) (h : Option Nat) :
    defaultEmitter (SetHook w h)
      = some { Level := Info, Output := Stderr, TimeFormat := [], Hook := h, context := [] } := by
  simp [defaultEmitter, SetHook, alloc]

theorem defaultEmitter_setWithTime (w : World) :
    defaultEmitter (SetWithTime w)
      = some { Level := Info, Output := Stderr, TimeFormat := RFC3339, Hook := none,
               context := [] } := by
  simp [defaultEmitter, SetWithTime, alloc]

theorem validUTF8Aux_ascii (s : Bytes) (h : ∀ b ∈ s, b < 128) :
    ∀ fuel : Nat, s.length ≤ fuel → validUTF8Aux fuel s = true := by
  induction s with
  | nil => intro fuel _; cases fuel <;> rfl
  | cons b r ih =>
    intro fuel hf
    cases fuel with
    | zero => simp at hf
    | succ fuel =>
      have hb : b < 128 := h b (List.mem_cons_self _ _)
      simp only [validUTF8Aux, hb, if_true]
      exact ih (fun x hx => h x (List.mem_cons_of_mem _ hx)) fuel (by simpa using hf)

theorem cleanText_ascii (s : Bytes) (h : ∀ b ∈ s, 32 ≤ b ∧ b < 128) : cleanText s = true := by
  have h1 : validUTF8 s = true :=
    validUTF8Aux_ascii s (fun b hb => (h b hb).2) s.length (le_refl _)
  have h2 : noRawControl s = true := by
    simp only [noRawControl, List.all_eq_true]
    intro b hb
    simp [(h b hb).1]
  simp [cleanText, h1, h2]

theorem cleanText_decimal (n : Nat) : cleanText (decimal n) = true := by
  obtain ⟨d, ds, h1, h2, _, _⟩ := decimal_spec n
  apply cleanText_ascii
  intro b hb
  rw [h1] at hb
  have := h2 b hb
  simp [isDigit] at this
  omega

theorem cleanText_intText (i : Int) : cleanText (intText i) = true := by
  obtain ⟨d, ds, h1, h2, _, _⟩ := decimal_spec i.natAbs
  apply cleanText_ascii
  intro b hb
  unfold intText at hb
  have hdig : ∀ x ∈ decimal i.natAbs, 32 ≤ x ∧ x < 128 := by
    intro x hx
    rw [h1] at hx
    have := h2 x hx
    simp [isDigit] at this
    omega
  split_ifs at hb
  · rcases List.mem_cons.mp hb with hb | hb
    · subst hb; decide
    · exact hdig b hb
  · exact hdig b hb

theorem render_ne_decimal (t : Bytes) (n : Int) : writeJSONString [] t ≠ intText n := by
  have := quoted_ne_number [] t n
  simpa [writeValue] using this

/-! ## The claims -/

/-- C1: for an even-length field list and a level at or above the minimum, an emission
that draws an empty buffer from the pool (as in every state where the pooled buffers are
empty) hands the sink exactly the document in the fixed order brace, time (when a time
format is set), tag, level name, escaped message, context prefix, call-site fields,
closing brace, newline; `writeFields` on its own yields the call-site part; and the
scenario tag TAG, level Warn, message m1, minimum Info, no time format, no context, no
fields writes the expected line. -/
theorem C1_emit_document (w : World) (e : Nat) (env : Env) (tag : Bytes) (level : Level)
    (message : Bytes) (fields : List Val)
    (hlen : fields.length % 2 = 0) (hlevel : (w.heap e).Level ≤ level)
    (hpool : PoolClean w) :
    (Emitter.Emit w e env tag level message fields).map World.trace
        = some (w.trace ++ emitEvents (w.heap e) level
            ([123]
              ++ (if (w.heap e).TimeFormat ≠ []
                  then bytesOf "\"time\":\"" ++ env.now ++ bytesOf "\"," else [])
              ++ bytesOf "\"tag\":\"" ++ tag ++ bytesOf "\","
              ++ bytesOf "\"level\":\"" ++ Level.String level ++ bytesOf "\""
              ++ bytesOf ",\"msg\":" ++ writeJSONString [] message
              ++ (w.heap e).context
              ++ (pairs fields).flatMap encodePair
              ++ [125] ++ [10]))
      ∧ writeFields [] fields = some ((pairs fields).flatMap encodePair)
      ∧ (Emitter.Emit initWorld 1 env (bytesOf "TAG") Warn (bytesOf "m1") []).map World.trace
          = some [Event.write Stderr
              (bytesOf "\x7b\"tag\":\"TAG\",\"level\":\"warn\",\"msg\":\"m1\"\x7d\n")] := by
  refine ⟨?_, ?_, ?_⟩
  · rw [emit_pass w e env tag level message fields hlevel hlen, poolGet_clean w env.pick hpool]
    simp [document, docHead]
  · simpa using writeFields_of_even fields [] hlen
  · rfl

/-- Witness of C1 at the scenario of the specification: the initial package state, whose
default emitter has minimum Info and whose pool is empty. -/
theorem C1_emit_document_witness :
    ([] : List Val).length % 2 = 0 ∧ (initWorld.heap 1).Level ≤ Warn ∧ PoolClean initWorld
      ∧ (Emitter.Emit initWorld 1 ⟨[], 0, 1000⟩ (bytesOf "TAG") Warn (bytesOf "m1") []).map
          World.trace
        = some [Event.write Stderr
            (bytesOf "\x7b\"tag\":\"TAG\",\"level\":\"warn\",\"msg\":\"m1\"\x7d\n")] :=
  ⟨by decide, by decide, (fun _ hb => nomatch hb),
    (C1_emit_document initWorld 1 ⟨[], 0, 1000⟩ (bytesOf "TAG") Warn (bytesOf "m1") []
      (by decide) (by decide) (fun _ hb => nomatch hb)).2.2⟩

/-- C2: a call below the minimum level leaves the whole state as it was (no write, no
hook call, pool untouched); a call at or above it, with an even-length field list, adds
to the effects the hook call (when a hook is set) and one write of a non-empty byte
sequence; so for named levels L1 < L2 an emitter with minimum L2 is silent at L1 and
writes at L2. -/
theorem C2_emit_gate (w : World) (e : Nat) (env : Env) (tag : Bytes) (level : Level)
    (message : Bytes) (fields : List Val) (hlen : fields.length % 2 = 0) :
    (level < (w.heap e).Level → Emitter.Emit w e env tag level message fields = some w)
      ∧ ((w.heap e).Level ≤ level →
          ∃ buf, buf ≠ [] ∧
            (Emitter.Emit w e env tag level message fields).map World.trace
              = some (w.trace ++ emitEvents (w.heap e) level buf))
      ∧ (∀ L1 L2 : Level, L1 ∈ [Trace, Info, Warn, Error, Fatal] →
          L2 ∈ [Trace, Info, Warn, Error, Fatal] → L1 < L2 → (w.heap e).Level = L2 →
          Emitter.Emit w e env tag L1 message fields = some w
            ∧ ∃ buf, buf ≠ [] ∧
                (Emitter.Emit w e env tag L2 message fields).map World.trace
                  = some (w.trace ++ emitEvents (w.heap e) L2 buf)) := by
  have pass : ∀ l : Level, (w.heap e).Level ≤ l →
      ∃ buf, buf ≠ [] ∧
        (Emitter.Emit w e env tag l message fields).map World.trace
          = some (w.trace ++ emitEvents (w.heap e) l buf) := by
    intro l hl
    refine ⟨(poolGet w.pool env.pick).1 ++ document (w.heap e) env.now tag l message fields,
      ?_, ?_⟩
    · simp [document]
    · rw [emit_pass w e env tag l message fields hl hlen]
      rfl
  refine ⟨fun h => emit_below w e env tag level message fields h, pass level, ?_⟩
  intro L1 L2 _ _ hlt hmin
  exact ⟨emit_below w e env tag L1 message fields (hmin ▸ hlt), pass L2 (le_of_eq hmin)⟩

/-- Witness of C2 at the scenario of the tests: minimum Fatal, calls at Warn and Error
produce nothing, a call at Fatal writes. -/
theorem C2_emit_gate_witness :
    ([] : List Val).length % 2 = 0
      ∧ Emitter.Emit (assignAt initWorld 1 fun e => { e with Level := Fatal }) 1 ⟨[], 0, 1000⟩
          (bytesOf "TAG") Warn (bytesOf "m1") []
        = some (assignAt initWorld 1 fun e => { e with Level := Fatal })
      ∧ Emitter.Emit (assignAt initWorld 1 fun e => { e with Level := Fatal }) 1 ⟨[], 0, 1000⟩
          (bytesOf "TAG") Error (bytesOf "m1") []
        = some (assignAt initWorld 1 fun e => { e with Level := Fatal }) :=
  ⟨by decide,
    ((C2_emit_gate (assignAt initWorld 1 fun e => { e with Level := Fatal }) 1 ⟨[], 0, 1000⟩
      (bytesOf "TAG") Warn (bytesOf "m1") [] (by decide)).1 (by decide)),
    ((C2_emit_gate (assignAt initWorld 1 fun e => { e with Level := Fatal }) 1 ⟨[], 0, 1000⟩
      (bytesOf "TAG") Error (bytesOf "m1") [] (by decide)).1 (by decide))⟩

/-- C3 (as amended): for a tag, a time text and keys that stand for themselves between
quotes (well-formed UTF-8 without control byte, quote or backslash), a message and quoted values that are well-formed
UTF-8 without a raw control byte, and float texts that are JSON numbers, the document an
emission hands to the sink, its context prefix being the encoding of the field lists a
chain of derivations bound, reads as a JSON object whose members are, in order, time
(when a time format is set), tag, level, msg, the context fields and the call-site
fields: values of the thirteen types named in the numeric case of the value switch as
numbers with the printed text (the ten integer types and the two float types) or as JSON
booleans (`bool`), every other value as the string of its original text.  Among the
other values are those of the numeric types the case does not name, `uintptr`, the
complex types and the defined integer types: they are within the hypotheses and come
back as strings. -/
theorem C3_document_parses (w : World) (e : Nat) (env : Env) (tag : Bytes) (level : Level)
    (message : Bytes) (chain : List (List Val)) (fields : List Val)
    (hlevel : (w.heap e).Level ≤ level) (hpool : PoolClean w)
    (htag : plainText tag = true)
    (hnow : (w.heap e).TimeFormat ≠ [] → plainText env.now = true)
    (hmsg : cleanText message = true)
    (hctx : (w.heap e).context = chain.flatMap encode)
    (hchain : ∀ F ∈ chain, ∀ kv ∈ pairs F, readablePair kv = true)
    (hlen : fields.length % 2 = 0)
    (hfields : ∀ kv ∈ pairs fields, readablePair kv = true) :
    ∃ doc : Bytes,
      (Emitter.Emit w e env tag level message fields).map World.trace
          = some (w.trace ++ emitEvents (w.heap e) level doc)
        ∧ parseObject doc
          = some (headMembers (w.heap e) env.now tag level message
              ++ (chain.flatMap pairs ++ pairs fields).map fun kv =>
                  (keyText kv.1, jsonOf kv.2))
        ∧ (∀ n : Int, jsonOf (Val.num n) = JVal.num (intText n))
        ∧ (∀ t : Bytes, jsonOf (Val.float t) = JVal.num t)
        ∧ (∀ b : Bool, jsonOf (Val.bool b) = JVal.bool b)
        ∧ (∀ v : Val, v.isPrimitive = false →
            ∃ t : Bytes, jsonOf v = JVal.str t ∧ render v = writeJSONString [] t)
        ∧ (∀ n : Nat, readableVal (uintptrVal n) = true
            ∧ jsonOf (uintptrVal n) = JVal.str (decimal n))
        ∧ (∀ n : Int, readableVal (definedInt n none none) = true
            ∧ jsonOf (definedInt n none none) = JVal.str (intText n))
        ∧ (∀ t : Bytes, readableVal (complexVal t) = cleanText t
            ∧ jsonOf (complexVal t) = JVal.str t) := by
  refine ⟨document (w.heap e) env.now tag level message fields,
    emit_clean w e env tag level message fields hlen hlevel hpool,
    parseObject_document (w.heap e) env.now tag level message chain fields htag hnow hmsg hctx
      hchain hfields,
    fun _ => rfl, fun _ => rfl, fun _ => rfl, ?_,
    fun n => ⟨cleanText_decimal n, rfl⟩, fun n => ⟨cleanText_intText n, rfl⟩,
    fun _ => ⟨rfl, rfl⟩⟩
  intro v hv
  cases v with
  | str s => exact ⟨s, rfl, rfl⟩
  | byteSlice s => exact ⟨s, rfl, rfl⟩
  | num n => simp [Val.isPrimitive] at hv
  | float t => simp [Val.isPrimitive] at hv
  | bool b => simp [Val.isPrimitive] at hv
  | other st er t =>
    cases st with
    | some x => exact ⟨x, rfl, rfl⟩
    | none =>
      cases er with
      | some y => exact ⟨y, rfl, rfl⟩
      | none => exact ⟨t, rfl, rfl⟩

/-- Witness of C3 on fields of the tests Quotes, Ints and Floats with the message of the
test Line Breaks and Tabs. -/
theorem C3_document_parses_witness :
    (initWorld.heap 1).Level ≤ Info ∧ PoolClean initWorld
      ∧ plainText (bytesOf "test") = true
      ∧ ((initWorld.heap 1).TimeFormat ≠ [] → plainText ([] : Bytes) = true)
      ∧ cleanText (bytesOf "a\nb\t\tc") = true
      ∧ (initWorld.heap 1).context = ([] : List (List Val)).flatMap encode
      ∧ (∀ F ∈ ([] : List (List Val)), ∀ kv ∈ pairs F, readablePair kv = true)
      ∧ [Val.str (bytesOf "a"), Val.str (bytesOf "\"123\""), Val.str (bytesOf "n"),
          Val.num 1777, Val.str (bytesOf "f"), Val.float (bytesOf "0.2")].length % 2 = 0
      ∧ (∀ kv ∈ pairs [Val.str (bytesOf "a"), Val.str (bytesOf "\"123\""),
            Val.str (bytesOf "n"), Val.num 1777, Val.str (bytesOf "f"),
            Val.float (bytesOf "0.2")], readablePair kv = true)
      ∧ ∃ doc : Bytes,
          (Emitter.Emit initWorld 1 ⟨[], 0, 1000⟩ (bytesOf "test") Info (bytesOf "a\nb\t\tc")
              [Val.str (bytesOf "a"), Val.str (bytesOf "\"123\""), Val.str (bytesOf "n"),
                Val.num 1777, Val.str (bytesOf "f"), Val.float (bytesOf "0.2")]).map World.trace
            = some [Event.write Stderr doc]
          ∧ parseObject doc
            = some [(bytesOf "tag", JVal.str (bytesOf "test")),
                (bytesOf "level", JVal.str (bytesOf "info")),
                (bytesOf "msg", JVal.str (bytesOf "a\nb\t\tc")),
                (bytesOf "a", JVal.str (bytesOf "\"123\"")),
                (bytesOf "n", JVal.num (bytesOf "1777")),
                (bytesOf "f", JVal.num (bytesOf "0.2"))] := by
  have hf : ∀ kv ∈ pairs [Val.str (bytesOf "a"), Val.str (bytesOf "\"123\""),
      Val.str (bytesOf "n"), Val.num 1777, Val.str (bytesOf "f"),
      Val.float (bytesOf "0.2")], readablePair kv = true := by decide
  obtain ⟨doc, h1, h2, _⟩ :=
    C3_document_parses initWorld 1 ⟨[], 0, 1000⟩ (bytesOf "test") Info (bytesOf "a\nb\t\tc") []
      [Val.str (bytesOf "a"), Val.str (bytesOf "\"123\""), Val.str (bytesOf "n"),
        Val.num 1777, Val.str (bytesOf "f"), Val.float (bytesOf "0.2")]
      (by decide) (fun _ hb => nomatch hb) (by decide) (by decide) (by decide) rfl
      (fun _ hF => nomatch hF) (by decide) hf
  exact ⟨by decide, (fun _ hb => nomatch hb), by decide, by decide, by decide, rfl,
    (fun _ hF => nomatch hF), by decide, hf, doc, h1, h2.trans rfl⟩

/-- C3 (as stated) fails: with the tag consisting of a quote the emitted line is not JSON;
a boolean field comes back as a JSON boolean, not as a string; a message with the byte
0x01 and a float printed as NaN give lines that are not JSON; a `uintptr` field, a number,
comes back as a JSON string. -/
theorem C3_counterexample :
    (Emitter.Emit initWorld 1 ⟨[], 0, 1000⟩ (bytesOf "\"") Info (bytesOf "m") []).map World.trace
        = some [Event.write Stderr
            (bytesOf "\x7b\"tag\":\"\"\",\"level\":\"info\",\"msg\":\"m\"\x7d\n")]
      ∧ parseJSON (bytesOf "\x7b\"tag\":\"\"\",\"level\":\"info\",\"msg\":\"m\"\x7d\n") = none
      ∧ (Emitter.Emit initWorld 1 ⟨[], 0, 1000⟩ (bytesOf "t") Info (bytesOf "m")
            [Val.str (bytesOf "ok"), Val.bool true]).map World.trace
        = some [Event.write Stderr
            (bytesOf "\x7b\"tag\":\"t\",\"level\":\"info\",\"msg\":\"m\",\"ok\":true\x7d\n")]
      ∧ parseObject (bytesOf "\x7b\"tag\":\"t\",\"level\":\"info\",\"msg\":\"m\",\"ok\":true\x7d\n")
        = some [(bytesOf "tag", JVal.str (bytesOf "t")), (bytesOf "level", JVal.str (bytesOf "info")),
            (bytesOf "msg", JVal.str (bytesOf "m")), (bytesOf "ok", JVal.bool true)]
      ∧ (Emitter.Emit initWorld 1 ⟨[], 0, 1000⟩ (bytesOf "t") Info [1] []).map World.trace
        = some [Event.write Stderr
            (bytesOf "\x7b\"tag\":\"t\",\"level\":\"info\",\"msg\":\"\x01\"\x7d\n")]
      ∧ parseJSON (bytesOf "\x7b\"tag\":\"t\",\"level\":\"info\",\"msg\":\"\x01\"\x7d\n") = none
      ∧ (Emitter.Emit initWorld 1 ⟨[], 0, 1000⟩ (bytesOf "t") Info (bytesOf "m")
            [Val.str (bytesOf "n"), Val.float (bytesOf "NaN")]).map World.trace
        = some [Event.write Stderr
            (bytesOf "\x7b\"tag\":\"t\",\"level\":\"info\",\"msg\":\"m\",\"n\":NaN\x7d\n")]
      ∧ parseJSON (bytesOf "\x7b\"tag\":\"t\",\"level\":\"info\",\"msg\":\"m\",\"n\":NaN\x7d\n")
        = none
      ∧ (Emitter.Emit initWorld 1 ⟨[], 0, 1000⟩ (bytesOf "t") Info (bytesOf "m")
            [Val.str (bytesOf "p"), uintptrVal 7]).map World.trace
        = some [Event.write Stderr
            (bytesOf "\x7b\"tag\":\"t\",\"level\":\"info\",\"msg\":\"m\",\"p\":\"7\"\x7d\n")]
      ∧ parseObject (bytesOf "\x7b\"tag\":\"t\",\"level\":\"info\",\"msg\":\"m\",\"p\":\"7\"\x7d\n")
        = some [(bytesOf "tag", JVal.str (bytesOf "t")), (bytesOf "level", JVal.str (bytesOf "info")),
            (bytesOf "msg", JVal.str (bytesOf "m")), (bytesOf "p", JVal.str (bytesOf "7"))] := by
  refine ⟨rfl, rfl, rfl, rfl, rfl, rfl, rfl, rfl, rfl, rfl⟩

/-- C4 (as amended): for every string that is well-formed UTF-8 and has no byte below
0x20 other than backspace, tab, newline, form feed and carriage return, reading
`writeJSONString(s)` as a JSON string literal gives back exactly the bytes of `s`,
whatever follows the literal and whatever the buffer held before; so does the msg value
and a string-valued field of a document with a plain tag and key. -/
theorem C4_string_round_trip (s : Bytes) (hs : cleanText s = true) :
    decodeString (writeJSONString [] s) = some s
      ∧ (∀ rest : Bytes, readStringLit (writeJSONString [] s ++ rest) = some (s, rest))
      ∧ (∀ buf : Bytes, writeJSONString buf s = buf ++ writeJSONString [] s)
      ∧ (∀ (e : Emitter) (now tag key : Bytes) (level : Level),
          e.TimeFormat = [] → e.context = [] → plainText tag = true → plainText key = true →
          parseObject (document e now tag level s [Val.str key, Val.str s])
            = some [(bytesOf "tag", JVal.str tag),
                (bytesOf "level", JVal.str (Level.String level)),
                (bytesOf "msg", JVal.str s), (key, JVal.str s)]) := by
  refine ⟨?_, fun rest => readStringLit_write s rest hs, fun buf => writeJSONString_append buf s,
    ?_⟩
  · have h := readStringLit_write s [] hs
    rw [List.append_nil] at h
    simp [decodeString, h]
  · intro e now tag key level htf hctx htag hkey
    have h := parseObject_document e now tag level s [] [Val.str key, Val.str s] htag
      (fun hne => absurd htf hne) hs (by simpa using hctx) (fun _ hF => nomatch hF)
      (by
        intro kv hkv
        simp only [pairs, List.mem_singleton] at hkv
        subst hkv
        simp [readablePair, keyText, readableVal, hkey, hs])
    rw [h]
    simp [headMembers, htf, pairs, memberOf, keyText, jsonOf]

/-- Witness of C4 on a string with a tab, quotes, backslashes, a newline and multi-byte
UTF-8, as in the tests. -/
theorem C4_string_round_trip_witness :
    cleanText (bytesOf "\t\"x\":\"y\" \\a\\n\n Olá ☺ 新") = true
      ∧ decodeString (writeJSONString [] (bytesOf "\t\"x\":\"y\" \\a\\n\n Olá ☺ 新"))
        = some (bytesOf "\t\"x\":\"y\" \\a\\n\n Olá ☺ 新") :=
  ⟨by decide, (C4_string_round_trip (bytesOf "\t\"x\":\"y\" \\a\\n\n Olá ☺ 新") (by decide)).1⟩

/-- C4 (as stated) fails: the string of the single byte 0x01 is written raw between the
quotes, which no JSON reader accepts, and the string of the single byte 0xFF, not UTF-8,
is read back as U+FFFD. -/
theorem C4_counterexample :
    decodeString (writeJSONString [] [1]) = none
      ∧ decodeString (writeJSONString [] [255]) = some [239, 191, 189]
      ∧ ¬ ∀ s : Bytes, decodeString (writeJSONString [] s) = some s := by
  refine ⟨rfl, rfl, fun h => ?_⟩
  have h1 := h [1]
  have h2 : decodeString (writeJSONString [] [1]) = none := rfl
  rw [h2] at h1
  exact absurd h1 (by simp)

/-- C5: `writeJSONString` appends a quote, the per-byte escapes of the bytes of `s` in
order, and a quote, where the quote and the backslash get a backslash in front,
backspace, form feed, newline, carriage return and tab become backslash b, f, n, r, t, and
every other byte is written as it is. -/
theorem C5_writeJSONString_escapes (buf s : Bytes) :
    writeJSONString buf s = buf ++ bytesOf "\"" ++ s.flatMap escapeByte ++ bytesOf "\""
      ∧ escapeByte 34 = bytesOf "\\\""
      ∧ escapeByte 92 = bytesOf "\\\\"
      ∧ escapeByte 8 = bytesOf "\\b"
      ∧ escapeByte 12 = bytesOf "\\f"
      ∧ escapeByte 10 = bytesOf "\\n"
      ∧ escapeByte 13 = bytesOf "\\r"
      ∧ escapeByte 9 = bytesOf "\\t"
      ∧ ∀ b : Nat, b ∉ [34, 92, 8, 12, 10, 13, 9] → escapeByte b = [b] := by
  refine ⟨?_, rfl, rfl, rfl, rfl, rfl, rfl, rfl, ?_⟩
  · rw [writeJSONString_eq]
    simp [bytesOf, List.append_assoc]
    rfl
  · intro b hb
    simp only [List.mem_cons, List.mem_singleton, List.not_mem_nil, or_false, not_or] at hb
    obtain ⟨h1, h2, h3, h4, h5, h6, h7⟩ := hb
    simp [escapeByte, h1, h2, h3, h4, h5, h6, h7]

/-- C6 (as amended): for an even-length field list `writeFields` appends, pair by pair in
list order, a comma, the quoted key (a string key byte for byte), a colon and the rendered
value: strings and byte slices through `writeJSONString`; values of the ten integer types
named in the numeric case as their decimal text, of the two float types as their printed
text and of `bool` as true or false, unquoted; a value with a `String()` method or an error
through `writeJSONString` of that text; any other value through `writeJSONString` of its
`%v` text.  The values of those thirteen types are written raw, every other value is a
quoted escaped string, among them the values of the numeric types the case does not
name: `uintptr`, the complex types and the defined integer types without methods, whose
output differs from the unquoted number. -/
theorem C6_writeFields_pairs (buf : Bytes) (fields : List Val)
    (hlen : fields.length % 2 = 0) :
    writeFields buf fields
        = some (buf ++ (pairs fields).flatMap fun kv =>
            bytesOf ",\"" ++ keyText kv.1 ++ bytesOf "\":" ++ render kv.2)
      ∧ (∀ k : Bytes, keyText (Val.str k) = k)
      ∧ (∀ s : Bytes, render (Val.str s) = writeJSONString [] s)
      ∧ (∀ s : Bytes, render (Val.byteSlice s) = writeJSONString [] s)
      ∧ (∀ n : Nat, render (Val.num (Int.ofNat n)) = decimal n)
      ∧ (∀ n : Nat, render (Val.num (Int.negSucc n)) = bytesOf "-" ++ decimal (n + 1))
      ∧ render (Val.bool true) = bytesOf "true"
      ∧ render (Val.bool false) = bytesOf "false"
      ∧ (∀ t : Bytes, render (Val.float t) = t)
      ∧ (∀ (t : Bytes) (e : Option Bytes) (f : Bytes),
          render (Val.other (some t) e f) = writeJSONString [] t)
      ∧ (∀ e f : Bytes, render (Val.other none (some e) f) = writeJSONString [] e)
      ∧ (∀ f : Bytes, render (Val.other none none f) = writeJSONString [] f
          ∧ fmtV (Val.other none none f) = f)
      ∧ (∀ v : Val, v.isPrimitive = true → render v = fmtV v)
      ∧ (∀ v : Val, v.isPrimitive = false → ∃ t : Bytes, render v = writeJSONString [] t)
      ∧ (∀ n : Nat, (uintptrVal n).isPrimitive = false
          ∧ render (uintptrVal n) = writeJSONString [] (decimal n)
          ∧ render (uintptrVal n) ≠ decimal n)
      ∧ (∀ n : Int, (definedInt n none none).isPrimitive = false
          ∧ render (definedInt n none none) = writeJSONString [] (intText n)
          ∧ render (definedInt n none none) ≠ intText n)
      ∧ (∀ t : Bytes, (complexVal t).isPrimitive = false
          ∧ render (complexVal t) = writeJSONString [] t) := by
  refine ⟨?_, fun _ => rfl, fun _ => rfl, fun _ => rfl, ?_, ?_, rfl, rfl, ?_, fun _ _ _ => rfl,
    fun _ _ => rfl, fun _ => ⟨rfl, rfl⟩, ?_, ?_,
    fun n => ⟨rfl, rfl, fun h => render_ne_decimal (decimal n) (Int.ofNat n)
      (h.trans (by
        have hn : ¬ ((n : Int) < 0) := by omega
        simp [intText, hn]))⟩,
    fun n => ⟨rfl, rfl, render_ne_decimal (intText n) n⟩, fun _ => ⟨rfl, rfl⟩⟩
  · exact writeFields_of_even fields buf hlen
  · intro n
    simp [render, writeValue, intText]
  · intro n
    simp [render, writeValue, intText, Int.negSucc_lt_zero, bytesOf]
    rfl
  · intro t
    simp [render, writeValue]
  · intro v hv
    cases v <;> simp_all [Val.isPrimitive, render, writeValue, fmtV]
  · intro v hv
    cases v with
    | str s => exact ⟨s, rfl⟩
    | byteSlice s => exact ⟨s, rfl⟩
    | num n => simp [Val.isPrimitive] at hv
    | float t => simp [Val.isPrimitive] at hv
    | bool b => simp [Val.isPrimitive] at hv
    | other st er t =>
      cases st with
      | some x => exact ⟨x, rfl⟩
      | none =>
        cases er with
        | some y => exact ⟨y, rfl⟩
        | none => exact ⟨t, rfl⟩

/-- Witness of C6 on the field list of the test Ints. -/
theorem C6_writeFields_pairs_witness :
    [Val.str (bytesOf "int"), Val.num 1777, Val.str (bytesOf "ok"), Val.bool true].length % 2 = 0
      ∧ writeFields []
          [Val.str (bytesOf "int"), Val.num 1777, Val.str (bytesOf "ok"), Val.bool true]
        = some (bytesOf ",\"int\":1777,\"ok\":true") :=
  ⟨by decide,
    (C6_writeFields_pairs []
      [Val.str (bytesOf "int"), Val.num 1777, Val.str (bytesOf "ok"), Val.bool true]
      (by decide)).1.trans (by decide)⟩

/-- C6 (as stated) fails: a `uintptr` value, a value of a defined integer type without
methods and a complex value are numeric, and each is written between quotes; the
`uintptr` 7 and the defined integer 7 are written as the string of 7, not as the
unquoted decimal literal the type `int` gets. -/
theorem C6_counterexample :
    writeFields [] [Val.str (bytesOf "p"), uintptrVal 7] = some (bytesOf ",\"p\":\"7\"")
      ∧ writeFields [] [Val.str (bytesOf "p"), definedInt 7 none none]
        = some (bytesOf ",\"p\":\"7\"")
      ∧ writeFields [] [Val.str (bytesOf "p"), complexVal (bytesOf "(1+2i)")]
        = some (bytesOf ",\"p\":\"(1+2i)\"")
      ∧ writeFields [] [Val.str (bytesOf "p"), Val.num 7] = some (bytesOf ",\"p\":7")
      ∧ render (uintptrVal 7) ≠ decimal 7
      ∧ render (definedInt 7 none none) ≠ decimal 7 := by
  refine ⟨by decide, by decide, by decide, by decide, by decide, by decide⟩

/-- C7 (the code at a field list of odd length): on a single unpaired key, and on a pair
followed by an unpaired key, `writeFields` does not return (index out of range), and so
neither do `Emit` and `C`; the same lists without their last element are encoded. -/
theorem C7_odd_length_panics :
    writeFields [] [Val.str (bytesOf "k")] = none
      ∧ writeFields [] [Val.str (bytesOf "a"), Val.num 1, Val.str (bytesOf "k")] = none
      ∧ writeFields [] [Val.str (bytesOf "a"), Val.num 1] = some (bytesOf ",\"a\":1")
      ∧ writeFields [] [] = some []
      ∧ (Emitter.Emit initWorld 1 ⟨[], 0, 1000⟩ (bytesOf "TAG") Info (bytesOf "m1")
          [Val.str (bytesOf "k")]).isNone = true
      ∧ (C initWorld (bytesOf "TAG") [Val.str (bytesOf "k")]).isNone = true
      ∧ (C initWorld (bytesOf "TAG") []).isSome = true := by
  refine ⟨rfl, rfl, by decide, rfl, rfl, rfl, rfl⟩

/-- C8: a root context made by `C(tag, F1...)` followed by any run of derivations, in
which sibling contexts may be derived from any context between the steps of the chain,
ends in a context with the same tag whose prefix is the concatenation, in derivation
order, of the encodings of the field lists on the chain; a document emitted through it
carries that prefix after the message and before the call-site fields; and
`C("tag", "a", 1).C("b", 2)` with the call-site field c writes a, then b, then c. -/
theorem C8_derivation_chain (w : World) (d : Nat) (tag : Bytes) (F1 : List Val)
    (script : List (Option Context × List Val))
    (hd : w.Default = some d) (h1 : F1.length % 2 = 0)
    (hs : ∀ st ∈ script, st.2.length % 2 = 0) :
    (∃ w1 c1 wN cN, C w tag F1 = some (w1, c1)
        ∧ deriveChain w1 c1 script = some (wN, cN)
        ∧ cN.Tag = tag
        ∧ (wN.heap cN.Emitter).context = (F1 :: chainFields script).flatMap encode
        ∧ ∀ (env : Env) (level : Level) (message : Bytes) (fields : List Val),
            fields.length % 2 = 0 → (wN.heap cN.Emitter).Level ≤ level → PoolClean wN →
            (Emitter.Emit wN cN.Emitter env cN.Tag level message fields).map World.trace
              = some (wN.trace ++ emitEvents (wN.heap cN.Emitter) level
                  (docHead (wN.heap cN.Emitter) env.now tag level message
                    ++ (F1 :: chainFields script).flatMap encode
                    ++ encode fields ++ [125] ++ [10])))
      ∧ (∀ F : List Val, F.length % 2 = 0 → writeFields [] F = some (encode F))
      ∧ ((C initWorld (bytesOf "tag") [Val.str (bytesOf "a"), Val.num 1]).bind fun r1 =>
          (Context.C r1.1 r1.2 [Val.str (bytesOf "b"), Val.num 2]).bind fun r2 =>
            (Emitter.Emit r2.1 r2.2.Emitter ⟨[], 0, 1000⟩ r2.2.Tag Info (bytesOf "m")
              [Val.str (bytesOf "c"), Val.num 3]).map World.trace)
          = some [Event.write Stderr (bytesOf
              "\x7b\"tag\":\"tag\",\"level\":\"info\",\"msg\":\"m\",\"a\":1,\"b\":2,\"c\":3\x7d\n")] := by
  refine ⟨?_, ?_, ?_⟩
  · obtain ⟨wN, cN, h1', h2, h3, h4, h5, h6, h7, h8, h9, h10⟩ :=
      deriveChain_spec script
        (alloc w
          { Level := (w.heap d).Level, Output := (w.heap d).Output,
            TimeFormat := (w.heap d).TimeFormat, Hook := (w.heap d).Hook,
            context := encode F1 }).1
        { Emitter := w.next, Tag := tag } (alloc_allocated_new _ _) hs
    simp only [alloc_heap_new] at h4
    have hctx : (wN.heap cN.Emitter).context = (F1 :: chainFields script).flatMap encode := by
      rw [h4]; simp [List.flatMap_cons]
    refine ⟨_, _, wN, cN, C_even w tag F1 d hd h1, h1', h3, hctx, ?_⟩
    intro env level message fields hlen hlevel hpool
    rw [emit_clean wN cN.Emitter env cN.Tag level message fields hlen hlevel hpool]
    simp [document, hctx, h3, encode, List.append_assoc]
  · intro F hF
    simpa [encode] using writeFields_of_even F [] hF
  · rfl

/-- Witness of C8: from the initial package state, a root with field a, a sibling derived
from the root in between, then a child with field b; the prefix is a then b. -/
theorem C8_derivation_chain_witness :
    initWorld.Default = some 1
      ∧ [Val.str (bytesOf "a"), Val.num 1].length % 2 = 0
      ∧ (∀ st ∈ [(some (Context.mk 2 (bytesOf "tag")), [Val.str (bytesOf "s"), Val.num 9]),
            (none, [Val.str (bytesOf "b"), Val.num 2])], st.2.length % 2 = 0)
      ∧ ∃ w1 c1 wN cN,
          C initWorld (bytesOf "tag") [Val.str (bytesOf "a"), Val.num 1] = some (w1, c1)
            ∧ deriveChain w1 c1
                [(some (Context.mk 2 (bytesOf "tag")), [Val.str (bytesOf "s"), Val.num 9]),
                  (none, [Val.str (bytesOf "b"), Val.num 2])] = some (wN, cN)
            ∧ (wN.heap cN.Emitter).context = bytesOf ",\"a\":1,\"b\":2" := by
  have hs : ∀ st ∈ [(some (Context.mk 2 (bytesOf "tag")), [Val.str (bytesOf "s"), Val.num 9]),
      (none, [Val.str (bytesOf "b"), Val.num 2])], st.2.length % 2 = 0 := by
    intro st hst
    simp only [List.mem_cons, List.mem_singleton, List.not_mem_nil, or_false] at hst
    rcases hst with h | h <;> subst h <;> decide
  obtain ⟨w1, c1, wN, cN, h1, h2, _, h4, _⟩ :=
    (C8_derivation_chain initWorld 1 (bytesOf "tag") [Val.str (bytesOf "a"), Val.num 1]
      [(some (Context.mk 2 (bytesOf "tag")), [Val.str (bytesOf "s"), Val.num 9]),
        (none, [Val.str (bytesOf "b"), Val.num 2])] rfl (by decide) hs).1
  exact ⟨rfl, by decide, hs, w1, c1, wN, cN, h1, h2, h4.trans (by decide)⟩

/-- C9: a context made by `C` from the default emitter, and a child made from it by
`Context.C`, hold their own emitters, filled with the configuration of the source at
creation time.  Any later assignment to the source emitter (to the default emitter, also
through `SetLevel`, or to the parent emitter) leaves the emitter and tag of the context
made earlier as they were, and an assignment to the child emitter leaves the parent and
the default emitter as they were. -/
theorem C9_snapshot (w : World) (d : Nat) (tag : Bytes) (F F2 : List Val)
    (f : Emitter → Emitter) (s : Bytes)
    (hd : w.Default = some d) (hwf : Allocated w d)
    (hF : F.length % 2 = 0) (hF2 : F2.length % 2 = 0) :
    ∃ w1 c w2 c2, C w tag F = some (w1, c) ∧ Context.C w1 c F2 = some (w2, c2)
      ∧ c.Tag = tag ∧ c2.Tag = tag
      ∧ w1.heap c.Emitter
          = { Level := (w.heap d).Level, Output := (w.heap d).Output,
              TimeFormat := (w.heap d).TimeFormat, Hook := (w.heap d).Hook,
              context := encode F }
      ∧ w2.heap c2.Emitter
          = { Level := (w.heap d).Level, Output := (w.heap d).Output,
              TimeFormat := (w.heap d).TimeFormat, Hook := (w.heap d).Hook,
              context := encode F ++ encode F2 }
      ∧ (assignAt w1 d f).heap c.Emitter = w1.heap c.Emitter
      ∧ (∃ w1s, SetLevel w1 s = some w1s ∧ w1s.heap c.Emitter = w1.heap c.Emitter
          ∧ (w1s.heap d).Level = parseLevel s)
      ∧ (assignAt w2 d f).heap c2.Emitter = w2.heap c2.Emitter
      ∧ (assignAt w2 d f).heap c.Emitter = w2.heap c.Emitter
      ∧ (assignAt w2 c.Emitter f).heap c2.Emitter = w2.heap c2.Emitter
      ∧ (assignAt w2 c2.Emitter f).heap c.Emitter = w2.heap c.Emitter
      ∧ (assignAt w2 c2.Emitter f).heap d = w2.heap d
      ∧ (assignAt w2 c.Emitter f).heap c.Emitter = f (w2.heap c.Emitter) := by
  have hdn : d ≠ w.next := Nat.ne_of_lt hwf
  have hdn1 : d ≠ w.next + 1 := by simp only [Allocated] at hwf; omega
  refine ⟨_, _, _, _, C_even w tag F d hd hF, contextC_even _ _ F2 hF2, rfl, rfl, ?_, ?_, ?_, ?_,
    ?_, ?_, ?_, ?_, ?_, ?_⟩
  · simp [alloc]
  · simp [alloc]
  · simp [assignAt, alloc, Function.update_noteq hdn.symm]
  · have hsl : SetLevel (alloc w
          { Level := (w.heap d).Level, Output := (w.heap d).Output,
            TimeFormat := (w.heap d).TimeFormat, Hook := (w.heap d).Hook,
            context := encode F }).1 s
        = some (assignAt (alloc w
            { Level := (w.heap d).Level, Output := (w.heap d).Output,
              TimeFormat := (w.heap d).TimeFormat, Hook := (w.heap d).Hook,
              context := encode F }).1 d fun e => { e with Level := parseLevel s }) := by
      simp [SetLevel, alloc, hd]
    refine ⟨_, hsl, ?_, ?_⟩
    · simp [assignAt, alloc, Function.update_noteq hdn.symm]
    · simp [assignAt, alloc]
  · simp [assignAt, alloc, Function.update_noteq hdn1.symm]
  · simp [assignAt, alloc, Function.update_noteq hdn.symm]
  · simp [assignAt, alloc]
  · simp [assignAt, alloc]
  · simp [assignAt, alloc, Function.update_noteq hdn1, Function.update_noteq hdn]
  · simp [assignAt, alloc]

/-- Witness of C9 at the initial package state, the later change being `SetLevel` with
the text fatal and an assignment of the level Fatal. -/
theorem C9_snapshot_witness :
    initWorld.Default = some 1 ∧ Allocated initWorld 1
      ∧ [Val.str (bytesOf "one"), Val.str (bytesOf "first")].length % 2 = 0
      ∧ [Val.str (bytesOf "two"), Val.str (bytesOf "second")].length % 2 = 0
      ∧ ∃ w1 c w1s,
          C initWorld (bytesOf "TAG") [Val.str (bytesOf "one"), Val.str (bytesOf "first")]
            = some (w1, c)
          ∧ SetLevel w1 (bytesOf "fatal") = some w1s
          ∧ (w1s.heap 1).Level = Fatal
          ∧ (w1s.heap c.Emitter).Level = Info := by
  obtain ⟨w1, c, w2, c2, h1, _, _, _, h5, _, _, ⟨w1s, h8, h9, h10⟩, _⟩ :=
    C9_snapshot initWorld 1 (bytesOf "TAG")
      [Val.str (bytesOf "one"), Val.str (bytesOf "first")]
      [Val.str (bytesOf "two"), Val.str (bytesOf "second")]
      (fun e => { e with Level := Fatal }) (bytesOf "fatal") rfl (by decide)
      (by decide) (by decide)
  refine ⟨rfl, by decide, by decide, by decide, w1, c, w1s, h1, h8, ?_, ?_⟩
  · rw [h10]; decide
  · rw [h9, h5]; rfl

/-- C10: `c.C(fields...)` on an even-length field list returns a context with the tag of
`c` whose emitter, a new object, has the level, sink, time format and hook of the emitter
of `c` and the prefix of `c` followed by the encoded fields; the emitter of `c`, every
other emitter and the rest of the package state are as before. -/
theorem C10_derive_frame (w : World) (c : Context) (F : List Val)
    (hc : Allocated w c.Emitter) (hF : F.length % 2 = 0) :
    ∃ w1 c1, Context.C w c F = some (w1, c1)
      ∧ c1.Tag = c.Tag
      ∧ (w1.heap c1.Emitter).Level = (w.heap c.Emitter).Level
      ∧ (w1.heap c1.Emitter).Output = (w.heap c.Emitter).Output
      ∧ (w1.heap c1.Emitter).TimeFormat = (w.heap c.Emitter).TimeFormat
      ∧ (w1.heap c1.Emitter).Hook = (w.heap c.Emitter).Hook
      ∧ (w1.heap c1.Emitter).context = (w.heap c.Emitter).context ++ encode F
      ∧ c1.Emitter ≠ c.Emitter
      ∧ w1.heap c.Emitter = w.heap c.Emitter
      ∧ (∀ p : Nat, Allocated w p → w1.heap p = w.heap p)
      ∧ w1.Default = w.Default ∧ w1._logger = w._logger ∧ w1._exit = w._exit
      ∧ w1._exitCode = w._exitCode ∧ w1.pool = w.pool ∧ w1.trace = w.trace := by
  refine ⟨_, _, contextC_even w c F hF, rfl, ?_, ?_, ?_, ?_, ?_, ?_, ?_, ?_, rfl, rfl, rfl, rfl,
    rfl, rfl⟩
  · simp [alloc]
  · simp [alloc]
  · simp [alloc]
  · simp [alloc]
  · simp [alloc]
  · exact (Nat.ne_of_lt hc).symm
  · exact alloc_heap_old _ _ _ hc
  · intro p hp
    exact alloc_heap_old _ _ _ hp

/-- Witness of C10 at the default emitter of the initial package state taken as the
emitter of a context. -/
theorem C10_derive_frame_witness :
    Allocated initWorld (Context.mk 1 (bytesOf "TAG")).Emitter
      ∧ [Val.str (bytesOf "z"), Val.num 3].length % 2 = 0
      ∧ ∃ w1 c1, Context.C initWorld (Context.mk 1 (bytesOf "TAG"))
            [Val.str (bytesOf "z"), Val.num 3] = some (w1, c1)
          ∧ c1.Tag = bytesOf "TAG"
          ∧ (w1.heap c1.Emitter).context = bytesOf ",\"z\":3"
          ∧ w1.heap 1 = initWorld.heap 1 := by
  obtain ⟨w1, c1, h1, h2, _, _, _, _, h7, _, h9, _⟩ :=
    C10_derive_frame initWorld (Context.mk 1 (bytesOf "TAG"))
      [Val.str (bytesOf "z"), Val.num 3] (by decide) (by decide)
  exact ⟨by decide, by decide, w1, c1, h1, h2, h7.trans (by decide), h9⟩

/-- C11: for an emitter with a hook and an even-length field list, a call below the
minimum level leaves the state as it was (no hook call); a call at or above it adds
exactly two effects, the hook call with the level of the call and then the write to the
sink, both with the same bytes, which are the document of the emission when the pooled
buffers are empty.  After `SetLevel("trace")`, `SetHook` and `SetTestMode(true, sink)`,
the call `T("test", "1", "a", 1)` gives the hook the expected line. -/
theorem C11_hook_once (w : World) (e : Nat) (env : Env) (tag : Bytes) (level : Level)
    (message : Bytes) (fields : List Val) (h : Nat)
    (hhook : (w.heap e).Hook = some h) (hlen : fields.length % 2 = 0) :
    (level < (w.heap e).Level → Emitter.Emit w e env tag level message fields = some w)
      ∧ ((w.heap e).Level ≤ level →
          ∃ buf : Bytes,
            (Emitter.Emit w e env tag level message fields).map World.trace
                = some (w.trace ++ [Event.hook h level buf, Event.write (w.heap e).Output buf])
              ∧ (PoolClean w → buf = document (w.heap e) env.now tag level message fields))
      ∧ ((SetLevel initWorld (bytesOf "trace")).bind fun w1 =>
          (SetTestMode (SetHook w1 (some 7)) true [5]).bind fun w3 =>
            (T w3 ⟨[], 0, 1000⟩ (bytesOf "test") (bytesOf "1")
              [Val.str (bytesOf "a"), Val.num 1]).map World.trace)
          = some [Event.hook 7 Trace
                (bytesOf "\x7b\"tag\":\"test\",\"level\":\"debug\",\"msg\":\"1\",\"a\":1\x7d\n"),
              Event.write 5
                (bytesOf "\x7b\"tag\":\"test\",\"level\":\"debug\",\"msg\":\"1\",\"a\":1\x7d\n")] := by
  refine ⟨fun hl => emit_below w e env tag level message fields hl, ?_, by decide⟩
  intro hl
  refine ⟨(poolGet w.pool env.pick).1 ++ document (w.heap e) env.now tag level message fields,
    ?_, ?_⟩
  · rw [emit_trace w e env tag level message fields hl hlen, emitEvents_hook _ h _ _ hhook]
  · intro hp
    rw [poolGet_clean w env.pick hp, List.nil_append]

/-- Witness of C11 at the default emitter that `SetHook` makes from the initial package
state: silent at Trace (its minimum is Info), hook then write at Warn. -/
theorem C11_hook_once_witness :
    ((SetHook initWorld (some 7)).heap 2).Hook = some 7
      ∧ [Val.str (bytesOf "a"), Val.num 1].length % 2 = 0
      ∧ Emitter.Emit (SetHook initWorld (some 7)) 2 ⟨[], 0, 1000⟩ (bytesOf "test") Trace
          (bytesOf "1") [Val.str (bytesOf "a"), Val.num 1] = some (SetHook initWorld (some 7))
      ∧ ∃ buf : Bytes,
          (Emitter.Emit (SetHook initWorld (some 7)) 2 ⟨[], 0, 1000⟩ (bytesOf "test") Warn
              (bytesOf "1") [Val.str (bytesOf "a"), Val.num 1]).map World.trace
            = some [Event.hook 7 Warn buf, Event.write Stderr buf]
          ∧ buf = bytesOf "\x7b\"tag\":\"test\",\"level\":\"warn\",\"msg\":\"1\",\"a\":1\x7d\n" := by
  have h := C11_hook_once (SetHook initWorld (some 7)) 2 ⟨[], 0, 1000⟩ (bytesOf "test") Trace
    (bytesOf "1") [Val.str (bytesOf "a"), Val.num 1] 7 rfl (by decide)
  have h2 := C11_hook_once (SetHook initWorld (some 7)) 2 ⟨[], 0, 1000⟩ (bytesOf "test") Warn
    (bytesOf "1") [Val.str (bytesOf "a"), Val.num 1] 7 rfl (by decide)
  obtain ⟨buf, hb1, hb2⟩ := h2.2.1 (by decide)
  exact ⟨rfl, by decide, h.1 (by decide), buf, hb1,
    (hb2 (fun _ hb => nomatch hb)).trans (by decide)⟩

/-- C12 (the code at a writer that does not accept everything): when the writer reports
zero bytes written, the buffer goes back to the pool holding the whole document, and the
next emission hands the sink the earlier document followed by its own; when the writer
reports 32 of the 38 bytes, the hook and the sink of the next emission get the last six
bytes of the earlier document in front of the new one; only a writer that accepts
everything leaves an empty buffer in the pool. -/
theorem C12_short_write_leaves_bytes :
    (I initWorld ⟨[], 0, 0⟩ (bytesOf "t") (bytesOf "m1") []).map World.pool
        = some [bytesOf "\x7b\"tag\":\"t\",\"level\":\"info\",\"msg\":\"m1\"\x7d\n"]
      ∧ ((I initWorld ⟨[], 0, 0⟩ (bytesOf "t") (bytesOf "m1") []).bind fun w1 =>
          (I w1 ⟨[], 0, 1000⟩ (bytesOf "t") (bytesOf "m2") []).map World.trace)
        = some [Event.write Stderr
              (bytesOf "\x7b\"tag\":\"t\",\"level\":\"info\",\"msg\":\"m1\"\x7d\n"),
            Event.write Stderr
              (bytesOf ("\x7b\"tag\":\"t\",\"level\":\"info\",\"msg\":\"m1\"\x7d\n"
                ++ "\x7b\"tag\":\"t\",\"level\":\"info\",\"msg\":\"m2\"\x7d\n"))]
      ∧ ((I (SetHook initWorld (some 7)) ⟨[], 0, 32⟩ (bytesOf "t") (bytesOf "m1") []).bind
          fun w1 => (I w1 ⟨[], 0, 1000⟩ (bytesOf "t") (bytesOf "m2") []).map World.trace)
        = some [Event.hook 7 Info
              (bytesOf "\x7b\"tag\":\"t\",\"level\":\"info\",\"msg\":\"m1\"\x7d\n"),
            Event.write Stderr
              (bytesOf "\x7b\"tag\":\"t\",\"level\":\"info\",\"msg\":\"m1\"\x7d\n"),
            Event.hook 7 Info
              (bytesOf ("\"m1\"\x7d\n"
                ++ "\x7b\"tag\":\"t\",\"level\":\"info\",\"msg\":\"m2\"\x7d\n")),
            Event.write Stderr
              (bytesOf ("\"m1\"\x7d\n"
                ++ "\x7b\"tag\":\"t\",\"level\":\"info\",\"msg\":\"m2\"\x7d\n"))]
      ∧ (I initWorld ⟨[], 0, 1000⟩ (bytesOf "t") (bytesOf "m1") []).map World.pool
        = some [[]] := by
  refine ⟨by decide, by decide, by decide, by decide⟩

/-- C13: for an even-length field list and a minimum level at or below Fatal,
`Emitter.F` adds to the effects those of the emission (the hook call when a hook is set,
then the write to the sink) and after them exactly one call of the exit action, with
code 1; with `os.Exit` installed the process ends there, with the action of the test mode
the call returns and `LastExitCode()` is 1.  `Context.F` and the package function `F` are
`Emitter.F` on the emitter and tag of the context and on `Default`; after
`SetTestMode(true, sink)` the package function `F` writes to the sink, records the code 1
and returns. -/
theorem C13_fatal_exit (w : World) (e : Nat) (env : Env) (tag message : Bytes)
    (fields : List Val) (hlen : fields.length % 2 = 0) (hmin : (w.heap e).Level ≤ Fatal) :
    (∃ buf : Bytes,
        (w._exit = ExitFn.record →
          ∃ w2, Emitter.F w e env tag message fields = Outcome.returned w2
            ∧ w2.trace = w.trace ++ emitEvents (w.heap e) Fatal buf ++ [Event.exit 1]
            ∧ exitCalls w2.trace = exitCalls w.trace ++ [1]
            ∧ LastExitCode w2 = 1)
        ∧ (w._exit = ExitFn.osExit →
          ∃ w2, Emitter.F w e env tag message fields = Outcome.exited w2 1
            ∧ w2.trace = w.trace ++ emitEvents (w.heap e) Fatal buf ++ [Event.exit 1]
            ∧ exitCalls w2.trace = exitCalls w.trace ++ [1]))
      ∧ (∀ c : Context, c.Emitter = e → c.Tag = tag →
          Context.F w c env message fields = Emitter.F w e env tag message fields)
      ∧ (w.Default = some e → F w env tag message fields = Emitter.F w e env tag message fields)
      ∧ (∀ s : Nat, w.Default = some e →
          ∃ w1 w2 buf, SetTestMode w true [s] = some w1
            ∧ F w1 env tag message fields = Outcome.returned w2
            ∧ w2.trace = w.trace
                ++ emitEvents ⟨Trace, s, [], (w.heap e).Hook, []⟩ Fatal buf ++ [Event.exit 1]
            ∧ exitCalls w2.trace = exitCalls w.trace ++ [1]
            ∧ LastExitCode w2 = 1) := by
  refine ⟨⟨_, fun hrec => emitterF_record w e env tag message fields hlen hmin hrec,
    fun hos => emitterF_osExit w e env tag message fields hlen hmin hos⟩, ?_, ?_, ?_⟩
  · intro c hc ht
    subst hc ht
    rfl
  · intro hd
    exact packageF_eq w e env tag message fields hd
  · intro s hd
    obtain ⟨w1, hst, hdef, hnew, _, _, _, hex, _, hpool, htr⟩ := setTestMode_on w s e [] hd
    have hmin1 : (w1.heap w.next).Level ≤ Fatal := by rw [hnew]; exact Nat.zero_le _
    obtain ⟨w2, hF, htr2, hec, hlast⟩ :=
      emitterF_record w1 w.next env tag message fields hlen hmin1 hex
    rw [hnew, htr] at htr2
    rw [htr] at hec
    exact ⟨w1, w2, _, hst, (packageF_eq w1 w.next env tag message fields hdef).trans hF, htr2,
      hec, hlast⟩

/-- Witness of C13 at the initial package state put into test mode, with the message of the
test Nested. -/
theorem C13_fatal_exit_witness :
    ([] : List Val).length % 2 = 0 ∧ (initWorld.heap 1).Level ≤ Fatal
      ∧ ∃ w1 w2 buf, SetTestMode initWorld true [5] = some w1
          ∧ F w1 ⟨[], 0, 1000⟩ (bytesOf "TAG") (bytesOf "m3") [] = Outcome.returned w2
          ∧ w2.trace = initWorld.trace
              ++ emitEvents ⟨Trace, 5, [], (initWorld.heap 1).Hook, []⟩ Fatal buf ++ [Event.exit 1]
          ∧ exitCalls w2.trace = exitCalls initWorld.trace ++ [1]
          ∧ LastExitCode w2 = 1 :=
  ⟨by decide, by decide,
    (C13_fatal_exit initWorld 1 ⟨[], 0, 1000⟩ (bytesOf "TAG") (bytesOf "m3") [] (by decide)
      (by decide)).2.2.2 5 rfl⟩

/-- C14: with `Default` set, `SetLevel(s)` returns for every string and assigns to the
level of the default emitter Trace when the lower-cased `s` is trace or debug, Warn for
warn, Error for error, Fatal for fatal and Info for every other string; strings that agree
up to the case of their ASCII letters select the same level; no other field of the
default emitter, no other emitter and no other part of the package state changes. -/
theorem C14_setLevel (w : World) (d : Nat) (s : Bytes) (hd : w.Default = some d) :
    ∃ w1, SetLevel w s = some w1
      ∧ (w1.heap d).Level = parseLevel s
      ∧ (toLower s = bytesOf "trace" ∨ toLower s = bytesOf "debug" → parseLevel s = Trace)
      ∧ (toLower s = bytesOf "warn" → parseLevel s = Warn)
      ∧ (toLower s = bytesOf "error" → parseLevel s = Error)
      ∧ (toLower s = bytesOf "fatal" → parseLevel s = Fatal)
      ∧ (toLower s ∉ [bytesOf "trace", bytesOf "debug", bytesOf "warn", bytesOf "error",
            bytesOf "fatal"] → parseLevel s = Info)
      ∧ (∀ t : Bytes, toLower t = toLower s → parseLevel t = parseLevel s)
      ∧ (w1.heap d).Output = (w.heap d).Output
      ∧ (w1.heap d).TimeFormat = (w.heap d).TimeFormat
      ∧ (w1.heap d).Hook = (w.heap d).Hook
      ∧ (w1.heap d).context = (w.heap d).context
      ∧ (∀ p : Nat, p ≠ d → w1.heap p = w.heap p)
      ∧ w1.Default = w.Default ∧ w1._logger = w._logger ∧ w1._exit = w._exit
      ∧ w1._exitCode = w._exitCode ∧ w1.pool = w.pool ∧ w1.trace = w.trace
      ∧ w1.next = w.next
      ∧ parseLevel (bytesOf "TRACE") = Trace ∧ parseLevel (bytesOf "Debug") = Trace
      ∧ parseLevel (bytesOf "wArN") = Warn ∧ parseLevel (bytesOf "ERROR") = Error
      ∧ parseLevel (bytesOf "Fatal") = Fatal ∧ parseLevel (bytesOf "info") = Info
      ∧ parseLevel (bytesOf "INFO") = Info ∧ parseLevel (bytesOf "") = Info
      ∧ parseLevel (bytesOf "verbose") = Info ∧ parseLevel (bytesOf "warning") = Info := by
  refine ⟨assignAt w d fun e => { e with Level := parseLevel s }, by simp [SetLevel, hd], ?_, ?_,
    ?_, ?_, ?_, ?_, ?_, ?_, ?_, ?_, ?_, ?_, rfl, rfl, rfl, rfl, rfl, rfl, rfl, by decide,
    by decide, by decide, by decide, by decide, by decide, by decide, by decide, by decide,
    by decide⟩
  · simp [assignAt]
  · intro h
    simp only [parseLevel]
    rw [if_pos h]
  · intro h
    simp only [parseLevel, h]
    decide
  · intro h
    simp only [parseLevel, h]
    decide
  · intro h
    simp only [parseLevel, h]
    decide
  · intro h
    simp only [List.mem_cons, List.mem_singleton, List.not_mem_nil, or_false, not_or] at h
    obtain ⟨h1, h2, h3, h4, h5⟩ := h
    simp [parseLevel, h1, h2, h3, h4, h5]
  · intro t ht
    simp only [parseLevel, ht]
  · simp [assignAt]
  · simp [assignAt]
  · simp [assignAt]
  · simp [assignAt]
  · intro p hp
    simp [assignAt, Function.update_noteq hp]

/-- Witness of C14 at the initial package state with a string in mixed case. -/
theorem C14_setLevel_witness :
    initWorld.Default = some 1
      ∧ ∃ w1, SetLevel initWorld (bytesOf "FaTaL") = some w1 ∧ (w1.heap 1).Level = Fatal := by
  obtain ⟨w1, h1, h2, _⟩ := C14_setLevel initWorld 1 (bytesOf "FaTaL") rfl
  exact ⟨rfl, w1, h1, h2.trans (by decide)⟩

/-- C15: `Level.String` is debug, info, warn, error, fatal for the five named levels and
the empty string for every level from 5 on; the five names are pairwise distinct; the
bytes of every passing emission carry the name of the level of the call between
`"level":"` and the closing quote, after the tag and before the message, and a reader of
the document finds it as the value of the member level. -/
theorem C15_level_names :
    Level.String Trace = bytesOf "debug"
      ∧ Level.String Info = bytesOf "info"
      ∧ Level.String Warn = bytesOf "warn"
      ∧ Level.String Error = bytesOf "error"
      ∧ Level.String Fatal = bytesOf "fatal"
      ∧ (∀ l : Level, 5 ≤ l → Level.String l = bytesOf "")
      ∧ bytesOf "" = []
      ∧ [Level.String Trace, Level.String Info, Level.String Warn, Level.String Error,
          Level.String Fatal].Nodup
      ∧ (∀ (w : World) (e : Nat) (env : Env) (tag : Bytes) (level : Level) (message : Bytes)
          (fields : List Val), fields.length % 2 = 0 → (w.heap e).Level ≤ level →
          (Emitter.Emit w e env tag level message fields).map World.trace
            = some (w.trace ++ emitEvents (w.heap e) level
                ((poolGet w.pool env.pick).1 ++ [123]
                  ++ (if (w.heap e).TimeFormat ≠ []
                      then bytesOf "\"time\":\"" ++ env.now ++ bytesOf "\"," else [])
                  ++ bytesOf "\"tag\":\"" ++ tag ++ bytesOf "\","
                  ++ bytesOf "\"level\":\"" ++ Level.String level ++ bytesOf "\""
                  ++ bytesOf ",\"msg\":" ++ writeJSONString [] message
                  ++ (w.heap e).context ++ encode fields ++ [125] ++ [10])))
      ∧ (∀ (e : Emitter) (now tag : Bytes) (level : Level) (message : Bytes)
          (fields : List Val), plainText tag = true → e.TimeFormat = [] → e.context = [] →
          cleanText message = true → (∀ kv ∈ pairs fields, readablePair kv = true) →
          ∃ ms, parseObject (document e now tag level message fields) = some ms
            ∧ ms.lookup (bytesOf "level") = some (JVal.str (Level.String level))) := by
  refine ⟨rfl, rfl, rfl, rfl, rfl, ?_, rfl, by decide, ?_, ?_⟩
  · intro l hl
    have h0 : l ≠ Trace := fun h => absurd (h ▸ hl) (by decide)
    have h1 : l ≠ Info := fun h => absurd (h ▸ hl) (by decide)
    have h2 : l ≠ Warn := fun h => absurd (h ▸ hl) (by decide)
    have h3 : l ≠ Error := fun h => absurd (h ▸ hl) (by decide)
    have h4 : l ≠ Fatal := fun h => absurd (h ▸ hl) (by decide)
    simp [Level.String, h0, h1, h2, h3, h4]
  · intro w e env tag level message fields hlen hlevel
    rw [emit_trace w e env tag level message fields hlevel hlen]
    simp [document, docHead, encode, List.append_assoc]
  · intro e now tag level message fields htag htf hctx hmsg hf
    have h := parseObject_document e now tag level message [] fields htag
      (fun hne => absurd htf hne) hmsg (by simpa using hctx) (fun _ hF => nomatch hF) hf
    refine ⟨_, h, ?_⟩
    have k1 : (bytesOf "level" == bytesOf "tag") = false := by decide
    simp [headMembers, htf, List.lookup, k1]

/-- C16: the named levels are ordered Trace < Info < Warn < Error < Fatal; a call is
emitted exactly when its level is at or above the minimum of the emitter, so an emitter
that emits at a level emits at every higher level, and an emitter with a lower minimum
emits whatever one with a higher minimum emits; minimum Trace emits all five levels, Info
all but Trace, Warn the levels Warn, Error and Fatal, Error the levels Error and Fatal,
Fatal only Fatal, and a Fatal call is emitted under each of the five named minima. -/
theorem C16_gate_monotone (w : World) (e e2 : Nat) (env : Env) (tag message : Bytes)
    (fields : List Val) (hlen : fields.length % 2 = 0) :
    (Trace < Info ∧ Info < Warn ∧ Warn < Error ∧ Error < Fatal)
      ∧ (∀ l : Level, Emits w e env tag l message fields ↔ (w.heap e).Level ≤ l)
      ∧ (∀ l l2 : Level, Emits w e env tag l message fields → l ≤ l2 →
          Emits w e env tag l2 message fields)
      ∧ (∀ l : Level, (w.heap e2).Level ≤ (w.heap e).Level →
          Emits w e env tag l message fields → Emits w e2 env tag l message fields)
      ∧ ((w.heap e).Level = Trace →
          ∀ l ∈ [Trace, Info, Warn, Error, Fatal], Emits w e env tag l message fields)
      ∧ ((w.heap e).Level = Info →
          (∀ l ∈ [Info, Warn, Error, Fatal], Emits w e env tag l message fields)
            ∧ ¬ Emits w e env tag Trace message fields)
      ∧ ((w.heap e).Level = Warn →
          (∀ l ∈ [Warn, Error, Fatal], Emits w e env tag l message fields)
            ∧ ∀ l ∈ [Trace, Info], ¬ Emits w e env tag l message fields)
      ∧ ((w.heap e).Level = Error →
          (∀ l ∈ [Error, Fatal], Emits w e env tag l message fields)
            ∧ ∀ l ∈ [Trace, Info, Warn], ¬ Emits w e env tag l message fields)
      ∧ ((w.heap e).Level = Fatal →
          Emits w e env tag Fatal message fields
            ∧ ∀ l ∈ [Trace, Info, Warn, Error], ¬ Emits w e env tag l message fields)
      ∧ ((w.heap e).Level ∈ [Trace, Info, Warn, Error, Fatal] →
          Emits w e env tag Fatal message fields) := by
  have key : ∀ (x : Nat) (l : Level),
      Emits w x env tag l message fields ↔ (w.heap x).Level ≤ l :=
    fun x l => emits_iff w x env tag l message fields hlen
  refine ⟨by decide, key e, ?_, ?_, ?_, ?_, ?_, ?_, ?_, ?_⟩
  · intro l l2 h hle
    rw [key] at h ⊢
    exact le_trans h hle
  · intro l hle h
    rw [key] at h ⊢
    exact le_trans hle h
  · intro hm l hl
    rw [key, hm]
    exact Nat.zero_le _
  · intro hm
    simp only [key, hm, List.mem_cons, List.mem_singleton, List.not_mem_nil, or_false]
    refine ⟨?_, by decide⟩
    rintro l (rfl | rfl | rfl | rfl) <;> decide
  · intro hm
    simp only [key, hm, List.mem_cons, List.mem_singleton, List.not_mem_nil, or_false]
    constructor
    · rintro l (rfl | rfl | rfl) <;> decide
    · rintro l (rfl | rfl) <;> decide
  · intro hm
    simp only [key, hm, List.mem_cons, List.mem_singleton, List.not_mem_nil, or_false]
    constructor
    · rintro l (rfl | rfl) <;> decide
    · rintro l (rfl | rfl | rfl) <;> decide
  · intro hm
    simp only [key, hm, List.mem_cons, List.mem_singleton, List.not_mem_nil, or_false]
    refine ⟨by decide, ?_⟩
    rintro l (rfl | rfl | rfl | rfl) <;> decide
  · intro hm
    rw [key]
    simp only [List.mem_cons, List.mem_singleton, List.not_mem_nil, or_false] at hm
    rcases hm with h | h | h | h | h <;> rw [h] <;> decide

/-- Witness of C16 at the default emitter of the initial package state (minimum Info):
Fatal is emitted, Trace is not. -/
theorem C16_gate_monotone_witness :
    ([] : List Val).length % 2 = 0
      ∧ Emits initWorld 1 ⟨[], 0, 1000⟩ (bytesOf "t") Fatal (bytesOf "m") []
      ∧ ¬ Emits initWorld 1 ⟨[], 0, 1000⟩ (bytesOf "t") Trace (bytesOf "m") [] :=
  ⟨by decide,
    (C16_gate_monotone initWorld 1 1 ⟨[], 0, 1000⟩ (bytesOf "t") (bytesOf "m") []
      (by decide)).2.2.2.2.2.2.2.2.2 (by decide),
    ((C16_gate_monotone initWorld 1 1 ⟨[], 0, 1000⟩ (bytesOf "t") (bytesOf "m") []
      (by decide)).2.2.2.2.2.1 rfl).2⟩

/-- C17 (as amended): for a tag, a time text, a context prefix and keys without a
newline byte (and float texts without one), the bytes a passing emission hands to the sink
end with the newline byte and contain no other one, whatever the message and the quoted
values are, since `writeJSONString` never writes a newline byte; a prefix built by
derivations from such keys has none; and a run of N such emissions whose writer accepts
them hands over N documents, each ending in its only newline byte: exactly N lines. -/
theorem C17_single_line (w : World) (e : Nat) (env : Env) (tag : Bytes) (level : Level)
    (message : Bytes) (fields : List Val)
    (hlen : fields.length % 2 = 0) (hlevel : (w.heap e).Level ≤ level) (hpool : PoolClean w)
    (htag : newlineFree tag = true)
    (hnow : (w.heap e).TimeFormat ≠ [] → newlineFree env.now = true)
    (hctx : newlineFree (w.heap e).context = true)
    (hf : ∀ kv ∈ pairs fields, linePair kv = true) :
    (∃ body : Bytes,
        (Emitter.Emit w e env tag level message fields).map World.trace
            = some (w.trace ++ emitEvents (w.heap e) level (body ++ [10]))
          ∧ 10 ∉ body ∧ (body ++ [10]).count 10 = 1)
      ∧ (∀ chain : List (List Val), (∀ F ∈ chain, ∀ kv ∈ pairs F, linePair kv = true) →
          newlineFree (chain.flatMap encode) = true)
      ∧ (∀ s : Bytes, newlineFree (writeJSONString [] s) = true)
      ∧ (∀ calls : List Call, (∀ c ∈ calls, LineCall w.heap c) →
          ∃ wN, emitAll w calls = some wN
            ∧ written wN.trace
                = written w.trace ++ calls.flatMap (fun c =>
                    docBody (w.heap c.e) c.env.now c.tag c.level c.message c.fields ++ [10])
            ∧ (∀ c ∈ calls,
                10 ∉ docBody (w.heap c.e) c.env.now c.tag c.level c.message c.fields)
            ∧ (written wN.trace).count 10 = (written w.trace).count 10 + calls.length) := by
  have hb := newlineFree_docBody (w.heap e) env.now tag level message fields htag hnow hctx hf
  refine ⟨⟨docBody (w.heap e) env.now tag level message fields, ?_, (newlineFree_iff _).mp hb,
    ?_⟩, ?_, newlineFree_writeJSONString, ?_⟩
  · rw [emit_clean w e env tag level message fields hlen hlevel hpool, document_body]
  · rw [List.count_append, count_newlineFree _ hb]
    rfl
  · intro chain hchain
    exact newlineFree_flatMap _ _ fun F hF => newlineFree_encode F (hchain F hF)
  · intro calls hcalls
    obtain ⟨wN, h1, _, _, h4, h5⟩ := emitAll_lines calls w hpool hcalls
    refine ⟨wN, h1, h4, ?_, h5⟩
    intro c hc
    obtain ⟨_, _, h3, h4', h5', h6, _⟩ := hcalls c hc
    exact (newlineFree_iff _).mp
      (newlineFree_docBody (w.heap c.e) c.env.now c.tag c.level c.message c.fields h3 h4' h5' h6)

/-- Witness of C17 on the test Line Breaks and Tabs: newlines in the message and in a
field value, one line. -/
theorem C17_single_line_witness :
    [Val.str (bytesOf "x"), Val.str (bytesOf "\t\t\ty\n\n\n")].length % 2 = 0
      ∧ (initWorld.heap 1).Level ≤ Info ∧ PoolClean initWorld
      ∧ newlineFree (bytesOf "test") = true
      ∧ ((initWorld.heap 1).TimeFormat ≠ [] → newlineFree ([] : Bytes) = true)
      ∧ newlineFree (initWorld.heap 1).context = true
      ∧ (∀ kv ∈ pairs [Val.str (bytesOf "x"), Val.str (bytesOf "\t\t\ty\n\n\n")],
          linePair kv = true)
      ∧ ∃ body : Bytes,
          (Emitter.Emit initWorld 1 ⟨[], 0, 1000⟩ (bytesOf "test") Info (bytesOf "a\nb\t\tc")
              [Val.str (bytesOf "x"), Val.str (bytesOf "\t\t\ty\n\n\n")]).map World.trace
            = some (initWorld.trace ++ emitEvents (initWorld.heap 1) Info (body ++ [10]))
          ∧ 10 ∉ body ∧ (body ++ [10]).count 10 = 1 :=
  ⟨by decide, by decide, (fun _ hb => nomatch hb), by decide, by decide, by decide, by decide,
    (C17_single_line initWorld 1 ⟨[], 0, 1000⟩ (bytesOf "test") Info (bytesOf "a\nb\t\tc")
      [Val.str (bytesOf "x"), Val.str (bytesOf "\t\t\ty\n\n\n")] (by decide) (by decide)
      (fun _ hb => nomatch hb) (by decide) (by decide) (by decide) (by decide)).1⟩

/-- C17 (as stated) fails: a tag with a newline byte, and a key with one, are written as
they are, and the emitted bytes hold two newline bytes. -/
theorem C17_counterexample :
    (Emitter.Emit initWorld 1 ⟨[], 0, 1000⟩ (bytesOf "a\nb") Info (bytesOf "m") []).map
        World.trace
        = some [Event.write Stderr
            (bytesOf "\x7b\"tag\":\"a\nb\",\"level\":\"info\",\"msg\":\"m\"\x7d\n")]
      ∧ (bytesOf "\x7b\"tag\":\"a\nb\",\"level\":\"info\",\"msg\":\"m\"\x7d\n").count 10 = 2
      ∧ (Emitter.Emit initWorld 1 ⟨[], 0, 1000⟩ (bytesOf "t") Info (bytesOf "m")
            [Val.str (bytesOf "k\n"), Val.num 1]).map World.trace
        = some [Event.write Stderr
            (bytesOf "\x7b\"tag\":\"t\",\"level\":\"info\",\"msg\":\"m\",\"k\n\":1\x7d\n")]
      ∧ (bytesOf "\x7b\"tag\":\"t\",\"level\":\"info\",\"msg\":\"m\",\"k\n\":1\x7d\n").count 10
        = 2 := by
  refine ⟨by decide, by decide, by decide, by decide⟩

/-- C18: with `Default` set, `SetTestMode(true, sink)` makes `Default` a new emitter
that writes to the sink and has the hook of the previous default emitter (level Trace, no
time format), keeps the previous one untouched in `_logger` and installs the recording
exit action; every emission through `Default`, so through the package functions, then
writes to the sink, a context made afterwards writes to the sink, and `F` returns with
`LastExitCode()` 1.  `SetTestMode(false)`, at once or after emissions and derivations in
between, makes `Default` the very emitter it was before, unchanged, and installs
`os.Exit` again. -/
theorem C18_test_mode (w : World) (d s : Nat) (rest : List Nat)
    (hd : w.Default = some d) (hwf : Allocated w d) :
    ∃ w1, SetTestMode w true (s :: rest) = some w1
      ∧ w1.Default = some w.next ∧ w.next ≠ d
      ∧ w1.heap w.next
          = { Level := Trace, Output := s, TimeFormat := [], Hook := (w.heap d).Hook,
              context := [] }
      ∧ w1.heap d = w.heap d
      ∧ w1._logger = some d ∧ w1._exit = ExitFn.record
      ∧ w1.pool = w.pool ∧ w1.trace = w.trace
      ∧ (∀ (env : Env) (tag : Bytes) (level : Level) (message : Bytes) (v : List Val),
          v.length % 2 = 0 →
          ∃ buf : Bytes, buf ≠ [] ∧
            (defaultEmit w1 env tag level message v).map World.trace
              = some (w.trace
                  ++ (match (w.heap d).Hook with
                      | some h => [Event.hook h level buf]
                      | none => [])
                  ++ [Event.write s buf]))
      ∧ (∀ (env : Env) (tag message : Bytes) (v : List Val),
          T w1 env tag message v = defaultEmit w1 env tag Trace message v
            ∧ I w1 env tag message v = defaultEmit w1 env tag Info message v
            ∧ W w1 env tag message v = defaultEmit w1 env tag Warn message v
            ∧ E w1 env tag message v = defaultEmit w1 env tag Error message v)
      ∧ (∀ (tag : Bytes) (fields : List Val), fields.length % 2 = 0 →
          ∃ w2 c, C w1 tag fields = some (w2, c)
            ∧ (w2.heap c.Emitter).Output = s
            ∧ (w2.heap c.Emitter).Hook = (w.heap d).Hook
            ∧ (w2.heap c.Emitter).Level = Trace)
      ∧ (∀ (env : Env) (tag message : Bytes) (v : List Val), v.length % 2 = 0 →
          ∃ w2, F w1 env tag message v = Outcome.returned w2 ∧ LastExitCode w2 = 1)
      ∧ (∀ sinks : List Nat,
          ∃ w3, SetTestMode w1 false sinks = some w3
            ∧ w3.Default = some d ∧ w3.heap d = w.heap d ∧ w3._exit = ExitFn.osExit)
      ∧ (∀ (w2 : World) (sinks : List Nat), w2._logger = w1._logger → w2.heap d = w1.heap d →
          ∃ w3, SetTestMode w2 false sinks = some w3
            ∧ w3.Default = some d ∧ w3.heap d = w.heap d ∧ w3._exit = ExitFn.osExit)
      ∧ (∀ (w2 : World) (e : Nat) (env : Env) (tag : Bytes) (level : Level) (message : Bytes)
          (v : List Val), Emitter.Emit w1 e env tag level message v = some w2 →
          w2._logger = w1._logger ∧ w2.heap d = w1.heap d)
      ∧ (∀ (w2 : World) (tag : Bytes) (fields : List Val) (c : Context),
          C w1 tag fields = some (w2, c) → w2._logger = w1._logger ∧ w2.heap d = w1.heap d) := by
  obtain ⟨w1, hst, hdef, hnew, hold, hnext, hlog, hex, _, hpool, htr⟩ :=
    setTestMode_on w s d rest hd
  have hne : w.next ≠ d := (Nat.ne_of_lt hwf).symm
  have hd1 : w1.heap d = w.heap d := hold d hne.symm
  have hmin : ∀ l : Level, (w1.heap w.next).Level ≤ l := by
    intro l; rw [hnew]; exact Nat.zero_le _
  refine ⟨w1, hst, hdef, hne, hnew, hd1, hlog, hex, hpool, htr, ?_, ?_, ?_, ?_, ?_, ?_, ?_, ?_⟩
  · intro env tag level message v hv
    refine ⟨(poolGet w1.pool env.pick).1 ++ document (w1.heap w.next) env.now tag level message v,
      by simp [document], ?_⟩
    rw [defaultEmit_eq w1 w.next env tag level message v hdef,
      emit_trace w1 w.next env tag level message v (hmin level) hv, htr, hnew]
    cases (w.heap d).Hook <;> simp [emitEvents]
  · intro env tag message v
    exact ⟨rfl, rfl, rfl, rfl⟩
  · intro tag fields hf
    refine ⟨_, _, C_even w1 tag fields w.next hdef hf, ?_, ?_, ?_⟩
    · simp [alloc, hnew]
    · simp [alloc, hnew]
    · simp [alloc, hnew]
  · intro env tag message v hv
    obtain ⟨w2, hF, _, _, hlast⟩ := emitterF_record w1 w.next env tag message v hv (hmin Fatal) hex
    exact ⟨w2, (packageF_eq w1 w.next env tag message v hdef).trans hF, hlast⟩
  · intro sinks
    exact ⟨_, setTestMode_off w1 sinks, hlog, hd1, rfl⟩
  · intro w2 sinks h1 h2
    exact ⟨_, setTestMode_off w2 sinks, h1.trans hlog, h2.trans hd1, rfl⟩
  · intro w2 e env tag level message v h
    obtain ⟨h1, _, _, h4, _⟩ := emit_frame w1 w2 e env tag level message v h
    exact ⟨h4, by rw [h1]⟩
  · intro w2 tag fields c h
    obtain ⟨h1, _, h3, _⟩ := C_frame w1 w2 tag fields c h
    refine ⟨h3, h1 d ?_⟩
    simp only [Allocated] at hwf ⊢
    omega

/-- Witness of C18 at the initial package state: on, then off. -/
theorem C18_test_mode_witness :
    initWorld.Default = some 1 ∧ Allocated initWorld 1
      ∧ ∃ w1, SetTestMode initWorld true [5] = some w1
          ∧ w1.Default = some 2
          ∧ (w1.heap 2).Output = 5
          ∧ ∃ w3, SetTestMode w1 false [] = some w3
              ∧ w3.Default = some 1 ∧ w3.heap 1 = initWorld.heap 1
              ∧ w3._exit = ExitFn.osExit := by
  obtain ⟨w1, h1, h2, _, h4, _, _, _, _, _, _, _, _, _, h14, _⟩ :=
    C18_test_mode initWorld 1 5 [] rfl (by decide)
  exact ⟨rfl, by decide, w1, h1, h2, by show (w1.heap initWorld.next).Output = 5; rw [h4], h14 []⟩

/-- C19: the wrappers `T`, `I`, `W`, `E` of an emitter, of a context and of the package
are `Emit` at Trace, Info, Warn, Error on that emitter, on the emitter and tag of the
context, and on `Default`; the three `F` are `Emit` at Fatal followed, when it returns, by
the call `_exit(1)`, which records the call and either ends the process or stores the
code. -/
theorem C19_wrappers_delegate (w : World) (e : Nat) (c : Context) (env : Env)
    (tag message : Bytes) (fields : List Val) :
    (Emitter.T w e env tag message fields = Emitter.Emit w e env tag Trace message fields
        ∧ Emitter.I w e env tag message fields = Emitter.Emit w e env tag Info message fields
        ∧ Emitter.W w e env tag message fields = Emitter.Emit w e env tag Warn message fields
        ∧ Emitter.E w e env tag message fields = Emitter.Emit w e env tag Error message fields)
      ∧ (Context.T w c env message fields
            = Emitter.Emit w c.Emitter env c.Tag Trace message fields
        ∧ Context.I w c env message fields
            = Emitter.Emit w c.Emitter env c.Tag Info message fields
        ∧ Context.W w c env message fields
            = Emitter.Emit w c.Emitter env c.Tag Warn message fields
        ∧ Context.E w c env message fields
            = Emitter.Emit w c.Emitter env c.Tag Error message fields)
      ∧ (∀ d : Nat, w.Default = some d →
          T w env tag message fields = Emitter.Emit w d env tag Trace message fields
            ∧ I w env tag message fields = Emitter.Emit w d env tag Info message fields
            ∧ W w env tag message fields = Emitter.Emit w d env tag Warn message fields
            ∧ E w env tag message fields = Emitter.Emit w d env tag Error message fields)
      ∧ (∀ w1 : World, Emitter.Emit w e env tag Fatal message fields = some w1 →
          Emitter.F w e env tag message fields = callExit w1 1)
      ∧ (Emitter.Emit w e env tag Fatal message fields = none →
          Emitter.F w e env tag message fields = Outcome.panicked)
      ∧ Context.F w c env message fields = Emitter.F w c.Emitter env c.Tag message fields
      ∧ (∀ d : Nat, w.Default = some d →
          F w env tag message fields = Emitter.F w d env tag message fields)
      ∧ (∀ w1 : World,
          (w1._exit = ExitFn.osExit →
              callExit w1 1
                = Outcome.exited { w1 with trace := w1.trace ++ [Event.exit 1] } 1)
            ∧ (w1._exit = ExitFn.record →
              callExit w1 1
                = Outcome.returned
                    { w1 with _exitCode := 1, trace := w1.trace ++ [Event.exit 1] })) := by
  refine ⟨⟨rfl, rfl, rfl, rfl⟩, ⟨rfl, rfl, rfl, rfl⟩, ?_, ?_, ?_, rfl, ?_, ?_⟩
  · intro d hd
    exact ⟨defaultEmit_eq w d env tag Trace message fields hd,
      defaultEmit_eq w d env tag Info message fields hd,
      defaultEmit_eq w d env tag Warn message fields hd,
      defaultEmit_eq w d env tag Error message fields hd⟩
  · intro w1 h
    simp [Emitter.F, h]
  · intro h
    simp [Emitter.F, h]
  · intro d hd
    exact packageF_eq w d env tag message fields hd
  · intro w1
    constructor
    · intro h; simp [callExit, h]
    · intro h; simp [callExit, h]

/-- C20: for even-length field lists, `writeFields` on `a ++ b` appends the encoding of
`a` and then that of `b`; `C(tag, a...).C(b...)` and `C(tag, (a ++ b)...)` have the same
tag and equal emitters, prefix included; and with a default emitter that has no prefix of
its own, `C(tag, a...).I(msg, f...)` and `Default.Emit(tag, Info, msg, (a ++ f)...)`, run
on the same state with the same time text, leave the same effects: the same document,
byte for byte, to the same hook and sink (so at every level and time format). -/
theorem C20_context_equals_call_site (w : World) (d : Nat) (env : Env) (tag message : Bytes)
    (a b f : List Val) (hd : w.Default = some d) (hctx : (w.heap d).context = [])
    (ha : a.length % 2 = 0) (hb : b.length % 2 = 0) (hf : f.length % 2 = 0) :
    (∀ buf : Bytes, writeFields buf (a ++ b) = some (buf ++ encode a ++ encode b))
      ∧ writeFields [] a = some (encode a) ∧ writeFields [] b = some (encode b)
      ∧ (∃ w1 c1 w2 c2 w3 c3, C w tag a = some (w1, c1) ∧ Context.C w1 c1 b = some (w2, c2)
          ∧ C w tag (a ++ b) = some (w3, c3)
          ∧ (w2.heap c2.Emitter).context = (w3.heap c3.Emitter).context
          ∧ w2.heap c2.Emitter = w3.heap c3.Emitter ∧ c2.Tag = c3.Tag
          ∧ (Context.I w1 c1 env message f).map World.trace
              = (defaultEmit w env tag Info message (a ++ f)).map World.trace
          ∧ (∀ level : Level,
              (Emitter.Emit w1 c1.Emitter env c1.Tag level message f).map World.trace
                = (Emitter.Emit w d env tag level message (a ++ f)).map World.trace)
          ∧ ∀ level : Level,
              document (w1.heap c1.Emitter) env.now c1.Tag level message f
                = document (w.heap d) env.now tag level message (a ++ f)) := by
  have hab := length_append_even a b ha hb
  have haf := length_append_even a f ha hf
  have hC1 := C_even w tag a d hd ha
  have hC3 := C_even w tag (a ++ b) d hd hab
  have hdoc : ∀ level : Level,
      document ((alloc w
          { Level := (w.heap d).Level, Output := (w.heap d).Output,
            TimeFormat := (w.heap d).TimeFormat, Hook := (w.heap d).Hook,
            context := encode a }).1.heap w.next) env.now tag level message f
        = document (w.heap d) env.now tag level message (a ++ f) := by
    intro level
    rw [alloc_heap_new]
    exact document_context (w.heap d) _ env.now tag level message a f ha rfl hctx rfl
  have hemit : ∀ level : Level,
      (Emitter.Emit (alloc w
          { Level := (w.heap d).Level, Output := (w.heap d).Output,
            TimeFormat := (w.heap d).TimeFormat, Hook := (w.heap d).Hook,
            context := encode a }).1 w.next env tag level message f).map World.trace
        = (Emitter.Emit w d env tag level message (a ++ f)).map World.trace := by
    intro level
    by_cases hl : level < (w.heap d).Level
    · rw [emit_below w d env tag level message (a ++ f) hl,
        emit_below _ w.next env tag level message f (by rw [alloc_heap_new]; exact hl)]
      rfl
    · have hle : (w.heap d).Level ≤ level := Nat.not_lt.mp hl
      rw [emit_trace w d env tag level message (a ++ f) hle haf,
        emit_trace _ w.next env tag level message f (by rw [alloc_heap_new]; exact hle) hf,
        hdoc level, alloc_heap_new]
      rfl
  refine ⟨?_, ?_, ?_, _, _, _, _, _, _, hC1, contextC_even _ _ b hb, hC3, ?_, ?_, rfl, ?_,
    hemit, hdoc⟩
  · intro buf
    rw [writeFields_of_even (a ++ b) buf hab]
    have := encode_append a b ha
    unfold encode at this
    simp [encode, this, List.append_assoc]
  · simpa [encode] using writeFields_of_even a [] ha
  · simpa [encode] using writeFields_of_even b [] hb
  · simp [alloc, encode_append a b ha]
  · simp [alloc, encode_append a b ha]
  · rw [defaultEmit_eq w d env tag Info message (a ++ f) hd]
    exact hemit Info

/-- Witness of C20 on the field lists of the test of the hook. -/
theorem C20_context_equals_call_site_witness :
    initWorld.Default = some 1 ∧ (initWorld.heap 1).context = []
      ∧ [Val.str (bytesOf "x"), Val.num 5].length % 2 = 0
      ∧ [Val.str (bytesOf "y"), Val.num 4].length % 2 = 0
      ∧ [Val.str (bytesOf "z"), Val.num 3].length % 2 = 0
      ∧ writeFields []
          ([Val.str (bytesOf "x"), Val.num 5] ++ [Val.str (bytesOf "y"), Val.num 4])
        = some (bytesOf ",\"x\":5" ++ bytesOf ",\"y\":4") := by
  have h := (C20_context_equals_call_site initWorld 1 ⟨[], 0, 1000⟩ (bytesOf "test")
    (bytesOf "3") [Val.str (bytesOf "x"), Val.num 5] [Val.str (bytesOf "y"), Val.num 4]
    [Val.str (bytesOf "z"), Val.num 3] rfl rfl (by decide) (by decide) (by decide)).1 []
  exact ⟨rfl, rfl, by decide, by decide, by decide, h.trans (by decide)⟩

/-- C21: between its two quotes `writeJSONString` writes no raw newline, carriage return,
tab, backspace or form feed, and every quote among those bytes follows a run of
backslashes of odd length, while the closing quote follows a run of even length.  A
reader that has passed the opening quote therefore finds the end of the string at the
closing quote and nowhere before, whatever follows.  So the message of a document and a
string value of a field stay closed: around the message the document is the same
for every message, and the text after the message string is what the emitter wrote
there (context prefix, fields, closing brace, newline). -/
theorem C21_string_stays_closed (e : Emitter) (now buf tag : Bytes) (level : Level)
    (fields : List Val) (hlen : fields.length % 2 = 0) :
    (∀ out s : Bytes, writeJSONString out s = out ++ [34] ++ stringBody s ++ [34])
      ∧ (∀ s : Bytes, ∀ b ∈ stringBody s, b ≠ 10 ∧ b ≠ 13 ∧ b ≠ 9 ∧ b ≠ 8 ∧ b ≠ 12)
      ∧ (∀ s pre post : Bytes, stringBody s = pre ++ 34 :: post → backslashRun pre % 2 = 1)
      ∧ (∀ s : Bytes, backslashRun (stringBody s) % 2 = 0)
      ∧ (∀ s rest : Bytes,
          scanString false (stringBody s ++ 34 :: rest) = some (stringBody s, rest))
      ∧ (∀ out s : Bytes, writeValue out (Val.str s) = out ++ [34] ++ stringBody s ++ [34])
      ∧ ∃ pre tail : Bytes,
          tail = e.context ++ encode fields ++ [125, 10]
          ∧ ∀ message : Bytes,
              assemble e now buf tag level message fields
                = some (pre ++ [34] ++ stringBody message ++ 34 :: tail)
              ∧ scanString false (stringBody message ++ 34 :: tail)
                = some (stringBody message, tail) := by
  refine ⟨writeJSONString_body, ?_, ?_, ?_, ?_, ?_, ?_⟩
  · intro s b hb
    rw [stringBody_eq, List.mem_flatMap] at hb
    obtain ⟨a, _, ha⟩ := hb
    exact escapeByte_no_control a b ha
  · intro s pre post h
    rw [stringBody_eq] at h
    obtain ⟨s1, s2, _, e2, _⟩ := quote_in_escaped s pre post h
    have h0 := backslashRun_escaped s1
    rw [e2, backslashRun_snoc]
    simp only [if_true]
    omega
  · intro s
    rw [stringBody_eq]
    exact backslashRun_escaped s
  · intro s rest
    rw [stringBody_eq]
    exact scanString_escaped s rest
  · intro out s
    exact writeJSONString_body out s
  · refine ⟨buf ++ [123]
        ++ (if e.TimeFormat ≠ [] then bytesOf "\"time\":\"" ++ now ++ bytesOf "\"," else [])
        ++ bytesOf "\"tag\":\"" ++ tag ++ bytesOf "\","
        ++ bytesOf "\"level\":\"" ++ Level.String level ++ bytesOf "\""
        ++ bytesOf ",\"msg\":",
      e.context ++ encode fields ++ [125, 10], rfl, ?_⟩
    intro message
    refine ⟨?_, ?_⟩
    · rw [assemble_even e now buf tag level message fields hlen]
      simp only [document, docHead, encode, writeJSONString_body [] message]
      simp [List.append_assoc]
    · rw [stringBody_eq]
      exact scanString_escaped message _

/-- Witness of C21: a message that tries to close its string and to add a key is written
with its quotes escaped, and the reader gets it back whole as the body of one string. -/
theorem C21_string_stays_closed_witness :
    ([] : List Val).length % 2 = 0
      ∧ stringBody (bytesOf "x\",\"admin\":\"1") = bytesOf "x\\\",\\\"admin\\\":\\\"1"
      ∧ ∀ rest : Bytes,
          scanString false (stringBody (bytesOf "x\",\"admin\":\"1") ++ 34 :: rest)
            = some (bytesOf "x\\\",\\\"admin\\\":\\\"1", rest) := by
  have h := C21_string_stays_closed (initWorld.heap 1) [] [] (bytesOf "test") Info []
    (by decide)
  have hb : stringBody (bytesOf "x\",\"admin\":\"1") = bytesOf "x\\\",\\\"admin\\\":\\\"1" := by
    decide
  refine ⟨by decide, hb, ?_⟩
  intro rest
  have h5 := h.2.2.2.2.1 (bytesOf "x\",\"admin\":\"1") rest
  rw [hb] at h5
  exact h5

/-- C22: the value switch of `writeFields` takes the first case that applies in the order
string, byte sequence, Stringer, numeric or boolean primitive, error, generic.  A value
with a `String()` method is written as the quoted, escaped result of `String()`, alone
and as the value of a pair; so is a value of a defined integer type with that method,
which differs from the unquoted number, and so is a value that is an error as well,
whatever `Error()` returns.  Without `String()` an error is written by `Error()` and a
defined integer type as the quoted number.  The fields of the test case E come out as
the test expects. -/
theorem C22_stringer_first (buf : Bytes) (k v : Val) (t : Bytes) (h : v.stringer = some t) :
    (∀ (out : Bytes) (u : Val), writeValue out u = firstMatch out u)
      ∧ writeValue buf v = buf ++ bytesOf "\"" ++ t.flatMap escapeByte ++ bytesOf "\""
      ∧ writeFields buf [k, v]
          = some (buf ++ bytesOf ",\"" ++ keyText k ++ bytesOf "\":\""
              ++ t.flatMap escapeByte ++ bytesOf "\"")
      ∧ (∀ (n : Int) (err : Option Bytes),
          (definedInt n (some t) err).stringer = some t
            ∧ writeValue buf (definedInt n (some t) err) = writeJSONString buf t
            ∧ writeValue buf (definedInt n (some t) err) ≠ writeValue buf (Val.num n))
      ∧ (∀ (e e2 : Option Bytes) (f f2 : Bytes),
          writeValue buf (Val.other (some t) e f) = writeJSONString buf t
            ∧ writeValue buf (Val.other (some t) e f) = writeValue buf (Val.other (some t) e2 f2))
      ∧ (∀ e f : Bytes, writeValue buf (Val.other none (some e) f) = writeJSONString buf e)
      ∧ (∀ n : Int, writeValue buf (definedInt n none none) = writeJSONString buf (intText n))
      ∧ render (levelVal Warn) = bytesOf "\"warn\""
      ∧ render (Val.num 2) = bytesOf "2"
      ∧ render (Val.other (some (bytesOf "ok")) (some (bytesOf "boom")) (bytesOf "boom"))
          = bytesOf "\"ok\""
      ∧ writeFields []
          [Val.str (bytesOf "error"),
            Val.other none (some (bytesOf "Hello World")) (bytesOf "Hello World"),
            Val.str (bytesOf "t"), Val.other (some (bytesOf "Hi - Ho")) none (bytesOf "Hi - Ho")]
          = some (bytesOf ",\"error\":\"Hello World\",\"t\":\"Hi - Ho\"") := by
  have hv : writeValue buf v = buf ++ bytesOf "\"" ++ t.flatMap escapeByte ++ bytesOf "\"" := by
    rw [writeValue_stringer buf v t h, writeJSONString_eq]
    have hq : bytesOf "\"" = [34] := by decide
    simp [hq]
  refine ⟨writeValue_firstMatch, hv, ?_, ?_, ?_, ?_, ?_, by decide, by decide, by decide,
    by decide⟩
  · have hq : bytesOf "\"" = [34] := by decide
    have h1 : bytesOf ",\"" = [44, 34] := by decide
    have h2 : bytesOf "\":\"" = [34, 58, 34] := by decide
    have h3 : bytesOf "\":" = [34, 58] := by decide
    simp only [writeFields]
    rw [writeValue_stringer _ v t h, writeJSONString_eq, hq, h1, h2, h3]
    simp
  · intro n err
    refine ⟨rfl, rfl, ?_⟩
    exact quoted_ne_number buf t n
  · intro e e2 f f2
    exact ⟨rfl, rfl⟩
  · intro e f
    rfl
  · intro n
    rfl

/-- Witness of C22: the level Warn passed as the value of the key `lvl` is written as
the quoted name, not as the number 2. -/
theorem C22_stringer_first_witness :
    (levelVal Warn).stringer = some (bytesOf "warn")
      ∧ writeFields [] [Val.str (bytesOf "lvl"), levelVal Warn]
          = some (bytesOf ",\"lvl\":\"warn\"") := by
  have h := C22_stringer_first [] (Val.str (bytesOf "lvl")) (levelVal Warn) (bytesOf "warn")
    (by decide)
  refine ⟨by decide, ?_⟩
  rw [h.2.2.1]
  decide

/-- C23: `SetHook(h)` and `SetWithTime()` make `Default` point to a new emitter object,
at an address not allocated before and different from the old default: after `SetHook(h)`
it has level Info, the standard-error sink, no time format, the hook `h` and no context
prefix; after `SetWithTime()` level Info, the standard-error sink, the RFC3339 time format
and no hook.  The old default object and every other object stay as they were, and so do
the other package variables, the pool and the effects.  This holds for every state
before the call: a level set by `SetLevel`, a time format set by `SetWithTime`, a hook
set by `SetHook` and the sink of the test mode are not carried over.  `SetLevel` leaves
`Default` pointing to the same object and changes its level only. -/
theorem C23_setters_replace (w : World) (h : Option Nat) (d : Nat) (s : Bytes)
    (sink : Nat) (hd : w.Default = some d) (hal : Allocated w d) :
    ((SetHook w h).Default = some w.next ∧ w.next ≠ d ∧ ¬ Allocated w w.next
        ∧ defaultEmitter (SetHook w h)
          = some { Level := Info, Output := Stderr, TimeFormat := [], Hook := h, context := [] }
        ∧ (SetHook w h).heap d = w.heap d
        ∧ (∀ q : Nat, q ≠ w.next → (SetHook w h).heap q = w.heap q)
        ∧ (SetHook w h)._logger = w._logger ∧ (SetHook w h)._exit = w._exit
        ∧ (SetHook w h)._exitCode = w._exitCode ∧ (SetHook w h).pool = w.pool
        ∧ (SetHook w h).trace = w.trace)
      ∧ ((SetWithTime w).Default = some w.next
        ∧ defaultEmitter (SetWithTime w)
          = some { Level := Info, Output := Stderr, TimeFormat := RFC3339, Hook := none,
                   context := [] }
        ∧ RFC3339 = bytesOf "2006-01-02T15:04:05Z07:00"
        ∧ (SetWithTime w).heap d = w.heap d
        ∧ (∀ q : Nat, q ≠ w.next → (SetWithTime w).heap q = w.heap q)
        ∧ (SetWithTime w)._logger = w._logger ∧ (SetWithTime w)._exit = w._exit
        ∧ (SetWithTime w)._exitCode = w._exitCode ∧ (SetWithTime w).pool = w.pool
        ∧ (SetWithTime w).trace = w.trace)
      ∧ (∃ w2, SetLevel w s = some w2
        ∧ w2.Default = some d
        ∧ defaultEmitter w2 = some { w.heap d with Level := parseLevel s }
        ∧ (∀ q : Nat, q ≠ d → w2.heap q = w.heap q)
        ∧ w2.next = w.next
        ∧ (defaultEmitter (SetHook w2 h)).map Emitter.Level = some Info
        ∧ (defaultEmitter (SetWithTime w2)).map Emitter.Level = some Info)
      ∧ (defaultEmitter (SetHook (SetWithTime w) h)).map Emitter.TimeFormat = some []
      ∧ (defaultEmitter (SetWithTime (SetHook w h))).map Emitter.Hook = some none
      ∧ (∃ w3, SetTestMode w true [sink] = some w3
        ∧ (defaultEmitter w3).map Emitter.Output = some sink
        ∧ (defaultEmitter (SetHook w3 h)).map Emitter.Output = some Stderr
        ∧ (defaultEmitter (SetWithTime w3)).map Emitter.Output = some Stderr) := by
  have hne : w.next ≠ d := fun e => absurd hal (by simp [Allocated, e])
  have hne2 : d ≠ w.next := fun e => hne e.symm
  obtain ⟨a1, a2, a3, _⟩ := setHook_default w h
  obtain ⟨b1, b2, b3, _⟩ := setWithTime_default w
  refine ⟨⟨a1, hne, by simp [Allocated], defaultEmitter_setHook w h, a3 d hne2, a3,
      rfl, rfl, rfl, rfl, rfl⟩,
    ⟨b1, defaultEmitter_setWithTime w, rfl, b3 d hne2, b3, rfl, rfl, rfl, rfl, rfl⟩,
    ?_, ?_, ?_, ?_⟩
  · refine ⟨assignAt w d fun e => { e with Level := parseLevel s }, by simp [SetLevel, hd],
      hd, by simp [defaultEmitter, assignAt, hd], ?_, rfl, ?_, ?_⟩
    · intro q hq
      simp [assignAt, Function.update_noteq hq]
    · rw [defaultEmitter_setHook]; rfl
    · rw [defaultEmitter_setWithTime]; rfl
  · rw [defaultEmitter_setHook]; rfl
  · rw [defaultEmitter_setWithTime]; rfl
  · obtain ⟨w3, h1, h2, h3, _⟩ := setTestMode_on w sink d [] hd
    refine ⟨w3, h1, ?_, ?_, ?_⟩
    · simp [defaultEmitter, h2, h3]
    · rw [defaultEmitter_setHook]; rfl
    · rw [defaultEmitter_setWithTime]; rfl

/-- Witness of C23 at the initial package state: after `SetLevel("error")` the default
has level Error, and a following `SetHook` gives a default at level Info again. -/
theorem C23_setters_replace_witness :
    initWorld.Default = some 1 ∧ Allocated initWorld 1
      ∧ defaultEmitter (SetHook initWorld (some 7))
        = some { Level := Info, Output := Stderr, TimeFormat := [], Hook := some 7,
                 context := [] }
      ∧ ∃ w2, SetLevel initWorld (bytesOf "error") = some w2
        ∧ (defaultEmitter w2).map Emitter.Level = some Error
        ∧ (defaultEmitter (SetHook w2 (some 7))).map Emitter.Level = some Info := by
  have h := C23_setters_replace initWorld (some 7) 1 (bytesOf "error") 5 rfl (by decide)
  obtain ⟨w2, h1, _, h3, _, _, h6, _⟩ := h.2.2.1
  refine ⟨rfl, by decide, h.1.2.2.2.1, w2, h1, ?_, h6⟩
  rw [h3]
  decide

end Log
